import Mathlib

/-!
# A shallow embedding of wire's provider-graph analyzer and call-plan solver

This file embeds the core of the `internal/wire` package — the data model
(`Provider`, `Value`, `IfaceBinding`, `ProviderSet`, `ProvidedType`), the
provider-map builder (`buildProviderMap`), the acyclicity check
(`verifyAcyclic`), the call-plan solver (`solve`) and the generator's
signature checks (`funcOutput`, `gen.inject`) — and proves properties of the
embedded definitions.

Modelling conventions:
* `go/types.Type` is an opaque identity-comparable handle, embedded as `Nat`;
  `types.Identical` is equality of handles.  The designated handles `errorTy`
  and `cleanupTy` stand for the types `error` and `func()`.
* `typeutil.Map` is an association list with `tmAt` / `tmSet`;
  `Map.Iterate` iterates in list order.
* Pointer identity of a `*ProviderSet` is modelled by the `id` field;
  pointer identity of `*Provider` / `*Value` / `*IfaceBinding` records stored
  into `srcMap` is modelled by structural equality (the records are built once
  and never mutated).
* Error values carry the data rendered into the Go diagnostics (types, names,
  dependency chains, cycle trails); the exact message strings are not
  modelled.
* The two stack-driven loops (in `solve` and `verifyAcyclic`) are embedded as
  fuel-indexed step functions that return the leftover fuel, so that runs
  compose; termination of `verifyAcyclic` within an explicit fuel bound is
  proved below.
-/

deriving instance DecidableEq for Except

namespace Wire

/-- Opaque handle for a `go/types.Type`; `types.Identical` is equality. -/
abbrev Ty := Nat

/-- The handle of the predeclared `error` type. -/
def errorTy : Ty := 0

/-- The handle of the cleanup type `func()`. -/
def cleanupTy : Ty := 1

/-- `ProviderInput` describes an incoming edge in the provider graph. -/
structure ProviderInput where
  type : Ty
deriving DecidableEq

/-- `Provider` records the signature of a provider: a function or a named
struct type. -/
structure Provider where
  importPath : String
  name : String
  pos : Nat
  args : List ProviderInput
  isStruct : Bool
  fields : List String
  out : List Ty
  hasCleanup : Bool
  hasErr : Bool
deriving DecidableEq

/-- `Value` describes a `wire.Value` expression; `expr` is an opaque handle
for the `ast.Expr`. -/
structure Value where
  pos : Nat
  out : Ty
  expr : Nat
deriving DecidableEq

/-- `IfaceBinding` declares that `provided` satisfies inputs of type
`iface`. -/
structure IfaceBinding where
  iface : Ty
  provided : Ty
  pos : Nat
deriving DecidableEq

/-- `ProvidedType` is a pointer to a `Provider` or a `Value` together with the
concrete type `t` that it provides; the zero value has both pointers nil. -/
structure ProvidedType where
  t : Ty
  p : Option Provider
  v : Option Value
deriving DecidableEq

/-- The zero `ProvidedType`. -/
def ProvidedType.nilPT : ProvidedType := ⟨0, none, none⟩

/-- `ProvidedType.IsNil` reports whether `pv` is the zero value. -/
def ProvidedType.IsNil (pv : ProvidedType) : Bool := pv.p.isNone && pv.v.isNone

/-- `ProvidedType.ConcreteType` returns the concrete type that was provided. -/
def ProvidedType.ConcreteType (pv : ProvidedType) : Ty := pv.t

/-- `providerSetSrc` captures which member of a provider set introduced a
type; exactly one field is set.  `imprt` stores the identity of the imported
`*ProviderSet`. -/
structure ProviderSetSrc where
  provider : Option Provider
  binding : Option IfaceBinding
  value : Option Value
  imprt : Option Nat
deriving DecidableEq

/-- The `providerSetSrc` with no fields set (never stored by the builder). -/
def ProviderSetSrc.empty : ProviderSetSrc := ⟨none, none, none, none⟩

/-- `typeutil.Map.At`: the value stored at key `t`, if any. -/
def tmAt {α : Type} (m : List (Ty × α)) (t : Ty) : Option α :=
  (m.find? (fun e => e.1 == t)).map (·.2)

/-- `typeutil.Map.Set`: replace the value at key `t`, or append a new entry. -/
def tmSet {α : Type} (m : List (Ty × α)) (t : Ty) (v : α) : List (Ty × α) :=
  match m with
  | [] => [(t, v)]
  | e :: rest => if e.1 = t then (t, v) :: rest else e :: tmSet rest t v

/-- `typeutil.Map.Keys`. -/
def tmKeys {α : Type} (m : List (Ty × α)) : List Ty := m.map (·.1)

/-- A `ProviderSet` describes a set of providers: its direct members and, once
built, the derived `providerMap` and `srcMap` (which include all imported
types).  The `id` field models the pointer identity of the `*ProviderSet`. -/
inductive ProviderSet : Type where
  | mk (id pos : Nat) (pkgPath varName : String)
      (providers : List Provider) (bindings : List IfaceBinding)
      (values : List Value) (imports : List ProviderSet)
      (providerMap : List (Ty × ProvidedType))
      (srcMap : List (Ty × ProviderSetSrc)) : ProviderSet

def ProviderSet.id : ProviderSet → Nat
  | .mk i _ _ _ _ _ _ _ _ _ => i

def ProviderSet.pos : ProviderSet → Nat
  | .mk _ p _ _ _ _ _ _ _ _ => p

def ProviderSet.pkgPath : ProviderSet → String
  | .mk _ _ p _ _ _ _ _ _ _ => p

def ProviderSet.varName : ProviderSet → String
  | .mk _ _ _ v _ _ _ _ _ _ => v

def ProviderSet.providers : ProviderSet → List Provider
  | .mk _ _ _ _ p _ _ _ _ _ => p

def ProviderSet.bindings : ProviderSet → List IfaceBinding
  | .mk _ _ _ _ _ b _ _ _ _ => b

def ProviderSet.values : ProviderSet → List Value
  | .mk _ _ _ _ _ _ v _ _ _ => v

def ProviderSet.imports : ProviderSet → List ProviderSet
  | .mk _ _ _ _ _ _ _ i _ _ => i

def ProviderSet.providerMap : ProviderSet → List (Ty × ProvidedType)
  | .mk _ _ _ _ _ _ _ _ m _ => m

def ProviderSet.srcMap : ProviderSet → List (Ty × ProviderSetSrc)
  | .mk _ _ _ _ _ _ _ _ _ s => s

/-- `ProviderSet.For` returns the `ProvidedType` for `t`, or the zero
`ProvidedType`. -/
def ProviderSet.For (s : ProviderSet) (t : Ty) : ProvidedType :=
  match tmAt s.providerMap t with
  | none => ProvidedType.nilPT
  | some pt => pt

/-- The analyzer's diagnostics, carrying the data rendered into each Go error
message. -/
inductive Err : Type where
  | multipleInputs (t : Ty)
  | inputConflictsWithProvider (t : Ty) (name : String) (pos : Nat)
  | inputConflictsWithValue (t : Ty) (pos : Nat)
  | noProviderOutputOfInjector (t : Ty)
  | noProviderFor (t : Ty) (neededBy : List Ty)
  | multipleBindings (t : Ty)
  | noBindingFor (t : Ty) (pos : Nat)
  | cycleFor (t : Ty) (trail : List Ty)
  | unusedProviderSet (varName : String)
  | unusedProvider (name : String)
  | unusedValue (t : Ty)
  | unusedBinding (iface : Ty)
  | wrongSignatureProvider (name : String) (msg : String)
  | multipleParamsOfSameType (name : String) (t : Ty)
  | injectBadSignature (name : String) (msg : String)
  | providerReturnsCleanupButInjectorDoesNot (name : String) (out : Ty)
  | providerReturnsErrButInjectorDoesNot (name : String) (out : Ty)
deriving DecidableEq

/-! ## buildProviderMap -/

/-- The state threaded through `buildProviderMap`: the two maps under
construction and the `errorCollector`. -/
structure BuildSt where
  providerMap : List (Ty × ProvidedType)
  srcMap : List (Ty × ProviderSetSrc)
  errors : List Err
deriving DecidableEq

/-- One step of the import-flattening pass: copy one `(key, value)` pair from
an imported set's `providerMap`, reporting a binding conflict if the key is
already present. -/
def addImportEntry (src : ProviderSetSrc) (st : BuildSt) (kv : Ty × ProvidedType) :
    BuildSt :=
  if (tmAt st.srcMap kv.1).isSome then
    { st with errors := st.errors ++ [.multipleBindings kv.1] }
  else
    { st with providerMap := tmSet st.providerMap kv.1 kv.2,
              srcMap := tmSet st.srcMap kv.1 src }

/-- The import-flattening pass of `buildProviderMap`. -/
def buildImports (imports : List ProviderSet) : BuildSt :=
  imports.foldl
    (fun st imp => imp.providerMap.foldl (addImportEntry ⟨none, none, none, some imp.id⟩) st)
    ⟨[], [], []⟩

/-- Add one output type of a direct provider. -/
def addProviderOut (p : Provider) (st : BuildSt) (typ : Ty) : BuildSt :=
  if (tmAt st.srcMap typ).isSome then
    { st with errors := st.errors ++ [.multipleBindings typ] }
  else
    { st with providerMap := tmSet st.providerMap typ ⟨typ, some p, none⟩,
              srcMap := tmSet st.srcMap typ ⟨some p, none, none, none⟩ }

/-- The direct-provider and value pass of `buildProviderMap`. -/
def buildProvidersValues (providers : List Provider) (values : List Value)
    (st : BuildSt) : BuildSt :=
  let st2 := providers.foldl (fun st p => p.out.foldl (addProviderOut p) st) st
  values.foldl
    (fun st v =>
      if (tmAt st.srcMap v.out).isSome then
        { st with errors := st.errors ++ [.multipleBindings v.out] }
      else
        { st with providerMap := tmSet st.providerMap v.out ⟨v.out, none, some v⟩,
                  srcMap := tmSet st.srcMap v.out ⟨none, none, some v, none⟩ })
    st2

/-- The binding pass of `buildProviderMap`: the interface type must not yet be
a key, and the provided type must already be one; the interface key shares the
provided type's entry. -/
def buildBindings (bindings : List IfaceBinding) (st : BuildSt) : BuildSt :=
  bindings.foldl
    (fun st b =>
      if (tmAt st.srcMap b.iface).isSome then
        { st with errors := st.errors ++ [.multipleBindings b.iface] }
      else
        match tmAt st.providerMap b.provided with
        | none => { st with errors := st.errors ++ [.noBindingFor b.provided b.pos] }
        | some concrete =>
          { st with providerMap := tmSet st.providerMap b.iface concrete,
                    srcMap := tmSet st.srcMap b.iface ⟨none, some b, none, none⟩ })
    st

/-- `buildProviderMap` creates the `providerMap` and `srcMap` for a provider
set; each pass collects all of its errors before an early return. -/
def buildProviderMap (set : ProviderSet) :
    Except (List Err) (List (Ty × ProvidedType) × List (Ty × ProviderSetSrc)) :=
  let st1 := buildImports set.imports
  if st1.errors ≠ [] then .error st1.errors
  else
    let st3 := buildProvidersValues set.providers set.values st1
    if st3.errors ≠ [] then .error st3.errors
    else
      let st4 := buildBindings set.bindings st3
      if st4.errors ≠ [] then .error st4.errors
      else .ok (st4.providerMap, st4.srcMap)

/-! ## verifyAcyclic -/

/-- `types.TypeString` of a type handle (used only for sorting roots and in
diagnostics). -/
def typeString (t : Ty) : String := Nat.repr t

/-- Insert a key into a sorted list of keys (ordered by `le`). -/
def insertSorted (le : Ty → Ty → Bool) (x : Ty) : List Ty → List Ty
  | [] => [x]
  | y :: ys => if le x y then x :: y :: ys else y :: insertSorted le x ys

/-- Insertion sort by `le`. -/
def sortByLe (le : Ty → Ty → Bool) : List Ty → List Ty
  | [] => []
  | x :: xs => insertSorted le x (sortByLe le xs)

/-- Lexicographic comparison of character sequences by code point (the
ordering Go uses on strings). -/
def charListLe : List Char → List Char → Bool
  | [], _ => true
  | _ :: _, [] => false
  | a :: as, b :: bs =>
    if a.toNat < b.toNat then true
    else if b.toNat < a.toNat then false
    else charListLe as bs

/-- The Boolean comparison used to sort DFS roots: textual type
representation order. -/
def typeStrLe (a b : Ty) : Bool := charListLe (typeString a).data (typeString b).data

/-- The deterministic root order of `verifyAcyclic`: keys sorted by their
textual type representation (`sort.Slice`; since the textual representations
of distinct keys are distinct, any correct sort produces this order). -/
def sortRoots (keys : List Ty) : List Ty := sortByLe typeStrLe keys

/-- The state of the acyclicity DFS: the shared visited set and the
`errorCollector`. -/
structure VaSt where
  visited : List Ty
  errors : List Err
deriving DecidableEq

/-- Process a freshly visited head of a DFS trail: for each argument of its
provider, either report a cycle (the argument already occurs in the trail) or
produce the extended trail to push.  Values and unresolved inputs are
leaves. -/
def vaProcessHead (pm : List (Ty × ProvidedType)) (curr : List Ty) (head : Ty)
    (st : VaSt) : List (List Ty) × VaSt :=
  match tmAt pm head with
  | none => ([], st)
  | some pt =>
    if pt.v.isSome then ([], st)
    else
      match pt.p with
      | none => ([], st)
      | some p =>
        p.args.foldl
          (fun acc arg =>
            let a := arg.type
            if a ∈ curr then
              (acc.1, { acc.2 with
                errors := acc.2.errors ++ [.cycleFor a (curr.dropWhile (fun b => ¬b = a))] })
            else (acc.1 ++ [curr ++ [a]], acc.2))
          ([], st)

/-- The inner DFS loop of `verifyAcyclic`, over a stack of trails; returns the
leftover fuel. -/
def vaLoop (pm : List (Ty × ProvidedType)) :
    Nat → List (List Ty) → VaSt → Option (Nat × VaSt)
  | fuel, [], st => some (fuel, st)
  | 0, _ :: _, _ => none
  | fuel + 1, curr :: rest, st =>
    match curr.getLast? with
    | none => vaLoop pm fuel rest st
    | some head =>
      if head ∈ st.visited then vaLoop pm fuel rest st
      else
        let st1 : VaSt := { st with visited := head :: st.visited }
        let pr := vaProcessHead pm curr head st1
        vaLoop pm fuel (pr.1.reverse ++ rest) pr.2

/-- The largest argument count among the providers in the map (used for the
fuel bound of the DFS). -/
def maxArgs (pm : List (Ty × ProvidedType)) : Nat :=
  pm.foldl
    (fun m e => max m (match e.2.p with | some p => p.args.length | none => 0)) 0

/-- A fuel bound sufficient for one root's DFS (proved below). -/
def vaFuel (pm : List (Ty × ProvidedType)) : Nat :=
  1 + (1 + maxArgs pm) * (tmKeys pm).length

/-- `verifyAcyclic`, fuel-explicit: DFS from every root in sorted order with a
shared visited set. -/
def verifyAcyclicRun (pm : List (Ty × ProvidedType)) : Option (List Err) :=
  ((sortRoots (tmKeys pm)).foldlM
      (fun (st : VaSt) root => (vaLoop pm (vaFuel pm) [[root]] st).map (·.2))
      ⟨[], []⟩).map (·.errors)

/-- `verifyAcyclic` guarantees the graph derived from `providerMap` has no
cycle; the fuel bound never runs out (`verifyAcyclicRun_isSome` below). -/
def verifyAcyclic (pm : List (Ty × ProvidedType)) : List Err :=
  (verifyAcyclicRun pm).getD []

/-- The trails pushed by processing a head with trail `curr` and the given
argument types: one extended trail per argument not already on the trail, in
argument order. -/
def vaPushes (curr : List Ty) : List Ty → List (List Ty)
  | [] => []
  | a :: as => if a ∈ curr then vaPushes curr as else (curr ++ [a]) :: vaPushes curr as

/-- The cycle errors emitted by processing a head with trail `curr`: one per
argument already on the trail (a back edge), in argument order. -/
def vaErrs (curr : List Ty) : List Ty → List Err
  | [] => []
  | a :: as =>
    if a ∈ curr then
      Err.cycleFor a (curr.dropWhile (fun b => ¬b = a)) :: vaErrs curr as
    else vaErrs curr as

/-- One iteration of the acyclicity DFS on the popped trail `curr`: the trails
to push (top first) and the new state. -/
def vaStep (pm : List (Ty × ProvidedType)) (curr : List Ty) (st : VaSt) :
    List (List Ty) × VaSt :=
  match curr.getLast? with
  | none => ([], st)
  | some head =>
    if head ∈ st.visited then ([], st)
    else
      let st1 : VaSt := { st with visited := head :: st.visited }
      let pr := vaProcessHead pm curr head st1
      (pr.1.reverse, pr.2)

/-! ## processNewSet -/

/-- `processNewSet` (the analysis part, after the members have been lowered):
build the provider map, then check acyclicity; on any error the set is
rejected and no injector is ever solved against it. -/
def processNewSet (id pos : Nat) (pkgPath varName : String)
    (providers : List Provider) (bindings : List IfaceBinding)
    (values : List Value) (imports : List ProviderSet) :
    Except (List Err) ProviderSet :=
  let pset0 : ProviderSet :=
    .mk id pos pkgPath varName providers bindings values imports [] []
  match buildProviderMap pset0 with
  | .error errs => .error errs
  | .ok (pm, sm) =>
    match verifyAcyclic pm with
    | [] => .ok (.mk id pos pkgPath varName providers bindings values imports pm sm)
    | errs => .error errs

/-! ## solve -/

/-- The code pattern of a step of an injector function. -/
inductive CallKind : Type where
  | funcProviderCall
  | structProvider
  | valueExpr
deriving DecidableEq

/-- A `call` represents one step of an injector function.  `args` elements
are either one of the givens (`args[i] < len given`) or the result of a
previous call (`args[i] ≥ len given`).  Fields not applicable to the kind
hold their zero values, as in the Go struct. -/
structure Call where
  kind : CallKind
  out : Ty
  importPath : String
  name : String
  args : List Nat
  fieldNames : List String
  ins : List Ty
  hasCleanup : Bool
  hasErr : Bool
  valueExpr : Nat
deriving DecidableEq

/-- An index entry: `some n` is the local-variable slot `n`; `none` is the
`errAbort` sentinel (visited, but failed due to a collected error). -/
abbrev IdxVal := Option Nat

/-- A DFS frame of `solve`: the type to produce, the type that needed it
(`from`), and the chain of ancestor types (the `up` pointers). -/
structure Frame where
  t : Ty
  frm : Option Ty
  up : List Ty
deriving DecidableEq

/-- The state threaded through `solve`'s DFS: the type-to-slot index, the
accumulated calls, the used-member list and the `errorCollector`. -/
structure SolveSt where
  index : List (Ty × IdxVal)
  calls : List Call
  used : List ProviderSetSrc
  errors : List Err
deriving DecidableEq

/-- The call record appended for a (non-binding) provider visit. -/
def mkProviderCall (p : Provider) (outT : Ty) (args : List Nat) : Call :=
  { kind := if p.isStruct then .structProvider else .funcProviderCall,
    out := outT, importPath := p.importPath, name := p.name,
    args := args, fieldNames := p.fields, ins := p.args.map (·.type),
    hasCleanup := p.hasCleanup, hasErr := p.hasErr, valueExpr := 0 }

/-- The call record appended for a value-expression visit. -/
def mkValueCall (v : Value) (outT : Ty) : Call :=
  { kind := .valueExpr, out := outT, importPath := "", name := "",
    args := [], fieldNames := [], ins := [],
    hasCleanup := false, hasErr := false, valueExpr := v.expr }

/-- The `providerSetSrc` recorded for the current type (the Go code asserts
presence; an absent entry is modelled by the empty record). -/
def srcFor (set : ProviderSet) (t : Ty) : ProviderSetSrc :=
  (tmAt set.srcMap t).getD ProviderSetSrc.empty

/-- The iterative DFS of `solve` (analyze.go), fuel-indexed, returning the
leftover fuel.  Each iteration pops one frame and follows exactly the Go
branch structure: already-indexed types are skipped; unprovided types record
an error and `errAbort`; interface bindings share the concrete type's slot or
push it; providers with unvisited arguments re-push themselves below their
missing arguments (in argument order); otherwise a call is appended unless an
argument aborted. -/
def solveLoop (set : ProviderSet) (given : List Ty) :
    Nat → List Frame → SolveSt → Option (Nat × SolveSt)
  | fuel, [], st => some (fuel, st)
  | 0, _ :: _, _ => none
  | fuel + 1, curr :: rest, st =>
    if (tmAt st.index curr.t).isSome then solveLoop set given fuel rest st
    else
      let pv := set.For curr.t
      if pv.IsNil then
        let e : Err := match curr.frm with
          | none => .noProviderOutputOfInjector curr.t
          | some _ => .noProviderFor curr.t curr.up
        solveLoop set given fuel rest
          { st with errors := st.errors ++ [e], index := tmSet st.index curr.t none }
      else
        match pv.p with
        | some p =>
          let st1 := { st with used := st.used ++ [srcFor set curr.t] }
          if pv.ConcreteType ≠ curr.t then
            match tmAt st1.index pv.ConcreteType with
            | none =>
              solveLoop set given fuel
                (⟨pv.ConcreteType, some curr.t, curr.t :: curr.up⟩ :: curr :: rest) st1
            | some i =>
              solveLoop set given fuel rest
                { st1 with index := tmSet st1.index curr.t i }
          else
            let missing := p.args.filter (fun a => (tmAt st1.index a.type).isNone)
            if missing ≠ [] then
              solveLoop set given fuel
                ((missing.map fun a => Frame.mk a.type (some curr.t) (curr.t :: curr.up))
                  ++ curr :: rest) st1
            else if p.args.any (fun a => tmAt st1.index a.type == some none) then
              solveLoop set given fuel rest
                { st1 with index := tmSet st1.index curr.t none }
            else
              let args := p.args.map (fun a => ((tmAt st1.index a.type).getD none).getD 0)
              solveLoop set given fuel rest
                { st1 with
                  index := tmSet st1.index curr.t (some (given.length + st1.calls.length)),
                  calls := st1.calls ++ [mkProviderCall p curr.t args] }
        | none =>
          match pv.v with
          | some v =>
            if v.out ≠ curr.t then
              match tmAt st.index v.out with
              | none =>
                solveLoop set given fuel
                  (⟨v.out, some curr.t, curr.t :: curr.up⟩ :: curr :: rest) st
              | some i =>
                solveLoop set given fuel rest { st with index := tmSet st.index curr.t i }
            else
              solveLoop set given fuel rest
                { st with used := st.used ++ [srcFor set curr.t],
                          index := tmSet st.index curr.t (some (given.length + st.calls.length)),
                          calls := st.calls ++ [mkValueCall v curr.t] }
          | none => solveLoop set given fuel rest st

/-- One iteration of `solve`'s DFS on the popped frame `curr`: the frames to
push (top first) and the new state.  `solveLoop (fuel+1) (curr :: rest)` is
`solveLoop fuel (frames ++ rest)` on the new state
(`solveLoop_cons_eq_step`). -/
def solveStep (set : ProviderSet) (given : List Ty) (curr : Frame) (st : SolveSt) :
    List Frame × SolveSt :=
  if (tmAt st.index curr.t).isSome then ([], st)
  else
    let pv := set.For curr.t
    if pv.IsNil then
      let e : Err := match curr.frm with
        | none => .noProviderOutputOfInjector curr.t
        | some _ => .noProviderFor curr.t curr.up
      ([], { st with errors := st.errors ++ [e], index := tmSet st.index curr.t none })
    else
      match pv.p with
      | some p =>
        let st1 := { st with used := st.used ++ [srcFor set curr.t] }
        if pv.ConcreteType ≠ curr.t then
          match tmAt st1.index pv.ConcreteType with
          | none => ([⟨pv.ConcreteType, some curr.t, curr.t :: curr.up⟩, curr], st1)
          | some i => ([], { st1 with index := tmSet st1.index curr.t i })
        else
          let missing := p.args.filter (fun a => (tmAt st1.index a.type).isNone)
          if missing ≠ [] then
            ((missing.map fun a => Frame.mk a.type (some curr.t) (curr.t :: curr.up))
              ++ [curr], st1)
          else if p.args.any (fun a => tmAt st1.index a.type == some none) then
            ([], { st1 with index := tmSet st1.index curr.t none })
          else
            let args := p.args.map (fun a => ((tmAt st1.index a.type).getD none).getD 0)
            ([], { st1 with
              index := tmSet st1.index curr.t (some (given.length + st1.calls.length)),
              calls := st1.calls ++ [mkProviderCall p curr.t args] })
      | none =>
        match pv.v with
        | some v =>
          if v.out ≠ curr.t then
            match tmAt st.index v.out with
            | none => ([⟨v.out, some curr.t, curr.t :: curr.up⟩, curr], st)
            | some i => ([], { st with index := tmSet st.index curr.t i })
          else
            ([], { st with
              used := st.used ++ [srcFor set curr.t],
              index := tmSet st.index curr.t (some (given.length + st.calls.length)),
              calls := st.calls ++ [mkValueCall v curr.t] })
        | none => ([], st)

/-- The duplicate-given pre-check of `solve`: one "multiple inputs of the same
type" error for every pair of identical givens, in declaration order. -/
def dupErrsAux : List Ty → List Ty → List Err
  | _, [] => []
  | seen, g :: gs =>
    (seen.filter (fun h => h == g)).map (fun _ => Err.multipleInputs g)
      ++ dupErrsAux (seen ++ [g]) gs

/-- All duplicate-given errors of the pre-check. -/
def inputDupErrors (given : List Ty) : List Err := dupErrsAux [] given

/-- The input-conflict pre-check of `solve`: givens whose type the set already
provides are errors; the others seed the index with their argument slots. -/
def initIndexAux (set : ProviderSet) :
    Nat → List Ty → List (Ty × IdxVal) × List Err → List (Ty × IdxVal) × List Err
  | _, [], acc => acc
  | i, g :: gs, (idx, errs) =>
    let pv := set.For g
    if pv.IsNil then initIndexAux set (i + 1) gs (tmSet idx g (some i), errs)
    else
      match pv.p with
      | some p =>
        initIndexAux set (i + 1) gs
          (idx, errs ++ [.inputConflictsWithProvider g p.name p.pos])
      | none =>
        match pv.v with
        | some v =>
          initIndexAux set (i + 1) gs (idx, errs ++ [.inputConflictsWithValue g v.pos])
        | none => initIndexAux set (i + 1) gs (idx, errs)

/-- The initial index and the input-conflict errors. -/
def initIndex (set : ProviderSet) (given : List Ty) :
    List (Ty × IdxVal) × List Err :=
  initIndexAux set 0 given ([], [])

/-- `verifyArgsUsed` ensures that every direct member of the set was used
during `solve`; pointer comparisons are modelled by identity of the records
(and the `id` for imported sets). -/
def verifyArgsUsed (set : ProviderSet) (used : List ProviderSetSrc) : List Err :=
  (set.imports.filterMap fun imp =>
    if used.any (fun u => u.imprt == some imp.id) then none
    else some (Err.unusedProviderSet imp.varName)) ++
  (set.providers.filterMap fun p =>
    if used.any (fun u => u.provider == some p) then none
    else some (Err.unusedProvider p.name)) ++
  (set.values.filterMap fun v =>
    if used.any (fun u => u.value == some v) then none
    else some (Err.unusedValue v.out)) ++
  (set.bindings.filterMap fun b =>
    if used.any (fun u => u.binding == some b) then none
    else some (Err.unusedBinding b.iface))

/-- `solve` finds the sequence of calls required to produce `out` from the
`given` inputs: the pre-checks, then the DFS, then the unused-member check.
`none` means the fuel ran out (the DFS did not terminate within `fuel`
iterations). -/
def solveRun (out : Ty) (given : List Ty) (set : ProviderSet) (fuel : Nat) :
    Option (Except (List Err) (List Call)) :=
  let dup := inputDupErrors given
  let ic := initIndex set given
  let errs0 := dup ++ ic.2
  if errs0 ≠ [] then some (.error errs0)
  else
    match solveLoop set given fuel [⟨out, none, []⟩] ⟨ic.1, [], [], []⟩ with
    | none => none
    | some (_, st) =>
      if st.errors ≠ [] then some (.error st.errors)
      else
        match verifyArgsUsed set st.used with
        | [] => some (.ok st.calls)
        | errs => some (.error errs)

/-! ## funcOutput and the generator's checks -/

/-- The decoded return signature of a provider or injector function. -/
structure OutputSignature where
  out : Ty
  cleanup : Bool
  err : Bool
deriving DecidableEq

/-- `funcOutput` validates an injector or provider function's return
signature: (out), (out, error), (out, cleanup) or (out, cleanup, error). -/
def funcOutput (results : List Ty) : Except String OutputSignature :=
  match results with
  | [] => .error "no return values"
  | [o] => .ok ⟨o, false, false⟩
  | [o, t] =>
    if t = errorTy then .ok ⟨o, false, true⟩
    else if t = cleanupTy then .ok ⟨o, true, false⟩
    else .error "second return type must be error or func()"
  | [o, t1, t2] =>
    if t1 ≠ cleanupTy then .error "second return type must be func()"
    else if t2 ≠ errorTy then .error "third return type must be error"
    else .ok ⟨o, true, true⟩
  | _ => .error "too many return values"

/-- A function declaration as seen by the lowering (symbol, parameter types,
result types). -/
structure FuncDecl where
  importPath : String
  name : String
  pos : Nat
  params : List Ty
  results : List Ty
deriving DecidableEq

/-- The first parameter type equal to an earlier one, if any. -/
def firstDupParamAux : List Ty → List Ty → Option Ty
  | _, [] => none
  | seen, p :: ps => if p ∈ seen then some p else firstDupParamAux (seen ++ [p]) ps

/-- The first duplicated parameter type of a function. -/
def firstDupParam (params : List Ty) : Option Ty := firstDupParamAux [] params

/-- `processFuncProvider` creates a provider for a function declaration:
validate the return signature with `funcOutput`, then reject duplicate
parameter types. -/
def processFuncProvider (fn : FuncDecl) : Except (List Err) Provider :=
  match funcOutput fn.results with
  | .error e => .error [.wrongSignatureProvider fn.name e]
  | .ok sig =>
    match firstDupParam fn.params with
    | some t => .error [.multipleParamsOfSameType fn.name t]
    | none =>
      .ok { importPath := fn.importPath, name := fn.name, pos := fn.pos,
            args := fn.params.map ProviderInput.mk, isStruct := false, fields := [],
            out := [sig.out], hasCleanup := sig.cleanup, hasErr := sig.err }

/-- `injectorFuncSignature` decodes an injector stub's signature with the same
`funcOutput` validation used for providers. -/
def injectorFuncSignature (params results : List Ty) :
    Except String (List Ty × OutputSignature) :=
  match funcOutput results with
  | .error e => .error e
  | .ok out => .ok (params, out)

/-- The per-call signature-compatibility check of `gen.inject`: a provider
returning a cleanup (resp. error) requires the injector to declare one. -/
def checkCalls (name : String) (sig : OutputSignature) :
    List Call → Except (List Err) Unit
  | [] => .ok ()
  | c :: cs =>
    if c.hasCleanup && !sig.cleanup then
      .error [.providerReturnsCleanupButInjectorDoesNot name c.out]
    else if c.hasErr && !sig.err then
      .error [.providerReturnsErrButInjectorDoesNot name c.out]
    else checkCalls name sig cs

/-- `gen.inject`: decode the injector's signature with `funcOutput`, solve for
the call list, then check cleanup/error compatibility of every call.  (Code
emission and value-expression accessibility belong to the external printer and
are not modelled.) -/
def inject (name : String) (params results : List Ty) (set : ProviderSet)
    (fuel : Nat) : Option (Except (List Err) (List Call)) :=
  match funcOutput results with
  | .error e => some (.error [.injectBadSignature name e])
  | .ok injectSig =>
    match solveRun injectSig.out params set fuel with
    | none => none
    | some (.error errs) => some (.error errs)
    | some (.ok calls) =>
      match checkCalls name injectSig calls with
      | .error errs => some (.error errs)
      | .ok _ => some (.ok calls)

/-! ## Spec-side descriptions

The following definitions follow the specification's words (not the code) and
are used to state that the code refines them. -/

/-- Spec: a function's return tuple has one of the four accepted shapes
`(output)`, `(output, error)`, `(output, cleanup)` or
`(output, cleanup, error)`, with the cleanup `func()` preceding `error`. -/
def validReturnShape (results : List Ty) : Prop :=
  ∃ o, results = [o] ∨ results = [o, errorTy] ∨ results = [o, cleanupTy] ∨
    results = [o, cleanupTy, errorTy]

/-- Spec: one "multiple inputs of the same type" error for every pair of
identical injector inputs, in declaration order of the later input. -/
def specMultipleInputErrs (given : List Ty) : List Err :=
  given.enum.flatMap fun p =>
    ((given.take p.1).filter (fun h => h == p.2)).map fun _ => Err.multipleInputs p.2

/-- Spec: the input-conflict error for one injector input, if its type is
already provided by the set. -/
def specInputConflict (set : ProviderSet) (g : Ty) : Option Err :=
  let pv := set.For g
  if pv.IsNil then none
  else
    match pv.p with
    | some p => some (.inputConflictsWithProvider g p.name p.pos)
    | none =>
      match pv.v with
      | some v => some (.inputConflictsWithValue g v.pos)
      | none => none

/-- Spec: the ordered key sequence that import flattening copies into a set's
map: every key of every imported set's `provider_map`, in declared order. -/
def importKeys (imports : List ProviderSet) : List Ty :=
  imports.flatMap fun imp => tmKeys imp.providerMap

/-- Spec: the ordered key sequence added by the direct provider/value pass:
each provider's outputs, then each value's output. -/
def directKeys (providers : List Provider) (values : List Value) : List Ty :=
  providers.flatMap (·.out) ++ values.map (·.out)

/-- Spec: inserting a sequence of keys over already-seen keys `seen` reports a
binding conflict for every insertion whose key was already seen, and keeps
collecting; only first occurrences are added. -/
def insertionConflicts : List Ty → List Ty → List Err
  | _, [] => []
  | seen, k :: ks =>
    if k ∈ seen then Err.multipleBindings k :: insertionConflicts seen ks
    else insertionConflicts (seen ++ [k]) ks

/-- Spec: the keys actually added by an insertion sequence (first occurrences
not already seen), in order. -/
def insertionAdded : List Ty → List Ty → List Ty
  | _, [] => []
  | seen, k :: ks =>
    if k ∈ seen then insertionAdded seen ks
    else k :: insertionAdded (seen ++ [k]) ks

/-- Spec: the binding pass over already-present keys `seen`: an interface that
is already a key conflicts; a provided type that is not yet a key is "no
binding for"; otherwise the interface key is added.  All errors are
collected. -/
def bindingPhaseErrs : List Ty → List IfaceBinding → List Err
  | _, [] => []
  | seen, b :: bs =>
    if b.iface ∈ seen then Err.multipleBindings b.iface :: bindingPhaseErrs seen bs
    else if b.provided ∈ seen then bindingPhaseErrs (seen ++ [b.iface]) bs
    else Err.noBindingFor b.provided b.pos :: bindingPhaseErrs seen bs

/-- Spec: the interface keys added by the binding pass. -/
def bindingPhaseAdded : List Ty → List IfaceBinding → List Ty
  | _, [] => []
  | seen, b :: bs =>
    if b.iface ∈ seen then bindingPhaseAdded seen bs
    else if b.provided ∈ seen then b.iface :: bindingPhaseAdded (seen ++ [b.iface]) bs
    else bindingPhaseAdded seen bs

/-- The dependency successors of a type in a built set, as traversed by
`solve`: an interface binding points to its concrete type, a directly provided
type to its provider's arguments, a value has none. -/
def solveSucc (set : ProviderSet) (t : Ty) : List Ty :=
  let pv := set.For t
  if pv.IsNil then []
  else
    match pv.p with
    | some p => if pv.ConcreteType ≠ t then [pv.ConcreteType] else p.args.map (·.type)
    | none =>
      match pv.v with
      | some v => if v.out ≠ t then [v.out] else []
      | none => []

/-- Acyclicity of a built set, witnessed by a rank function that strictly
decreases along every dependency edge out of a provider-map key (this is the
invariant the acyclicity check establishes). -/
def RankedAcyclic (set : ProviderSet) (rank : Ty → Nat) : Prop :=
  ∀ t ∈ tmKeys set.providerMap, ∀ s ∈ solveSucc set t, rank s < rank t

/-- No index entry is the `errAbort` sentinel (true of the initial index, and
preserved while no error has been collected). -/
def NoAbort (idx : List (Ty × IdxVal)) : Prop := ∀ t, tmAt idx t ≠ some none

/-- Invariant of `solve`'s DFS: every emitted call's output type is indexed,
and no two calls produce the same output type. -/
def CallsInv (st : SolveSt) : Prop :=
  (∀ c ∈ st.calls, (tmAt st.index c.out).isSome = true) ∧
  (st.calls.map Call.out).Nodup

/-- Well-formedness of a built provider map: the `ProvidedType` stored for a
type resolves in one step (an interface binding's entry is a copy of the
concrete type's entry, so following `ConcreteType` once reaches a fixed
point), concrete types of provided types are themselves provided, and a value
entry's concrete type is the value's output type.  `processNewSet` establishes
this for every set it builds. -/
def WellResolved (set : ProviderSet) : Prop :=
  ∀ t : Ty,
    (set.For ((set.For t).ConcreteType)).ConcreteType = (set.For t).ConcreteType ∧
    ((set.For t).IsNil = false → (set.For ((set.For t).ConcreteType)).IsNil = false) ∧
    (∀ v, (set.For t).v = some v → (set.For t).ConcreteType = v.out)

/-- The dependency successors of a type in a raw provider map, as traversed by
`verifyAcyclic`: a provider's argument types; values and absent keys are
leaves. -/
def vaSucc (pm : List (Ty × ProvidedType)) (t : Ty) : List Ty :=
  match tmAt pm t with
  | none => []
  | some pt =>
    if pt.v.isSome then []
    else
      match pt.p with
      | some p => p.args.map (·.type)
      | none => []

/-- A dependency edge of the graph derived from `provider_map`. -/
def vaEdge (pm : List (Ty × ProvidedType)) (a b : Ty) : Prop := b ∈ vaSucc pm a

/-- Spec: the graph contains a cycle through `t`: `t → p₁ → ⋯ → pₙ → t`. -/
def CycleAt (pm : List (Ty × ProvidedType)) (t : Ty) (p : List Ty) : Prop :=
  List.Chain (vaEdge pm) t (p ++ [t])

/-- Bounded reachability (used to state strong connectivity of concrete
graphs): the set of types reachable from `t` in at most `n` steps. -/
def reachWithin (pm : List (Ty × ProvidedType)) : Nat → Ty → List Ty
  | 0, t => [t]
  | n + 1, t => t :: (vaSucc pm t).flatMap (reachWithin pm n)

/-- Spec: every argument of call `k` refers to an injector input (`a < N`) or
to the output of a strictly earlier call (`a < N + k`). -/
def ArgsBounded (N : Nat) (calls : List Call) : Prop :=
  ∀ (k : Nat) (hk : k < calls.length), ∀ a ∈ calls[k].args, a < N + k

/-- Loop invariant of `solve`'s DFS: every slot stored in the index is below
`N + len calls`, and all existing calls satisfy `ArgsBounded`. -/
def IdxBounded (N : Nat) (st : SolveSt) : Prop :=
  (∀ t n, tmAt st.index t = some (some n) → n < N + st.calls.length) ∧
  ArgsBounded N st.calls

/-! ## Concrete example sets (used in counterexamples and witnesses) -/

/-- Provider `provBar : → 3` (type 3 models `*Bar`). -/
def exProvBar : Provider := ⟨"pkg", "provBar", 10, [], false, [], [3], false, false⟩

/-- Binding of interface type 2 (`Fooer`) to provided type 3 (`*Bar`). -/
def exBindFooer : IfaceBinding := ⟨2, 3, 11⟩

/-- The built set `{provBar, bind(Fooer, *Bar)}` of scenario S4. -/
def exS4 : ProviderSet :=
  match processNewSet 1 5 "pkg" "" [exProvBar] [exBindFooer] [] [] with
  | .ok s => s
  | .error _ => .mk 0 0 "" "" [] [] [] [] [] []

/-- Provider `provFoo : → 5`. -/
def exProvFoo : Provider := ⟨"p", "provFoo", 1, [], false, [], [5], false, false⟩

/-- Provider `provFooBar : 5 → 6`. -/
def exProvFooBar : Provider := ⟨"p", "provFooBar", 2, [⟨5⟩], false, [], [6], false, false⟩

/-- The built chain set `{provFoo, provFooBar}` of scenario S1. -/
def exS1 : ProviderSet :=
  match processNewSet 2 0 "p" "" [exProvFoo, exProvFooBar] [] [] [] with
  | .ok s => s
  | .error _ => .mk 0 0 "" "" [] [] [] [] [] []

/-- Provider `provBarX : → 7`. -/
def exProvBarX : Provider := ⟨"p", "provBarX", 3, [], false, [], [7], false, false⟩

/-- Provider `provFooBar2 : 5 × 7 → 6`. -/
def exProvFooBar2 : Provider := ⟨"p", "provFooBar2", 4, [⟨5⟩, ⟨7⟩], false, [], [6], false, false⟩

/-- The built set `{provBarX, provFooBar2}` of scenario S3. -/
def exS3 : ProviderSet :=
  match processNewSet 3 0 "p" "" [exProvBarX, exProvFooBar2] [] [] [] with
  | .ok s => s
  | .error _ => .mk 0 0 "" "" [] [] [] [] [] []

/-- Provider `provS : → 9`, the only member of the shared set. -/
def exProvS : Provider := ⟨"p", "provS", 1, [], false, [], [9], false, false⟩

/-- The shared imported set `S` of the diamond. -/
def exSetS : ProviderSet :=
  match processNewSet 100 0 "p" "S" [exProvS] [] [] [] with
  | .ok s => s
  | .error _ => .mk 0 0 "" "" [] [] [] [] [] []

/-- Importer `B` of the diamond (imports `S`). -/
def exSetB : ProviderSet :=
  match processNewSet 101 0 "p" "B" [] [] [] [exSetS] with
  | .ok s => s
  | .error _ => .mk 0 0 "" "" [] [] [] [] [] []

/-- Importer `C` of the diamond (imports `S`). -/
def exSetC : ProviderSet :=
  match processNewSet 102 0 "p" "C" [] [] [] [exSetS] with
  | .ok s => s
  | .error _ => .mk 0 0 "" "" [] [] [] [] [] []

/-- The unbuilt top set `A` of the diamond, importing `B` and `C`. -/
def exDiamondA : ProviderSet := .mk 103 0 "p" "A" [] [] [] [exSetB, exSetC] [] []

/-- Provider `pA : 21 × 22 → 20` of the one-SCC, two-back-edge cycle. -/
def exPA : Provider := ⟨"p", "pA", 1, [⟨21⟩, ⟨22⟩], false, [], [20], false, false⟩

/-- Provider `pB : 20 → 21`. -/
def exPB : Provider := ⟨"p", "pB", 2, [⟨20⟩], false, [], [21], false, false⟩

/-- Provider `pC : 20 → 22`. -/
def exPC : Provider := ⟨"p", "pC", 3, [⟨20⟩], false, [], [22], false, false⟩

/-- The provider map of the cyclic set `{pA, pB, pC}` (its graph is one
strongly-connected component `{20, 21, 22}`). -/
def exCycPM : List (Ty × ProvidedType) :=
  match buildProviderMap (.mk 200 0 "p" "Cyc" [exPA, exPB, exPC] [] [] [] [] []) with
  | .ok (pm, _) => pm
  | .error _ => []

/-- An unbuilt set whose provider pass has two independent conflicts
(types 30 and 31 each provided twice). -/
def exDup2 : ProviderSet :=
  .mk 300 0 "p" "D"
    [⟨"p", "d1", 1, [], false, [], [30], false, false⟩,
     ⟨"p", "d2", 2, [], false, [], [30], false, false⟩,
     ⟨"p", "d3", 3, [], false, [], [31], false, false⟩,
     ⟨"p", "d4", 4, [], false, [], [31], false, false⟩]
    [] [] [] [] []

/-- Provider with a cleanup result: `provCl : → (12, func())`. -/
def exProvCl : Provider := ⟨"p", "provCl", 9, [], false, [], [12], true, false⟩

/-- The built set `{provCl}`. -/
def exSCl : ProviderSet :=
  match processNewSet 4 0 "p" "" [exProvCl] [] [] [] with
  | .ok s => s
  | .error _ => .mk 0 0 "" "" [] [] [] [] [] []

/-! # Theorems -/

/-! ## Basic association-list lemmas -/

theorem tmAt_isSome_iff_mem {α : Type} (m : List (Ty × α)) (t : Ty) :
    (tmAt m t).isSome = true ↔ t ∈ tmKeys m := by
  induction m with
  | nil => simp [tmAt, tmKeys]
  | cons e rest ih =>
    by_cases h : e.1 = t
    · simp [tmAt, tmKeys, List.find?_cons, h]
    · have hb : (e.1 == t) = false := by simpa using h
      constructor
      · intro hs
        have : (tmAt rest t).isSome = true := by
          simpa [tmAt, List.find?_cons, hb] using hs
        exact List.mem_cons_of_mem _ (ih.mp this)
      · intro hm
        rcases List.mem_cons.mp hm with rfl | hm
        · exact absurd rfl h
        · have := ih.mpr hm
          simpa [tmAt, List.find?_cons, hb] using this

theorem tmAt_isNone_iff_not_mem {α : Type} (m : List (Ty × α)) (t : Ty) :
    tmAt m t = none ↔ t ∉ tmKeys m := by
  rw [← tmAt_isSome_iff_mem]
  cases tmAt m t <;> simp

theorem tmKeys_tmSet_of_not_mem {α : Type} (m : List (Ty × α)) (t : Ty) (v : α)
    (h : t ∉ tmKeys m) : tmKeys (tmSet m t v) = tmKeys m ++ [t] := by
  induction m with
  | nil => rfl
  | cons e rest ih =>
    have hne : e.1 ≠ t := fun hc => h (by rw [← hc]; exact (List.mem_cons_self _ _))
    have h' : t ∉ tmKeys rest := fun hm => h (List.mem_cons_of_mem _ hm)
    rw [tmSet, if_neg hne]
    show e.1 :: tmKeys (tmSet rest t v) = (e.1 :: tmKeys rest) ++ [t]
    rw [ih h', List.cons_append]

/-! ## funcOutput: return-signature validation (C7, C10) -/

theorem funcOutput_ok_iff (results : List Ty) :
    (funcOutput results).isOk = true ↔ validReturnShape results := by
  constructor
  · intro h
    match results with
    | [] => simp [funcOutput, Except.isOk, Except.toBool] at h
    | [o] => exact ⟨o, Or.inl rfl⟩
    | [o, t] =>
      by_cases h0 : t = errorTy
      · exact ⟨o, Or.inr (Or.inl (by rw [h0]))⟩
      · by_cases h1 : t = cleanupTy
        · exact ⟨o, Or.inr (Or.inr (Or.inl (by rw [h1])))⟩
        · simp [funcOutput, h0, h1, Except.isOk, Except.toBool] at h
    | [o, t1, t2] =>
      by_cases h1 : t1 = cleanupTy
      · by_cases h2 : t2 = errorTy
        · exact ⟨o, Or.inr (Or.inr (Or.inr (by rw [h1, h2])))⟩
        · simp [funcOutput, h1, h2, Except.isOk, Except.toBool] at h
      · simp [funcOutput, h1, Except.isOk, Except.toBool] at h
    | o :: t1 :: t2 :: t3 :: rest =>
      simp [funcOutput, Except.isOk, Except.toBool] at h
  · rintro ⟨o, rfl | rfl | rfl | rfl⟩ <;>
      simp [funcOutput, errorTy, cleanupTy, Except.isOk, Except.toBool]

theorem funcOutput_error_of_not_shape (results : List Ty)
    (h : ¬validReturnShape results) : ∃ msg, funcOutput results = .error msg := by
  have hok : (funcOutput results).isOk ≠ true := fun hc =>
    h ((funcOutput_ok_iff results).mp hc)
  cases hfo : funcOutput results with
  | ok sig => exact absurd (by simp [hfo, Except.isOk, Except.toBool]) hok
  | error msg => exact ⟨msg, rfl⟩

/-- C7: a function provider is accepted exactly when its return tuple has one
of the four shapes `(output)`, `(output, error)`, `(output, cleanup)` or
`(output, cleanup, error)`, where the cleanup `func()` must precede `error`;
the decoded flags match the shape; and any other arity or ordering is rejected
by `processFuncProvider` with an invalid-provider ("wrong signature for
provider") error. -/
theorem funcProvider_return_shapes (fn : FuncDecl) :
    ((funcOutput fn.results).isOk = true ↔ validReturnShape fn.results) ∧
    (∀ o : Ty,
      (fn.results = [o] → funcOutput fn.results = .ok ⟨o, false, false⟩) ∧
      (fn.results = [o, errorTy] → funcOutput fn.results = .ok ⟨o, false, true⟩) ∧
      (fn.results = [o, cleanupTy] → funcOutput fn.results = .ok ⟨o, true, false⟩) ∧
      (fn.results = [o, cleanupTy, errorTy] → funcOutput fn.results = .ok ⟨o, true, true⟩)) ∧
    (¬validReturnShape fn.results →
      ∃ msg, processFuncProvider fn = .error [.wrongSignatureProvider fn.name msg]) := by
  refine ⟨funcOutput_ok_iff fn.results, ?_, ?_⟩
  · intro o
    refine ⟨?_, ?_, ?_, ?_⟩ <;>
      (intro h; rw [h]; simp [funcOutput, errorTy, cleanupTy])
  · intro h
    obtain ⟨msg, hmsg⟩ := funcOutput_error_of_not_shape fn.results h
    exact ⟨msg, by simp [processFuncProvider, hmsg]⟩

theorem funcProvider_return_shapes_witness :
    ¬validReturnShape [9, errorTy, cleanupTy] ∧
    (∃ msg, processFuncProvider ⟨"p", "bad", 0, [], [9, errorTy, cleanupTy]⟩ =
      .error [.wrongSignatureProvider "bad" msg]) := by
  have hns : ¬validReturnShape [9, errorTy, cleanupTy] := by
    rintro ⟨o, h | h | h | h⟩ <;> simp [errorTy, cleanupTy] at h
  exact ⟨hns,
    (funcProvider_return_shapes ⟨"p", "bad", 0, [], [9, errorTy, cleanupTy]⟩).2.2 hns⟩

/-- C10: an injector stub's return signature is validated by the same
`funcOutput` rule as function providers, so only the shapes `(T)`,
`(T, error)`, `(T, func())` and `(T, func(), error)` are accepted; any other
shape makes generation fail with an "inject" error carrying the same message
that the provider check would produce, instead of being silently treated as a
non-injector. -/
theorem inject_validates_signature_like_provider (name : String)
    (params results : List Ty) (set : ProviderSet) (fuel : Nat) :
    (¬validReturnShape results →
      ∃ msg,
        inject name params results set fuel = some (.error [.injectBadSignature name msg]) ∧
        ∀ ip nm pos ps, processFuncProvider ⟨ip, nm, pos, ps, results⟩ =
          .error [.wrongSignatureProvider nm msg]) ∧
    (validReturnShape results →
      ∃ sig, funcOutput results = .ok sig ∧
        injectorFuncSignature params results = .ok (params, sig)) := by
  constructor
  · intro h
    obtain ⟨msg, hmsg⟩ := funcOutput_error_of_not_shape results h
    refine ⟨msg, ?_, ?_⟩
    · simp [inject, hmsg]
    · intro ip nm pos ps
      simp [processFuncProvider, hmsg]
  · intro h
    have hok : (funcOutput results).isOk = true := (funcOutput_ok_iff results).mpr h
    cases hfo : funcOutput results with
    | error msg => rw [hfo] at hok; simp [Except.isOk, Except.toBool] at hok
    | ok sig => exact ⟨sig, rfl, by simp [injectorFuncSignature, hfo]⟩

theorem inject_validates_signature_like_provider_witness :
    ¬validReturnShape [9, 9] ∧
    (∃ msg,
      inject "inj" [] [9, 9] exS1 5 = some (.error [.injectBadSignature "inj" msg]) ∧
      ∀ ip nm pos ps, processFuncProvider ⟨ip, nm, pos, ps, [9, 9]⟩ =
        .error [.wrongSignatureProvider nm msg]) := by
  have hns : ¬validReturnShape [9, 9] := by
    rintro ⟨o, h | h | h | h⟩ <;> simp [errorTy, cleanupTy] at h
  exact ⟨hns,
    (inject_validates_signature_like_provider "inj" [] [9, 9] exS1 5).1 hns⟩

/-! ## gen.inject's cleanup/error compatibility check (C8) -/

theorem checkCalls_ok_iff (name : String) (sig : OutputSignature) (calls : List Call) :
    checkCalls name sig calls = .ok () ↔
      ∀ c ∈ calls, (c.hasCleanup = true → sig.cleanup = true) ∧
        (c.hasErr = true → sig.err = true) := by
  induction calls with
  | nil => simp [checkCalls]
  | cons c cs ih =>
    simp only [checkCalls]
    by_cases h1 : c.hasCleanup = true ∧ sig.cleanup = false
    · have : (c.hasCleanup && !sig.cleanup) = true := by
        simp [h1.1, h1.2]
      simp only [this, if_true]
      constructor
      · intro h; exact absurd h (by simp)
      · intro h
        have := (h c ((List.mem_cons_self c cs))).1 h1.1
        rw [h1.2] at this
        exact absurd this (by simp)
    · have hc1 : (c.hasCleanup && !sig.cleanup) = false := by
        cases hcc : c.hasCleanup <;> cases hsc : sig.cleanup <;>
          simp_all
      simp only [hc1, if_false, Bool.false_eq_true]
      by_cases h2 : c.hasErr = true ∧ sig.err = false
      · have : (c.hasErr && !sig.err) = true := by simp [h2.1, h2.2]
        simp only [this, if_true]
        constructor
        · intro h; exact absurd h (by simp)
        · intro h
          have := (h c ((List.mem_cons_self c cs))).2 h2.1
          rw [h2.2] at this
          exact absurd this (by simp)
      · have hc2 : (c.hasErr && !sig.err) = false := by
          cases hce : c.hasErr <;> cases hse : sig.err <;> simp_all
        simp only [hc2, if_false, Bool.false_eq_true]
        rw [ih]
        constructor
        · intro h
          intro d hd
          rcases List.mem_cons.mp hd with rfl | hd
          · constructor
            · intro hcc
              cases hsc : sig.cleanup
              · exact absurd ⟨hcc, hsc⟩ h1
              · rfl
            · intro hce
              cases hse : sig.err
              · exact absurd ⟨hce, hse⟩ h2
              · rfl
          · exact h d hd
        · intro h d hd
          exact h d (List.mem_cons_of_mem _ hd)

theorem checkCalls_error_of_offending (name : String) (sig : OutputSignature)
    (calls : List Call)
    (h : ∃ c ∈ calls, (c.hasCleanup = true ∧ sig.cleanup = false) ∨
      (c.hasErr = true ∧ sig.err = false)) :
    ∃ e, checkCalls name sig calls = .error [e] ∧
      ((∃ t, e = .providerReturnsCleanupButInjectorDoesNot name t) ∨
       (∃ t, e = .providerReturnsErrButInjectorDoesNot name t)) := by
  induction calls with
  | nil => obtain ⟨c, hc, _⟩ := h; simp at hc
  | cons c cs ih =>
    simp only [checkCalls]
    by_cases h1 : (c.hasCleanup && !sig.cleanup) = true
    · exact ⟨_, by simp [h1], Or.inl ⟨c.out, rfl⟩⟩
    · rw [Bool.not_eq_true] at h1
      rw [h1]
      by_cases h2 : (c.hasErr && !sig.err) = true
      · exact ⟨_, by simp [h2], Or.inr ⟨c.out, rfl⟩⟩
      · rw [Bool.not_eq_true] at h2
        rw [h2]
        simp only [Bool.false_eq_true, if_false]
        apply ih
        obtain ⟨d, hd, hoff⟩ := h
        rcases List.mem_cons.mp hd with rfl | hd
        · exfalso
          rcases hoff with ⟨ha, hb⟩ | ⟨ha, hb⟩
          · rw [ha, hb] at h1; simp at h1
          · rw [ha, hb] at h2; simp at h2
        · exact ⟨d, hd, hoff⟩

/-- C8: after the call list is computed, a call whose provider returns a
cleanup (resp. an error) while the injector's signature does not declare one
makes `inject` fail with the corresponding signature-mismatch error;
consequently every successfully generated injector declares cleanup (resp.
error) whenever some call in its plan carries `hasCleanup` (resp. `hasErr`). -/
theorem inject_cleanup_err_compat (name : String) (params results : List Ty)
    (set : ProviderSet) (fuel : Nat) :
    (∀ calls, inject name params results set fuel = some (.ok calls) →
      ∃ sig, funcOutput results = .ok sig ∧
        ∀ c ∈ calls, (c.hasCleanup = true → sig.cleanup = true) ∧
          (c.hasErr = true → sig.err = true)) ∧
    (∀ sig calls, funcOutput results = .ok sig →
      solveRun sig.out params set fuel = some (.ok calls) →
      (∃ c ∈ calls, (c.hasCleanup = true ∧ sig.cleanup = false) ∨
        (c.hasErr = true ∧ sig.err = false)) →
      ∃ e, inject name params results set fuel = some (.error [e]) ∧
        ((∃ t, e = .providerReturnsCleanupButInjectorDoesNot name t) ∨
         (∃ t, e = .providerReturnsErrButInjectorDoesNot name t))) := by
  constructor
  · intro calls h
    cases hfo : funcOutput results with
    | error msg => simp [inject, hfo] at h
    | ok sig =>
      refine ⟨sig, rfl, ?_⟩
      cases hsr : solveRun sig.out params set fuel with
      | none => simp [inject, hfo, hsr] at h
      | some r =>
        cases r with
        | error errs => simp [inject, hfo, hsr] at h
        | ok cs =>
          cases hcc : checkCalls name sig cs with
          | error errs => simp [inject, hfo, hsr, hcc] at h
          | ok u =>
            have hcalls : cs = calls := by
              simpa [inject, hfo, hsr, hcc] using h
            subst hcalls
            exact (checkCalls_ok_iff name sig cs).mp (by rw [hcc])
  · intro sig calls hfo hsr hoff
    obtain ⟨e, he, hshape⟩ := checkCalls_error_of_offending name sig calls hoff
    exact ⟨e, by simp [inject, hfo, hsr, he], hshape⟩

theorem inject_cleanup_err_compat_witness :
    funcOutput [12] = .ok ⟨12, false, false⟩ ∧
    solveRun 12 [] exSCl 30 = some (.ok [mkProviderCall exProvCl 12 []]) ∧
    (∃ e, inject "inj" [] [12] exSCl 30 = some (.error [e]) ∧
      ((∃ t, e = .providerReturnsCleanupButInjectorDoesNot "inj" t) ∨
       (∃ t, e = .providerReturnsErrButInjectorDoesNot "inj" t))) := by
  refine ⟨by decide, by decide, ?_⟩
  apply (inject_cleanup_err_compat "inj" [] [12] exSCl 30).2 ⟨12, false, false⟩
    [mkProviderCall exProvCl 12 []] (by decide) (by decide)
  exact ⟨mkProviderCall exProvCl 12 [], by decide, Or.inl (by decide)⟩

/-! ## solve's input pre-checks (C6) -/

theorem enumFrom_succ_eq_map {α : Type} (n : Nat) (l : List α) :
    List.enumFrom (n + 1) l = (List.enumFrom n l).map (Prod.map Nat.succ id) := by
  induction l generalizing n with
  | nil => simp
  | cons a l ih => simp [List.enumFrom, ih (n + 1), Prod.map]

theorem dupErrsAux_eq_spec : ∀ (gs seen : List Ty),
    dupErrsAux seen gs =
      gs.enum.flatMap fun p =>
        ((seen ++ gs.take p.1).filter (fun h => h == p.2)).map fun _ =>
          Err.multipleInputs p.2 := by
  intro gs
  induction gs with
  | nil => intro seen; simp [dupErrsAux]
  | cons g gs ih =>
    intro seen
    rw [dupErrsAux, ih (seen ++ [g])]
    rw [List.enum_cons]
    rw [List.flatMap_cons]
    have h1 : List.enumFrom 1 gs = gs.enum.map (Prod.map Nat.succ id) :=
      enumFrom_succ_eq_map 0 gs
    rw [h1, List.flatMap_map]
    simp only [List.take_zero, List.append_nil]
    congr 1
    apply List.flatMap_congr
    intro p _
    simp only [Function.comp, Prod.map, id]
    rw [List.take_succ_cons]
    simp [List.append_assoc]

theorem initIndexAux_errors (set : ProviderSet) : ∀ (gs : List Ty) (i : Nat)
    (idx : List (Ty × IdxVal)) (errs : List Err),
    (initIndexAux set i gs (idx, errs)).2 = errs ++ gs.filterMap (specInputConflict set) := by
  intro gs
  induction gs with
  | nil => intro i idx errs; simp [initIndexAux]
  | cons g gs ih =>
    intro i idx errs
    rw [initIndexAux]
    by_cases hnil : (set.For g).IsNil = true
    · rw [if_pos hnil, ih]
      simp [List.filterMap_cons, specInputConflict, hnil]
    · rw [if_neg hnil]
      cases hp : (set.For g).p with
      | some p =>
        rw [ih]
        simp [List.filterMap_cons, specInputConflict, hnil, hp]
      | none =>
        cases hv : (set.For g).v with
        | some v =>
          rw [ih]
          simp [List.filterMap_cons, specInputConflict, hnil, hp, hv]
        | none =>
          rw [ih]
          simp [List.filterMap_cons, specInputConflict, hnil, hp, hv]

/-- C6: before solving, `solve` emits a "multiple inputs of the same type"
error for every pair of identical injector inputs and an input-conflicts error
for every injector input whose type is already provided by the set (by a
provider or a value); all of these diagnostics are collected into the returned
error list — duplicates first, then conflicts in input order — before
aborting with no calls. -/
theorem solve_precheck_collects_all (out : Ty) (given : List Ty)
    (set : ProviderSet) (fuel : Nat) :
    inputDupErrors given = specMultipleInputErrs given ∧
    (initIndex set given).2 = given.filterMap (specInputConflict set) ∧
    (specMultipleInputErrs given ++ given.filterMap (specInputConflict set) ≠ [] →
      solveRun out given set fuel =
        some (.error
          (specMultipleInputErrs given ++ given.filterMap (specInputConflict set)))) := by
  have h1 : inputDupErrors given = specMultipleInputErrs given := by
    rw [inputDupErrors, dupErrsAux_eq_spec]
    simp [specMultipleInputErrs]
  have h2 : (initIndex set given).2 = given.filterMap (specInputConflict set) := by
    rw [initIndex, initIndexAux_errors]
    simp
  refine ⟨h1, h2, ?_⟩
  intro hne
  rw [solveRun, h1, h2, if_pos hne]

theorem solve_precheck_collects_all_witness :
    specMultipleInputErrs [5, 5, 7] ++ [5, 5, 7].filterMap (specInputConflict exS3) ≠ [] ∧
    solveRun 6 [5, 5, 7] exS3 30 =
      some (.error
        (specMultipleInputErrs [5, 5, 7] ++ [5, 5, 7].filterMap (specInputConflict exS3))) := by
  have h : specMultipleInputErrs [5, 5, 7] ++
      [5, 5, 7].filterMap (specInputConflict exS3) ≠ [] := by decide
  exact ⟨h, (solve_precheck_collects_all 6 [5, 5, 7] exS3 30).2.2 h⟩

/-! ## buildProviderMap collects all errors per pass (C4, C5) -/

theorem insertionConflicts_append (ks1 : List Ty) : ∀ (S ks2 : List Ty),
    insertionConflicts S (ks1 ++ ks2) =
      insertionConflicts S ks1 ++
        insertionConflicts (S ++ insertionAdded S ks1) ks2 := by
  induction ks1 with
  | nil => intro S ks2; simp [insertionConflicts, insertionAdded]
  | cons k ks ih =>
    intro S ks2
    by_cases h : k ∈ S
    · simp only [List.cons_append, insertionConflicts, insertionAdded, if_pos h,
        List.append_eq]
      rw [ih]
    · simp only [List.cons_append, insertionConflicts, insertionAdded, if_neg h,
        List.append_eq]
      rw [ih, List.append_assoc S [k], List.singleton_append]

theorem insertionAdded_append (ks1 : List Ty) : ∀ (S ks2 : List Ty),
    insertionAdded S (ks1 ++ ks2) =
      insertionAdded S ks1 ++
        insertionAdded (S ++ insertionAdded S ks1) ks2 := by
  induction ks1 with
  | nil => intro S ks2; simp [insertionAdded]
  | cons k ks ih =>
    intro S ks2
    by_cases h : k ∈ S
    · simp only [List.cons_append, insertionAdded, if_pos h, List.append_eq]
      rw [ih]
    · simp only [List.cons_append, insertionAdded, if_neg h, List.append_eq]
      rw [ih, List.append_assoc S [k], List.singleton_append]

theorem insertionAdded_of_no_conflicts (ks : List Ty) : ∀ (S : List Ty),
    insertionConflicts S ks = [] → insertionAdded S ks = ks := by
  induction ks with
  | nil => intro S _; rfl
  | cons k ks ih =>
    intro S h
    by_cases hm : k ∈ S
    · rw [insertionConflicts, if_pos hm] at h
      exact absurd h (by simp)
    · rw [insertionConflicts, if_neg hm] at h
      rw [insertionAdded, if_neg hm, ih _ h]

theorem bindingPhaseAdded_of_no_errs (bs : List IfaceBinding) : ∀ (S : List Ty),
    bindingPhaseErrs S bs = [] → bindingPhaseAdded S bs = bs.map (·.iface) := by
  induction bs with
  | nil => intro S _; rfl
  | cons b bs ih =>
    intro S h
    by_cases h1 : b.iface ∈ S
    · rw [bindingPhaseErrs, if_pos h1] at h
      exact absurd h (by simp)
    · rw [bindingPhaseErrs, if_neg h1] at h
      by_cases h2 : b.provided ∈ S
      · rw [if_pos h2] at h
        rw [bindingPhaseAdded, if_neg h1, if_pos h2, ih _ h, List.map_cons]
      · rw [if_neg h2] at h
        exact absurd h (by simp)

/-- A `buildProviderMap` pass step that inserts one key into both maps,
reporting a binding conflict when the key is already present. -/
def IsGuardedInsert {β : Type} (f : BuildSt → β → BuildSt) (key : β → Ty) : Prop :=
  ∀ (st : BuildSt) (b : β),
    (key b ∈ tmKeys st.srcMap →
      (f st b).errors = st.errors ++ [.multipleBindings (key b)] ∧
      (f st b).srcMap = st.srcMap ∧ (f st b).providerMap = st.providerMap) ∧
    (key b ∉ tmKeys st.srcMap → key b ∉ tmKeys st.providerMap →
      (f st b).errors = st.errors ∧
      tmKeys (f st b).srcMap = tmKeys st.srcMap ++ [key b] ∧
      tmKeys (f st b).providerMap = tmKeys st.providerMap ++ [key b])

theorem foldl_guardedInsert {β : Type} (f : BuildSt → β → BuildSt) (key : β → Ty)
    (hf : IsGuardedInsert f key) :
    ∀ (l : List β) (st : BuildSt), tmKeys st.providerMap = tmKeys st.srcMap →
    (l.foldl f st).errors = st.errors ++ insertionConflicts (tmKeys st.srcMap) (l.map key) ∧
    tmKeys (l.foldl f st).srcMap =
      tmKeys st.srcMap ++ insertionAdded (tmKeys st.srcMap) (l.map key) ∧
    tmKeys (l.foldl f st).providerMap = tmKeys (l.foldl f st).srcMap := by
  intro l
  induction l with
  | nil =>
    intro st hk
    simpa [insertionConflicts, insertionAdded] using hk
  | cons b bs ih =>
    intro st hk
    rw [List.foldl_cons]
    by_cases hm : key b ∈ tmKeys st.srcMap
    · obtain ⟨he, hs, hp⟩ := (hf st b).1 hm
      have hk' : tmKeys (f st b).providerMap = tmKeys (f st b).srcMap := by
        rw [hs, hp, hk]
      obtain ⟨ihe, ihs, ihp⟩ := ih (f st b) hk'
      rw [hs] at ihe ihs
      refine ⟨?_, ?_, ihp⟩
      · rw [ihe, he, List.map_cons, insertionConflicts, if_pos hm, List.append_assoc]
        rfl
      · rw [ihs, List.map_cons, insertionAdded, if_pos hm]
    · obtain ⟨he, hs, hp⟩ := (hf st b).2 hm (hk ▸ hm)
      have hk' : tmKeys (f st b).providerMap = tmKeys (f st b).srcMap := by
        rw [hs, hp, hk]
      obtain ⟨ihe, ihs, ihp⟩ := ih (f st b) hk'
      rw [hs] at ihe ihs
      refine ⟨?_, ?_, ihp⟩
      · rw [ihe, he, List.map_cons, insertionConflicts, if_neg hm]
      · rw [ihs, List.map_cons, insertionAdded, if_neg hm, List.append_assoc]
        rfl


theorem addImportEntry_guarded (src : ProviderSetSrc) :
    IsGuardedInsert (addImportEntry src) (·.1) := by
  intro st kv
  constructor
  · intro hm
    have hs : (tmAt st.srcMap kv.1).isSome = true := (tmAt_isSome_iff_mem _ _).mpr hm
    rw [addImportEntry, if_pos hs]
    exact ⟨rfl, rfl, rfl⟩
  · intro hm hp
    have hs : ¬(tmAt st.srcMap kv.1).isSome = true := fun hc =>
      hm ((tmAt_isSome_iff_mem _ _).mp hc)
    rw [addImportEntry, if_neg hs]
    exact ⟨rfl, tmKeys_tmSet_of_not_mem _ _ _ hm, tmKeys_tmSet_of_not_mem _ _ _ hp⟩

theorem addProviderOut_guarded (p : Provider) :
    IsGuardedInsert (addProviderOut p) (fun t => t) := by
  intro st typ
  constructor
  · intro hm
    have hs : (tmAt st.srcMap typ).isSome = true := (tmAt_isSome_iff_mem _ _).mpr hm
    rw [addProviderOut, if_pos hs]
    exact ⟨rfl, rfl, rfl⟩
  · intro hm hp
    have hs : ¬(tmAt st.srcMap typ).isSome = true := fun hc =>
      hm ((tmAt_isSome_iff_mem _ _).mp hc)
    rw [addProviderOut, if_neg hs]
    exact ⟨rfl, tmKeys_tmSet_of_not_mem _ _ _ hm, tmKeys_tmSet_of_not_mem _ _ _ hp⟩

theorem addValue_guarded :
    IsGuardedInsert
      (fun st v =>
        if (tmAt st.srcMap v.out).isSome then
          { st with errors := st.errors ++ [.multipleBindings v.out] }
        else
          { st with providerMap := tmSet st.providerMap v.out ⟨v.out, none, some v⟩,
                    srcMap := tmSet st.srcMap v.out ⟨none, none, some v, none⟩ })
      (Value.out) := by
  intro st v
  constructor
  · intro hm
    have hs : (tmAt st.srcMap v.out).isSome = true := (tmAt_isSome_iff_mem _ _).mpr hm
    simp [hs]
  · intro hm hp
    have hs : ¬(tmAt st.srcMap v.out).isSome = true := fun hc =>
      hm ((tmAt_isSome_iff_mem _ _).mp hc)
    simp [hs, tmKeys_tmSet_of_not_mem _ _ _ hm, tmKeys_tmSet_of_not_mem _ _ _ hp]

theorem buildImports_spec (imports : List ProviderSet) : ∀ (st : BuildSt),
    tmKeys st.providerMap = tmKeys st.srcMap →
    (imports.foldl
        (fun st imp => imp.providerMap.foldl (addImportEntry ⟨none, none, none, some imp.id⟩) st)
        st).errors
      = st.errors ++ insertionConflicts (tmKeys st.srcMap) (importKeys imports) ∧
    tmKeys (imports.foldl
        (fun st imp => imp.providerMap.foldl (addImportEntry ⟨none, none, none, some imp.id⟩) st)
        st).srcMap
      = tmKeys st.srcMap ++ insertionAdded (tmKeys st.srcMap) (importKeys imports) ∧
    tmKeys (imports.foldl
        (fun st imp => imp.providerMap.foldl (addImportEntry ⟨none, none, none, some imp.id⟩) st)
        st).providerMap
      = tmKeys (imports.foldl
        (fun st imp => imp.providerMap.foldl (addImportEntry ⟨none, none, none, some imp.id⟩) st)
        st).srcMap := by
  induction imports with
  | nil =>
    intro st hk
    simpa [importKeys, insertionConflicts, insertionAdded] using hk
  | cons imp imports ih =>
    intro st hk
    rw [List.foldl_cons]
    obtain ⟨he1, hs1, hp1⟩ :=
      foldl_guardedInsert (addImportEntry ⟨none, none, none, some imp.id⟩) (·.1)
        (addImportEntry_guarded _) imp.providerMap st hk
    obtain ⟨he2, hs2, hp2⟩ := ih _ hp1
    have hkeys : imp.providerMap.map (·.1) = tmKeys imp.providerMap := rfl
    rw [hkeys] at he1 hs1
    refine ⟨?_, ?_, hp2⟩
    · rw [he2, he1, hs1]
      simp only [importKeys, List.flatMap_cons]
      rw [insertionConflicts_append, ← List.append_assoc]
    · rw [hs2, hs1]
      simp only [importKeys, List.flatMap_cons]
      rw [insertionAdded_append, ← List.append_assoc]

theorem buildProviders_spec (providers : List Provider) : ∀ (st : BuildSt),
    tmKeys st.providerMap = tmKeys st.srcMap →
    (providers.foldl (fun st p => p.out.foldl (addProviderOut p) st) st).errors
      = st.errors ++
          insertionConflicts (tmKeys st.srcMap) (providers.flatMap (·.out)) ∧
    tmKeys (providers.foldl (fun st p => p.out.foldl (addProviderOut p) st) st).srcMap
      = tmKeys st.srcMap ++
          insertionAdded (tmKeys st.srcMap) (providers.flatMap (·.out)) ∧
    tmKeys (providers.foldl (fun st p => p.out.foldl (addProviderOut p) st) st).providerMap
      = tmKeys (providers.foldl (fun st p => p.out.foldl (addProviderOut p) st) st).srcMap := by
  induction providers with
  | nil =>
    intro st hk
    simpa [insertionConflicts, insertionAdded] using hk
  | cons p providers ih =>
    intro st hk
    rw [List.foldl_cons]
    obtain ⟨he1, hs1, hp1⟩ :=
      foldl_guardedInsert (addProviderOut p) (fun t => t)
        (addProviderOut_guarded p) p.out st hk
    obtain ⟨he2, hs2, hp2⟩ := ih _ hp1
    have hkeys : p.out.map (fun t => t) = p.out := List.map_id' p.out
    rw [hkeys] at he1 hs1
    refine ⟨?_, ?_, hp2⟩
    · rw [he2, he1, hs1]
      simp only [List.flatMap_cons]
      rw [insertionConflicts_append, ← List.append_assoc]
    · rw [hs2, hs1]
      simp only [List.flatMap_cons]
      rw [insertionAdded_append, ← List.append_assoc]

theorem buildProvidersValues_spec (providers : List Provider) (values : List Value)
    (st : BuildSt) (hk : tmKeys st.providerMap = tmKeys st.srcMap) :
    (buildProvidersValues providers values st).errors
      = st.errors ++
          insertionConflicts (tmKeys st.srcMap) (directKeys providers values) ∧
    tmKeys (buildProvidersValues providers values st).srcMap
      = tmKeys st.srcMap ++
          insertionAdded (tmKeys st.srcMap) (directKeys providers values) ∧
    tmKeys (buildProvidersValues providers values st).providerMap
      = tmKeys (buildProvidersValues providers values st).srcMap := by
  obtain ⟨he1, hs1, hp1⟩ := buildProviders_spec providers st hk
  obtain ⟨he2, hs2, hp2⟩ :=
    foldl_guardedInsert _ Value.out addValue_guarded values
      (providers.foldl (fun st p => p.out.foldl (addProviderOut p) st) st) hp1
  rw [buildProvidersValues]
  refine ⟨?_, ?_, hp2⟩
  · rw [he2, he1, hs1, directKeys, insertionConflicts_append, ← List.append_assoc]
  · rw [hs2, hs1, directKeys, insertionAdded_append, ← List.append_assoc]

theorem buildBindings_spec (bs : List IfaceBinding) : ∀ (st : BuildSt),
    tmKeys st.providerMap = tmKeys st.srcMap →
    (buildBindings bs st).errors = st.errors ++ bindingPhaseErrs (tmKeys st.srcMap) bs ∧
    tmKeys (buildBindings bs st).srcMap
      = tmKeys st.srcMap ++ bindingPhaseAdded (tmKeys st.srcMap) bs ∧
    tmKeys (buildBindings bs st).providerMap = tmKeys (buildBindings bs st).srcMap := by
  induction bs with
  | nil =>
    intro st hk
    simpa [buildBindings, bindingPhaseErrs, bindingPhaseAdded] using hk
  | cons b bs ih =>
    intro st hk
    rw [buildBindings, List.foldl_cons]
    by_cases h1 : b.iface ∈ tmKeys st.srcMap
    · have hs : (tmAt st.srcMap b.iface).isSome = true := (tmAt_isSome_iff_mem _ _).mpr h1
      rw [if_pos hs]
      obtain ⟨he, hsk, hpk⟩ := ih { st with errors := st.errors ++ [.multipleBindings b.iface] } hk
      rw [buildBindings] at he hsk hpk
      refine ⟨?_, ?_, hpk⟩
      · rw [he]
        simp only [bindingPhaseErrs, if_pos h1]
        rw [List.append_assoc]
        rfl
      · rw [hsk]
        simp only [bindingPhaseAdded, if_pos h1]
    · have hs : ¬(tmAt st.srcMap b.iface).isSome = true := fun hc =>
        h1 ((tmAt_isSome_iff_mem _ _).mp hc)
      rw [if_neg hs]
      by_cases h2 : b.provided ∈ tmKeys st.providerMap
      · have hc : (tmAt st.providerMap b.provided).isSome = true :=
          (tmAt_isSome_iff_mem _ _).mpr h2
        obtain ⟨concrete, hcon⟩ := Option.isSome_iff_exists.mp hc
        rw [hcon]
        have h2' : b.provided ∈ tmKeys st.srcMap := hk ▸ h2
        have hknew : tmKeys (tmSet st.providerMap b.iface concrete)
            = tmKeys (tmSet st.srcMap b.iface ⟨none, some b, none, none⟩) := by
          rw [tmKeys_tmSet_of_not_mem _ _ _ (hk ▸ h1), tmKeys_tmSet_of_not_mem _ _ _ h1, hk]
        obtain ⟨he, hsk, hpk⟩ := ih
          { st with providerMap := tmSet st.providerMap b.iface concrete,
                    srcMap := tmSet st.srcMap b.iface ⟨none, some b, none, none⟩ }
          hknew
        rw [buildBindings] at he hsk hpk
        refine ⟨?_, ?_, hpk⟩
        · rw [he]
          simp only [tmKeys_tmSet_of_not_mem _ _ _ h1]
          simp only [bindingPhaseErrs, if_neg h1, if_pos h2']
        · rw [hsk]
          simp only [tmKeys_tmSet_of_not_mem _ _ _ h1]
          simp only [bindingPhaseAdded, if_neg h1, if_pos h2']
          rw [List.append_assoc]
          rfl
      · have hc : tmAt st.providerMap b.provided = none :=
          (tmAt_isNone_iff_not_mem _ _).mpr h2
        rw [hc]
        have h2' : b.provided ∉ tmKeys st.srcMap := fun hm => h2 (hk ▸ hm)
        obtain ⟨he, hsk, hpk⟩ := ih
          { st with errors := st.errors ++ [.noBindingFor b.provided b.pos] } hk
        rw [buildBindings] at he hsk hpk
        refine ⟨?_, ?_, hpk⟩
        · rw [he]
          simp only [bindingPhaseErrs, if_neg h1, if_neg h2']
          rw [List.append_assoc]
          rfl
        · rw [hsk]
          simp only [bindingPhaseAdded, if_neg h1, if_neg h2']

/-- C4: each pass of `buildProviderMap` collects all of its independent errors
before returning instead of stopping at the first one — the import pass
reports one conflict for every duplicated imported key, the provider/value
pass one conflict for every direct output colliding with an earlier key, and
the binding pass one conflict or missing-binding error per faulty binding —
and the caller receives either a complete provider map (whose keys are
exactly all imported keys, all direct outputs and all binding interfaces)
with no errors, or the non-empty error list of the first failing pass; never
a partial map. -/
theorem buildProviderMap_collects_all (set : ProviderSet) :
    (insertionConflicts [] (importKeys set.imports) ≠ [] →
      buildProviderMap set = .error (insertionConflicts [] (importKeys set.imports))) ∧
    (insertionConflicts [] (importKeys set.imports) = [] →
      insertionConflicts (importKeys set.imports)
          (directKeys set.providers set.values) ≠ [] →
      buildProviderMap set =
        .error (insertionConflicts (importKeys set.imports)
          (directKeys set.providers set.values))) ∧
    (insertionConflicts [] (importKeys set.imports) = [] →
      insertionConflicts (importKeys set.imports)
          (directKeys set.providers set.values) = [] →
      bindingPhaseErrs (importKeys set.imports ++ directKeys set.providers set.values)
          set.bindings ≠ [] →
      buildProviderMap set =
        .error (bindingPhaseErrs
          (importKeys set.imports ++ directKeys set.providers set.values)
          set.bindings)) ∧
    (insertionConflicts [] (importKeys set.imports) = [] →
      insertionConflicts (importKeys set.imports)
          (directKeys set.providers set.values) = [] →
      bindingPhaseErrs (importKeys set.imports ++ directKeys set.providers set.values)
          set.bindings = [] →
      ∃ pm sm, buildProviderMap set = .ok (pm, sm) ∧
        tmKeys pm = importKeys set.imports ++ directKeys set.providers set.values
          ++ set.bindings.map (·.iface) ∧
        tmKeys sm = tmKeys pm) := by
  obtain ⟨he1, hs1, hp1⟩ := buildImports_spec set.imports ⟨[], [], []⟩ rfl
  have hbi : (buildImports set.imports).errors
      = insertionConflicts [] (importKeys set.imports) := by
    simpa [buildImports, tmKeys] using he1
  have hbs : tmKeys (buildImports set.imports).srcMap
      = insertionAdded [] (importKeys set.imports) := by
    simpa [buildImports, tmKeys] using hs1
  have hbp : tmKeys (buildImports set.imports).providerMap
      = tmKeys (buildImports set.imports).srcMap := by
    simpa [buildImports] using hp1
  refine ⟨?_, ?_, ?_, ?_⟩
  · intro hne
    simp only [buildProviderMap, hbi, hne, ne_eq, not_false_eq_true, if_true]
  · intro hE1 hne2
    have hsk1 : tmKeys (buildImports set.imports).srcMap = importKeys set.imports := by
      rw [hbs, insertionAdded_of_no_conflicts _ _ hE1]
    obtain ⟨he3, hs3, hp3⟩ :=
      buildProvidersValues_spec set.providers set.values (buildImports set.imports) hbp
    rw [hbi, hE1, hsk1] at he3
    simp only [List.nil_append] at he3
    simp only [buildProviderMap, hbi, hE1, ne_eq, not_true_eq_false, if_false,
      Bool.false_eq_true, reduceIte, he3, hne2, not_false_eq_true, if_true]
  · intro hE1 hE2 hne3
    have hsk1 : tmKeys (buildImports set.imports).srcMap = importKeys set.imports := by
      rw [hbs, insertionAdded_of_no_conflicts _ _ hE1]
    obtain ⟨he3, hs3, hp3⟩ :=
      buildProvidersValues_spec set.providers set.values (buildImports set.imports) hbp
    rw [hbi, hE1, hsk1] at he3
    simp only [List.nil_append] at he3
    rw [hE2] at he3
    rw [hsk1] at hs3
    rw [insertionAdded_of_no_conflicts _ _ hE2] at hs3
    obtain ⟨he4, hs4, hp4⟩ :=
      buildBindings_spec set.bindings
        (buildProvidersValues set.providers set.values (buildImports set.imports)) hp3
    rw [he3, hs3] at he4
    simp only [List.nil_append] at he4
    simp only [buildProviderMap, hbi, hE1, ne_eq, not_true_eq_false, if_false,
      Bool.false_eq_true, reduceIte, he3, he4, hne3, not_false_eq_true, if_true]
  · intro hE1 hE2 hE3
    have hsk1 : tmKeys (buildImports set.imports).srcMap = importKeys set.imports := by
      rw [hbs, insertionAdded_of_no_conflicts _ _ hE1]
    obtain ⟨he3, hs3, hp3⟩ :=
      buildProvidersValues_spec set.providers set.values (buildImports set.imports) hbp
    rw [hbi, hE1, hsk1] at he3
    simp only [List.nil_append] at he3
    rw [hE2] at he3
    rw [hsk1] at hs3
    rw [insertionAdded_of_no_conflicts _ _ hE2] at hs3
    obtain ⟨he4, hs4, hp4⟩ :=
      buildBindings_spec set.bindings
        (buildProvidersValues set.providers set.values (buildImports set.imports)) hp3
    rw [he3] at he4
    rw [hs3] at he4 hs4
    simp only [List.nil_append] at he4
    rw [hE3] at he4
    rw [bindingPhaseAdded_of_no_errs _ _ hE3] at hs4
    refine ⟨(buildBindings set.bindings
        (buildProvidersValues set.providers set.values (buildImports set.imports))).providerMap,
      (buildBindings set.bindings
        (buildProvidersValues set.providers set.values (buildImports set.imports))).srcMap,
      ?_, ?_, ?_⟩
    · simp only [buildProviderMap, hbi, hE1, ne_eq, not_true_eq_false, if_false,
        Bool.false_eq_true, reduceIte, he3, he4]
    · rw [hp4, hs4, List.append_assoc]
    · rw [hp4]

theorem buildProviderMap_collects_all_witness :
    insertionConflicts [] (importKeys exDup2.imports) = [] ∧
    insertionConflicts (importKeys exDup2.imports)
        (directKeys exDup2.providers exDup2.values) ≠ [] ∧
    buildProviderMap exDup2 =
      .error [.multipleBindings 30, .multipleBindings 31] := by
  refine ⟨by decide, by decide, ?_⟩
  have h := (buildProviderMap_collects_all exDup2).2.1 (by decide) (by decide)
  rw [h]
  decide

/-! ## No de-duplication of diamond imports (C5) -/

theorem mem_insertionConflicts_of_mem_seen (ks : List Ty) : ∀ (S : List Ty) (k : Ty),
    k ∈ S → k ∈ ks → Err.multipleBindings k ∈ insertionConflicts S ks := by
  induction ks with
  | nil => intro S k _ h; simp at h
  | cons a ks ih =>
    intro S k hS hks
    rcases List.mem_cons.mp hks with rfl | hks
    · rw [insertionConflicts, if_pos hS]
      exact (List.mem_cons_self _ _)
    · by_cases ha : a ∈ S
      · rw [insertionConflicts, if_pos ha]
        exact List.mem_cons_of_mem _ (ih S k hS hks)
      · rw [insertionConflicts, if_neg ha]
        exact ih (S ++ [a]) k (List.mem_append_left _ hS) hks

theorem mem_seen_insertionAdded (ks : List Ty) : ∀ (S : List Ty) (k : Ty),
    k ∈ ks → k ∈ S ++ insertionAdded S ks := by
  induction ks with
  | nil => intro S k h; simp at h
  | cons a ks ih =>
    intro S k hks
    rcases List.mem_cons.mp hks with rfl | hks
    · by_cases ha : k ∈ S
      · exact List.mem_append_left _ ha
      · rw [insertionAdded, if_neg ha]
        exact List.mem_append_right _ ((List.mem_cons_self _ _))
    · by_cases ha : a ∈ S
      · rw [insertionAdded, if_pos ha]
        exact ih S k hks
      · rw [insertionAdded, if_neg ha]
        have := ih (S ++ [a]) k hks
        rw [List.append_assoc, List.singleton_append] at this
        exact this

theorem mem_insertionConflicts_of_mem_both (ks1 ks2 S : List Ty) (k : Ty)
    (h1 : k ∈ ks1) (h2 : k ∈ ks2) :
    Err.multipleBindings k ∈ insertionConflicts S (ks1 ++ ks2) := by
  rw [insertionConflicts_append]
  exact List.mem_append_right _
    (mem_insertionConflicts_of_mem_seen ks2 _ k (mem_seen_insertionAdded ks1 S k h1) h2)

/-- C5 (amended): flattening does not de-duplicate imported provider sets by
identity.  When the same output type is contributed by two different imports
of one set — in particular in a diamond, where one imported set is reachable
through two importers — `buildProviderMap` reports a BindingConflict for that
type and returns a non-empty error list instead of a provider map. -/
theorem diamond_import_conflicts (set : ProviderSet) (i j : Nat) (k : Ty)
    (hij : i < j) (hj : j < set.imports.length)
    (hki : k ∈ tmKeys set.imports[i].providerMap)
    (hkj : k ∈ tmKeys set.imports[j].providerMap) :
    ∃ errs, buildProviderMap set = .error errs ∧ errs ≠ [] ∧
      Err.multipleBindings k ∈ errs := by
  have hi : i < set.imports.length := lt_trans hij hj
  -- split the imported key sequence at position j
  have hsplit : set.imports = set.imports.take j ++ set.imports.drop j :=
    (List.take_append_drop j set.imports).symm
  have hdrop : set.imports.drop j = set.imports[j] :: set.imports.drop (j + 1) :=
    List.drop_eq_getElem_cons hj
  have hmem1 : k ∈ importKeys (set.imports.take j) := by
    have hti : set.imports[i] ∈ set.imports.take j := by
      rw [List.mem_take_iff_getElem]
      exact ⟨i, by omega, rfl⟩
    exact List.mem_flatMap.mpr ⟨set.imports[i], hti, hki⟩
  have hmem2 : k ∈ importKeys (set.imports.drop j) := by
    rw [hdrop]
    exact List.mem_flatMap.mpr ⟨set.imports[j], (List.mem_cons_self _ _), hkj⟩
  have hK : importKeys set.imports
      = importKeys (set.imports.take j) ++ importKeys (set.imports.drop j) := by
    conv_lhs => rw [hsplit]
    rw [importKeys, List.flatMap_append]
    rfl
  have hmemc : Err.multipleBindings k ∈ insertionConflicts [] (importKeys set.imports) := by
    rw [hK]
    exact mem_insertionConflicts_of_mem_both _ _ [] k hmem1 hmem2
  have hne : insertionConflicts [] (importKeys set.imports) ≠ [] := by
    intro hc; rw [hc] at hmemc; simp at hmemc
  -- the import pass fails with exactly these conflicts
  obtain ⟨he1, hs1, hp1⟩ := buildImports_spec set.imports ⟨[], [], []⟩ rfl
  have hbi : (buildImports set.imports).errors
      = insertionConflicts [] (importKeys set.imports) := by
    simpa [buildImports, tmKeys] using he1
  refine ⟨insertionConflicts [] (importKeys set.imports), ?_, hne, hmemc⟩
  simp only [buildProviderMap, hbi, hne, ne_eq, not_false_eq_true, if_true]

theorem diamond_import_conflicts_witness :
    0 < 1 ∧ 1 < exDiamondA.imports.length ∧
    9 ∈ tmKeys exDiamondA.imports[0].providerMap ∧
    9 ∈ tmKeys exDiamondA.imports[1].providerMap ∧
    ∃ errs, buildProviderMap exDiamondA = .error errs ∧ errs ≠ [] ∧
      Err.multipleBindings 9 ∈ errs := by
  refine ⟨by decide, by decide, by decide, by decide, ?_⟩
  exact diamond_import_conflicts exDiamondA 0 1 9 (by decide) (by decide)
    (by decide) (by decide)

/-- C5, counterexample to the claim as stated: in the diamond `A → {B, C}`,
`B → S`, `C → S` where `S` provides type 9, `buildProviderMap` does not
succeed with a single entry for 9 — it reports a BindingConflict for 9. -/
theorem diamond_import_not_deduplicated :
    buildProviderMap exDiamondA = .error [.multipleBindings 9] := by decide

/-! ## Dependencies reference only earlier locals (C2) -/

theorem tmAt_cons {α : Type} (e : Ty × α) (m : List (Ty × α)) (t : Ty) :
    tmAt (e :: m) t = if e.1 = t then some e.2 else tmAt m t := by
  by_cases h : e.1 = t
  · have hb : (e.1 == t) = true := by simpa using h
    simp [tmAt, List.find?_cons, hb, h]
  · have hb : (e.1 == t) = false := by simpa using h
    simp [tmAt, List.find?_cons, hb, h]

theorem tmAt_tmSet_eq {α : Type} (m : List (Ty × α)) (t : Ty) (v : α) :
    tmAt (tmSet m t v) t = some v := by
  induction m with
  | nil => simp [tmSet, tmAt]
  | cons e rest ih =>
    rw [tmSet]
    by_cases h : e.1 = t
    · rw [if_pos h, tmAt_cons]
      simp
    · rw [if_neg h, tmAt_cons, if_neg h]
      exact ih

theorem tmAt_tmSet_ne {α : Type} (m : List (Ty × α)) (t t' : Ty) (v : α)
    (h : t' ≠ t) : tmAt (tmSet m t v) t' = tmAt m t' := by
  induction m with
  | nil =>
    simp only [tmSet, tmAt, List.find?_cons, List.find?_nil]
    have hb : ((t : Ty) == t') = false := by simpa using fun hc => h hc.symm
    simp [hb]
  | cons e rest ih =>
    rw [tmSet]
    by_cases he : e.1 = t
    · rw [if_pos he, tmAt_cons, tmAt_cons]
      have h1 : ¬(t = t') := fun hc => h hc.symm
      have h2 : ¬(e.1 = t') := by rw [he]; exact h1
      rw [if_neg h1, if_neg h2]
    · rw [if_neg he, tmAt_cons, tmAt_cons, ih]

theorem idxBounded_set_abort {N : Nat} {st : SolveSt} (h : IdxBounded N st)
    (t : Ty) (E : List Err) (U : List ProviderSetSrc) :
    IdxBounded N { st with
      errors := E,
      used := U,
      index := tmSet st.index t none } := by
  refine ⟨?_, h.2⟩
  intro t' n ht'
  dsimp only at ht'
  by_cases he : t' = t
  · subst he
    rw [tmAt_tmSet_eq] at ht'
    simp at ht'
  · rw [tmAt_tmSet_ne _ _ _ _ he] at ht'
    exact h.1 t' n ht'

theorem idxBounded_share {N : Nat} {st : SolveSt} (h : IdxBounded N st)
    (t c : Ty) (i : IdxVal) (hi : tmAt st.index c = some i)
    (U : List ProviderSetSrc) :
    IdxBounded N { st with
      used := U,
      index := tmSet st.index t i } := by
  refine ⟨?_, h.2⟩
  intro t' n ht'
  dsimp only at ht'
  by_cases he : t' = t
  · subst he
    rw [tmAt_tmSet_eq] at ht'
    have hin : i = some n := by simpa using ht'
    subst hin
    exact h.1 c n hi
  · rw [tmAt_tmSet_ne _ _ _ _ he] at ht'
    exact h.1 t' n ht'

theorem idxBounded_append_call {N : Nat} {st : SolveSt} (h : IdxBounded N st)
    (t : Ty) (c : Call) (hargs : ∀ a ∈ c.args, a < N + st.calls.length)
    (U : List ProviderSetSrc) :
    IdxBounded N { st with
      used := U,
      index := tmSet st.index t (some (N + st.calls.length)),
      calls := st.calls ++ [c] } := by
  constructor
  · intro t' n ht'
    dsimp only at ht' ⊢
    rw [List.length_append, List.length_singleton]
    by_cases he : t' = t
    · subst he
      rw [tmAt_tmSet_eq] at ht'
      have : N + st.calls.length = n := by simpa using ht'
      omega
    · rw [tmAt_tmSet_ne _ _ _ _ he] at ht'
      have := h.1 t' n ht'
      omega
  · intro k hk a ha
    dsimp only at hk ha ⊢
    rw [List.length_append, List.length_singleton] at hk
    by_cases hlt : k < st.calls.length
    · rw [List.getElem_append_left hlt] at ha
      exact h.2 k hlt a ha
    · have hke : k = st.calls.length := by omega
      subst hke
      have hlen : st.calls.length < (st.calls ++ [c]).length := by
        simp
      have hc : (st.calls ++ [c])[st.calls.length] = c := by
        simp
      rw [hc] at ha
      exact hargs a ha

theorem idxBounded_used {N : Nat} {st : SolveSt} (h : IdxBounded N st)
    (u : List ProviderSetSrc) : IdxBounded N { st with used := u } := h

theorem solveLoop_preserves_bounded (set : ProviderSet) (given : List Ty) :
    ∀ (fuel : Nat) (stk : List Frame) (st : SolveSt) (res : Nat × SolveSt),
    solveLoop set given fuel stk st = some res →
    IdxBounded given.length st → IdxBounded given.length res.2 := by
  intro fuel
  induction fuel with
  | zero =>
    intro stk st res h hb
    cases stk with
    | nil =>
      rw [solveLoop] at h
      cases h
      exact hb
    | cons curr rest => simp [solveLoop] at h
  | succ fuel ih =>
    intro stk st res h hb
    cases stk with
    | nil =>
      rw [solveLoop] at h
      cases h
      exact hb
    | cons curr rest =>
      rw [solveLoop] at h
      by_cases h1 : (tmAt st.index curr.t).isSome = true
      · rw [if_pos h1] at h
        exact ih rest st res h hb
      · rw [if_neg h1] at h
        by_cases h2 : (set.For curr.t).IsNil = true
        · rw [if_pos h2] at h
          exact ih rest _ res h (idxBounded_set_abort hb curr.t _ _)
        · rw [if_neg h2] at h
          cases hp : (set.For curr.t).p with
          | some p =>
            rw [hp] at h
            dsimp only at h
            by_cases h3 : (set.For curr.t).ConcreteType ≠ curr.t
            · rw [if_pos h3] at h
              cases hc : tmAt st.index (set.For curr.t).ConcreteType with
              | none =>
                rw [hc] at h
                exact ih _ _ res h hb
              | some i =>
                rw [hc] at h
                exact ih rest _ res h (idxBounded_share hb curr.t _ i hc _)
            · rw [if_neg h3] at h
              by_cases h4 : p.args.filter
                  (fun a => (tmAt st.index a.type).isNone) ≠ []
              · rw [if_pos h4] at h
                exact ih _ _ res h hb
              · rw [if_neg h4] at h
                by_cases h5 : p.args.any
                    (fun a => tmAt st.index a.type == some none) = true
                · rw [if_pos h5] at h
                  exact ih rest _ res h (idxBounded_set_abort hb curr.t _ _)
                · rw [if_neg h5] at h
                  apply ih rest _ res h
                  apply idxBounded_append_call hb curr.t (U := st.used ++ [srcFor set curr.t])
                  intro a ha
                  obtain ⟨pa, hpa, hfa⟩ := List.mem_map.mp ha
                  have hnm : ¬(tmAt st.index pa.type).isNone = true := by
                    intro hcon
                    have : pa ∈ p.args.filter (fun a => (tmAt st.index a.type).isNone) :=
                      List.mem_filter.mpr ⟨hpa, hcon⟩
                    rw [not_ne_iff.mp h4] at this
                    simp at this
                  have hne : tmAt st.index pa.type ≠ some none := by
                    intro hcon
                    apply h5
                    rw [List.any_eq_true]
                    exact ⟨pa, hpa, by rw [hcon]; rfl⟩
                  cases hv : tmAt st.index pa.type with
                  | none => rw [hv] at hnm; simp at hnm
                  | some iv =>
                    cases iv with
                    | none => exact absurd hv hne
                    | some n =>
                      have hb1 := hb.1 pa.type n hv
                      rw [← hfa, hv]
                      simpa using hb1
          | none =>
            rw [hp] at h
            cases hv : (set.For curr.t).v with
            | some v =>
              rw [hv] at h
              dsimp only at h
              by_cases h3 : v.out ≠ curr.t
              · rw [if_pos h3] at h
                cases hc : tmAt st.index v.out with
                | none =>
                  rw [hc] at h
                  exact ih _ _ res h hb
                | some i =>
                  rw [hc] at h
                  exact ih rest _ res h (idxBounded_share hb curr.t _ i hc _)
              · rw [if_neg h3] at h
                apply ih rest _ res h
                have := idxBounded_append_call hb curr.t (mkValueCall v curr.t)
                  (by intro a ha; simp [mkValueCall] at ha)
                  (st.used ++ [srcFor set curr.t])
                exact this
            | none =>
              rw [hv] at h
              exact ih rest st res h hb

theorem initIndexAux_index_bounded (set : ProviderSet) :
    ∀ (gs : List Ty) (i : Nat) (idx : List (Ty × IdxVal)) (errs : List Err),
    (∀ t n, tmAt idx t = some (some n) → n < i) →
    ∀ t n, tmAt (initIndexAux set i gs (idx, errs)).1 t = some (some n) →
      n < i + gs.length := by
  intro gs
  induction gs with
  | nil =>
    intro i idx errs hb t n h
    rw [initIndexAux] at h
    have := hb t n h
    omega
  | cons g gs ih =>
    intro i idx errs hb t n h
    rw [initIndexAux] at h
    by_cases hnil : (set.For g).IsNil = true
    · rw [if_pos hnil] at h
      have hstep : ∀ t' n', tmAt (tmSet idx g (some i)) t' = some (some n') → n' < i + 1 := by
        intro t' n' ht'
        by_cases he : t' = g
        · subst he
          rw [tmAt_tmSet_eq] at ht'
          have : i = n' := by simpa using ht'
          omega
        · rw [tmAt_tmSet_ne _ _ _ _ he] at ht'
          have := hb t' n' ht'
          omega
      have := ih (i + 1) _ errs hstep t n h
      simp only [List.length_cons]
      omega
    · rw [if_neg hnil] at h
      have hb' : ∀ t' n', tmAt idx t' = some (some n') → n' < i + 1 := by
        intro t' n' ht'; have := hb t' n' ht'; omega
      cases hp : (set.For g).p with
      | some p =>
        rw [hp] at h
        have := ih (i + 1) _ _ hb' t n h
        simp only [List.length_cons]
        omega
      | none =>
        rw [hp] at h
        cases hv : (set.For g).v with
        | some v =>
          rw [hv] at h
          have := ih (i + 1) _ _ hb' t n h
          simp only [List.length_cons]
          omega
        | none =>
          rw [hv] at h
          have := ih (i + 1) _ _ hb' t n h
          simp only [List.length_cons]
          omega

/-- C2: for every call list `C` emitted by `solve` for an injector with `N`
declared inputs, every call `C[k]` and every argument index `a ∈ C[k].args`
satisfies `a < N + k`: each argument refers either to an injector input
(`a < N`) or to the output of a strictly earlier call. -/
theorem solve_args_reference_earlier_locals (out : Ty) (given : List Ty)
    (set : ProviderSet) (fuel : Nat) (calls : List Call)
    (h : solveRun out given set fuel = some (.ok calls)) :
    ArgsBounded given.length calls := by
  rw [solveRun] at h
  by_cases hpre : inputDupErrors given ++ (initIndex set given).2 ≠ []
  · rw [if_pos hpre] at h
    simp at h
  · rw [if_neg hpre] at h
    cases hloop : solveLoop set given fuel [⟨out, none, []⟩]
        ⟨(initIndex set given).1, [], [], []⟩ with
    | none => rw [hloop] at h; simp at h
    | some res =>
      obtain ⟨fl, stf⟩ := res
      rw [hloop] at h
      dsimp only at h
      have hinit : IdxBounded given.length
          ⟨(initIndex set given).1, [], [], []⟩ := by
        constructor
        · intro t n ht
          have := initIndexAux_index_bounded set given 0 [] [] (by
            intro t' n' ht'
            simp [tmAt] at ht') t n ht
          simpa using this
        · intro k hk a ha
          simp at hk
      have hres := solveLoop_preserves_bounded set given fuel _ _ (fl, stf) hloop hinit
      by_cases herr : stf.errors ≠ []
      · rw [if_pos herr] at h
        simp at h
      · rw [if_neg herr] at h
        cases hva : verifyArgsUsed set stf.used with
        | nil =>
          rw [hva] at h
          have hcalls : stf.calls = calls := by simpa using h
          rw [← hcalls]
          exact hres.2
        | cons e es =>
          rw [hva] at h
          simp at h

theorem solve_args_reference_earlier_locals_witness :
    solveRun 6 [5] exS3 30 =
      some (.ok [mkProviderCall exProvBarX 7 [], mkProviderCall exProvFooBar2 6 [0, 1]]) ∧
    ArgsBounded 1 [mkProviderCall exProvBarX 7 [], mkProviderCall exProvFooBar2 6 [0, 1]] := by
  have h : solveRun 6 [5] exS3 30 =
      some (.ok [mkProviderCall exProvBarX 7 [], mkProviderCall exProvFooBar2 6 [0, 1]]) := by
    decide
  exact ⟨h, by
    have := solve_args_reference_earlier_locals 6 [5] exS3 30 _ h
    simpa using this⟩

/-! ## solveLoop as iterated solveStep: decomposition lemmas -/

theorem solveLoop_cons_eq_step (set : ProviderSet) (given : List Ty)
    (fuel : Nat) (curr : Frame) (rest : List Frame) (st : SolveSt) :
    solveLoop set given (fuel + 1) (curr :: rest) st =
      solveLoop set given fuel ((solveStep set given curr st).1 ++ rest)
        (solveStep set given curr st).2 := by
  rw [solveLoop, solveStep]
  by_cases h1 : (tmAt st.index curr.t).isSome = true
  · simp only [if_pos h1, List.nil_append]
  · simp only [if_neg h1]
    by_cases h2 : (set.For curr.t).IsNil = true
    · simp only [if_pos h2, List.nil_append]
    · simp only [if_neg h2]
      cases hp : (set.For curr.t).p with
      | some p =>
        dsimp only
        by_cases h3 : (set.For curr.t).ConcreteType ≠ curr.t
        · simp only [if_pos h3]
          cases hc : tmAt st.index (set.For curr.t).ConcreteType with
          | none => rfl
          | some i => rfl
        · simp only [if_neg h3]
          by_cases h4 : p.args.filter (fun a => (tmAt st.index a.type).isNone) ≠ []
          · simp only [if_pos h4]
            rw [List.append_assoc, List.singleton_append]
          · simp only [if_neg h4]
            by_cases h5 : p.args.any (fun a => tmAt st.index a.type == some none) = true
            · simp only [if_pos h5, List.nil_append]
            · simp only [if_neg h5, List.nil_append]
      | none =>
        dsimp only
        cases hv : (set.For curr.t).v with
        | some v =>
          dsimp only
          by_cases h3 : v.out ≠ curr.t
          · simp only [if_pos h3]
            cases hc : tmAt st.index v.out with
            | none => rfl
            | some i => rfl
          · simp only [if_neg h3, List.nil_append]
        | none => rfl

theorem solveLoop_append (set : ProviderSet) (given : List Ty) :
    ∀ (fuel : Nat) (σ S : List Frame) (st : SolveSt) (res : Nat × SolveSt),
    solveLoop set given fuel (σ ++ S) st = some res ↔
      ∃ mid : Nat × SolveSt, solveLoop set given fuel σ st = some mid ∧
        solveLoop set given mid.1 S mid.2 = some res := by
  intro fuel
  induction fuel with
  | zero =>
    intro σ S st res
    cases σ with
    | nil =>
      constructor
      · intro h
        exact ⟨(0, st), by rw [solveLoop], h⟩
      · rintro ⟨mid, h1, h2⟩
        rw [solveLoop] at h1
        cases h1
        exact h2
    | cons c σ2 =>
      constructor
      · intro h
        rw [List.cons_append] at h
        simp [solveLoop] at h
      · rintro ⟨mid, h1, h2⟩
        simp [solveLoop] at h1
  | succ fuel ih =>
    intro σ S st res
    cases σ with
    | nil =>
      constructor
      · intro h
        exact ⟨(fuel + 1, st), by rw [solveLoop], h⟩
      · rintro ⟨mid, h1, h2⟩
        rw [solveLoop] at h1
        cases h1
        exact h2
    | cons c σ2 =>
      constructor
      · intro h
        rw [List.cons_append, solveLoop_cons_eq_step, ← List.append_assoc] at h
        obtain ⟨mid, h1, h2⟩ := (ih _ _ _ _).mp h
        refine ⟨mid, ?_, h2⟩
        rw [solveLoop_cons_eq_step]
        exact h1
      · rintro ⟨mid, h1, h2⟩
        rw [solveLoop_cons_eq_step] at h1
        rw [List.cons_append, solveLoop_cons_eq_step, ← List.append_assoc]
        exact (ih _ _ _ _).mpr ⟨mid, h1, h2⟩

theorem solveLoop_add (set : ProviderSet) (given : List Ty) :
    ∀ (fuel : Nat) (σ : List Frame) (st : SolveSt) (l : Nat) (st2 : SolveSt),
    solveLoop set given fuel σ st = some (l, st2) → ∀ (k : Nat),
    solveLoop set given (fuel + k) σ st = some (l + k, st2) := by
  intro fuel
  induction fuel with
  | zero =>
    intro σ st l st2 h k
    cases σ with
    | nil =>
      rw [solveLoop] at h
      cases h
      rw [solveLoop]
    | cons c σ2 => simp [solveLoop] at h
  | succ fuel ih =>
    intro σ st l st2 h k
    cases σ with
    | nil =>
      rw [solveLoop] at h
      cases h
      rw [solveLoop]
    | cons c σ2 =>
      rw [solveLoop_cons_eq_step] at h
      have : fuel + 1 + k = (fuel + k) + 1 := by omega
      rw [this, solveLoop_cons_eq_step]
      exact ih _ _ _ _ h k

theorem solveLoop_fuel_le (set : ProviderSet) (given : List Ty) :
    ∀ (fuel : Nat) (σ : List Frame) (st : SolveSt) (l : Nat) (st2 : SolveSt),
    solveLoop set given fuel σ st = some (l, st2) → l ≤ fuel := by
  intro fuel
  induction fuel with
  | zero =>
    intro σ st l st2 h
    cases σ with
    | nil =>
      rw [solveLoop] at h
      cases h
      exact Nat.le_refl 0
    | cons c σ2 => simp [solveLoop] at h
  | succ fuel ih =>
    intro σ st l st2 h
    cases σ with
    | nil =>
      rw [solveLoop] at h
      cases h
      exact Nat.le_refl _
    | cons c σ2 =>
      rw [solveLoop_cons_eq_step] at h
      exact Nat.le_succ_of_le (ih _ _ _ _ h)

theorem tmAt_tmSet_of_none {α : Type} (m : List (Ty × α)) (c t : Ty) (w : α) (v : α)
    (hm : tmAt m c = none) (h : tmAt m t = some v) :
    tmAt (tmSet m c w) t = some v := by
  have hne : t ≠ c := by
    intro he
    rw [he, hm] at h
    cases h
  rw [tmAt_tmSet_ne _ _ _ _ hne]
  exact h

theorem not_isSome_eq_none {α : Type} (o : Option α) (h : ¬o.isSome = true) : o = none := by
  cases o with
  | none => rfl
  | some v => simp at h

theorem solveStep_mono (set : ProviderSet) (given : List Ty) (curr : Frame) (st : SolveSt) :
    (∃ E, (solveStep set given curr st).2.errors = st.errors ++ E) ∧
    (∃ Δ, (solveStep set given curr st).2.calls = st.calls ++ Δ) ∧
    (∀ t v, tmAt st.index t = some v →
      tmAt (solveStep set given curr st).2.index t = some v) := by
  rw [solveStep]
  by_cases h1 : (tmAt st.index curr.t).isSome = true
  · simp only [if_pos h1]
    exact ⟨⟨[], by simp⟩, ⟨[], by simp⟩, fun t v h => h⟩
  · have hnone : tmAt st.index curr.t = none := not_isSome_eq_none _ h1
    simp only [if_neg h1]
    by_cases h2 : (set.For curr.t).IsNil = true
    · simp only [if_pos h2]
      exact ⟨⟨_, rfl⟩, ⟨[], by simp⟩,
        fun t v h => tmAt_tmSet_of_none _ _ _ _ _ hnone h⟩
    · simp only [if_neg h2]
      cases hp : (set.For curr.t).p with
      | some p =>
        dsimp only
        by_cases h3 : (set.For curr.t).ConcreteType ≠ curr.t
        · simp only [if_pos h3]
          cases hc : tmAt st.index (set.For curr.t).ConcreteType with
          | none =>
            exact ⟨⟨[], by simp⟩, ⟨[], by simp⟩, fun t v h => h⟩
          | some i =>
            exact ⟨⟨[], by simp⟩, ⟨[], by simp⟩,
              fun t v h => tmAt_tmSet_of_none _ _ _ _ _ hnone h⟩
        · simp only [if_neg h3]
          by_cases h4 : p.args.filter (fun a => (tmAt st.index a.type).isNone) ≠ []
          · simp only [if_pos h4]
            exact ⟨⟨[], by simp⟩, ⟨[], by simp⟩, fun t v h => h⟩
          · simp only [if_neg h4]
            by_cases h5 : p.args.any (fun a => tmAt st.index a.type == some none) = true
            · simp only [if_pos h5]
              exact ⟨⟨[], by simp⟩, ⟨[], by simp⟩,
                fun t v h => tmAt_tmSet_of_none _ _ _ _ _ hnone h⟩
            · simp only [if_neg h5]
              exact ⟨⟨[], by simp⟩, ⟨_, rfl⟩,
                fun t v h => tmAt_tmSet_of_none _ _ _ _ _ hnone h⟩
      | none =>
        dsimp only
        cases hv : (set.For curr.t).v with
        | some v0 =>
          dsimp only
          by_cases h3 : v0.out ≠ curr.t
          · simp only [if_pos h3]
            cases hc : tmAt st.index v0.out with
            | none =>
              exact ⟨⟨[], by simp⟩, ⟨[], by simp⟩, fun t v h => h⟩
            | some i =>
              exact ⟨⟨[], by simp⟩, ⟨[], by simp⟩,
                fun t v h => tmAt_tmSet_of_none _ _ _ _ _ hnone h⟩
          · simp only [if_neg h3]
            exact ⟨⟨[], by simp⟩, ⟨_, rfl⟩,
              fun t v h => tmAt_tmSet_of_none _ _ _ _ _ hnone h⟩
        | none =>
          exact ⟨⟨[], by simp⟩, ⟨[], by simp⟩, fun t v h => h⟩

theorem solveLoop_mono (set : ProviderSet) (given : List Ty) :
    ∀ (fuel : Nat) (σ : List Frame) (st : SolveSt) (l : Nat) (st2 : SolveSt),
    solveLoop set given fuel σ st = some (l, st2) →
    (∃ E, st2.errors = st.errors ++ E) ∧
    (∃ Δ, st2.calls = st.calls ++ Δ) ∧
    (∀ t v, tmAt st.index t = some v → tmAt st2.index t = some v) := by
  intro fuel
  induction fuel with
  | zero =>
    intro σ st l st2 h
    cases σ with
    | nil =>
      rw [solveLoop] at h
      cases h
      exact ⟨⟨[], by simp⟩, ⟨[], by simp⟩, fun t v hv => hv⟩
    | cons c σ2 => simp [solveLoop] at h
  | succ fuel ih =>
    intro σ st l st2 h
    cases σ with
    | nil =>
      rw [solveLoop] at h
      cases h
      exact ⟨⟨[], by simp⟩, ⟨[], by simp⟩, fun t v hv => hv⟩
    | cons c σ2 =>
      rw [solveLoop_cons_eq_step] at h
      obtain ⟨⟨E1, hE1⟩, ⟨D1, hD1⟩, hI1⟩ := solveStep_mono set given c st
      obtain ⟨⟨E2, hE2⟩, ⟨D2, hD2⟩, hI2⟩ := ih _ _ _ _ h
      exact ⟨⟨E1 ++ E2, by rw [hE2, hE1, List.append_assoc]⟩,
             ⟨D1 ++ D2, by rw [hD2, hD1, List.append_assoc]⟩,
             fun t v hv => hI2 t v (hI1 t v hv)⟩

theorem noAbort_tmSet_some (idx : List (Ty × IdxVal)) (c : Ty) (n : Nat)
    (hna : NoAbort idx) : NoAbort (tmSet idx c (some n)) := by
  intro t
  by_cases he : t = c
  · subst he
    rw [tmAt_tmSet_eq]
    simp
  · rw [tmAt_tmSet_ne _ _ _ _ he]
    exact hna t

theorem solveStep_noAbort (set : ProviderSet) (given : List Ty) (curr : Frame)
    (st : SolveSt) (hna : NoAbort st.index) :
    NoAbort (solveStep set given curr st).2.index ∨
    (solveStep set given curr st).2.errors ≠ st.errors := by
  rw [solveStep]
  by_cases h1 : (tmAt st.index curr.t).isSome = true
  · simp only [if_pos h1]
    exact Or.inl hna
  · simp only [if_neg h1]
    by_cases h2 : (set.For curr.t).IsNil = true
    · simp only [if_pos h2]
      right
      intro hcon
      have := congrArg List.length hcon
      simp at this
    · simp only [if_neg h2]
      cases hp : (set.For curr.t).p with
      | some p =>
        dsimp only
        by_cases h3 : (set.For curr.t).ConcreteType ≠ curr.t
        · simp only [if_pos h3]
          cases hc : tmAt st.index (set.For curr.t).ConcreteType with
          | none => exact Or.inl hna
          | some i =>
            left
            intro t
            by_cases he : t = curr.t
            · subst he
              rw [tmAt_tmSet_eq]
              intro hcon
              cases hcon
              exact hna _ hc
            · rw [tmAt_tmSet_ne _ _ _ _ he]
              exact hna t
        · simp only [if_neg h3]
          by_cases h4 : p.args.filter (fun a => (tmAt st.index a.type).isNone) ≠ []
          · simp only [if_pos h4]
            exact Or.inl hna
          · simp only [if_neg h4]
            by_cases h5 : p.args.any (fun a => tmAt st.index a.type == some none) = true
            · exfalso
              obtain ⟨a, ha, hba⟩ := List.any_eq_true.mp h5
              have : tmAt st.index a.type = some none := by
                simpa using hba
              exact hna _ this
            · simp only [if_neg h5]
              exact Or.inl (noAbort_tmSet_some _ _ _ hna)
      | none =>
        dsimp only
        cases hv : (set.For curr.t).v with
        | some v0 =>
          dsimp only
          by_cases h3 : v0.out ≠ curr.t
          · simp only [if_pos h3]
            cases hc : tmAt st.index v0.out with
            | none => exact Or.inl hna
            | some i =>
              left
              intro t
              by_cases he : t = curr.t
              · subst he
                rw [tmAt_tmSet_eq]
                intro hcon
                cases hcon
                exact hna _ hc
              · rw [tmAt_tmSet_ne _ _ _ _ he]
                exact hna t
          · simp only [if_neg h3]
            exact Or.inl (noAbort_tmSet_some _ _ _ hna)
        | none => exact Or.inl hna

theorem solveLoop_noAbort (set : ProviderSet) (given : List Ty) :
    ∀ (fuel : Nat) (σ : List Frame) (st : SolveSt) (l : Nat) (st2 : SolveSt),
    solveLoop set given fuel σ st = some (l, st2) → st2.errors = st.errors →
    NoAbort st.index → NoAbort st2.index := by
  intro fuel
  induction fuel with
  | zero =>
    intro σ st l st2 h he hna
    cases σ with
    | nil =>
      rw [solveLoop] at h
      cases h
      exact hna
    | cons c σ2 => simp [solveLoop] at h
  | succ fuel ih =>
    intro σ st l st2 h he hna
    cases σ with
    | nil =>
      rw [solveLoop] at h
      cases h
      exact hna
    | cons c σ2 =>
      rw [solveLoop_cons_eq_step] at h
      obtain ⟨E1, hE1⟩ := (solveStep_mono set given c st).1
      obtain ⟨E2, hE2⟩ := (solveLoop_mono set given fuel _ _ _ _ h).1
      have hcomb : st.errors = st.errors ++ (E1 ++ E2) := by
        rw [← List.append_assoc, ← hE1, ← hE2, he]
      have hlen := congrArg List.length hcomb
      simp only [List.length_append] at hlen
      have hE1nil : E1 = [] := List.eq_nil_of_length_eq_zero (by omega)
      have hE2nil : E2 = [] := List.eq_nil_of_length_eq_zero (by omega)
      have hstep : (solveStep set given c st).2.errors = st.errors := by
        rw [hE1, hE1nil, List.append_nil]
      have hmid : st2.errors = (solveStep set given c st).2.errors := by
        rw [hE2, hE2nil, List.append_nil]
      cases solveStep_noAbort set given c st hna with
      | inl hna1 => exact ih _ _ _ _ h hmid hna1
      | inr hne => exact absurd hstep hne

theorem For_not_nil_mem_keys (set : ProviderSet) (t : Ty)
    (h : (set.For t).IsNil = false) : t ∈ tmKeys set.providerMap := by
  rw [← tmAt_isSome_iff_mem]
  cases hx : tmAt set.providerMap t with
  | none =>
    exfalso
    rw [ProviderSet.For, hx] at h
    simp [ProvidedType.nilPT, ProvidedType.IsNil] at h
  | some pt => rfl

theorem solveStep_pushed (set : ProviderSet) (given : List Ty) (curr : Frame)
    (st : SolveSt) :
    ∀ fr ∈ (solveStep set given curr st).1,
      fr = curr ∨ ((set.For curr.t).IsNil = false ∧ fr.t ∈ solveSucc set curr.t) := by
  rw [solveStep]
  by_cases h1 : (tmAt st.index curr.t).isSome = true
  · simp only [if_pos h1]
    intro fr hfr
    simp at hfr
  · simp only [if_neg h1]
    by_cases h2 : (set.For curr.t).IsNil = true
    · simp only [if_pos h2]
      intro fr hfr
      simp at hfr
    · have h2f : (set.For curr.t).IsNil = false := by
        simpa using h2
      simp only [if_neg h2]
      cases hp : (set.For curr.t).p with
      | some p =>
        dsimp only
        by_cases h3 : (set.For curr.t).ConcreteType ≠ curr.t
        · simp only [if_pos h3]
          cases hc : tmAt st.index (set.For curr.t).ConcreteType with
          | none =>
            intro fr hfr
            rcases List.mem_cons.mp hfr with he | hfr2
            · right
              refine ⟨h2f, ?_⟩
              rw [he]
              rw [solveSucc]
              simp only [if_neg h2, hp, if_pos h3]
              simp
            · left
              simpa using hfr2
          | some i =>
            intro fr hfr
            simp at hfr
        · simp only [if_neg h3]
          by_cases h4 : p.args.filter (fun a => (tmAt st.index a.type).isNone) ≠ []
          · simp only [if_pos h4]
            intro fr hfr
            rcases List.mem_append.mp hfr with hm | hs
            · right
              refine ⟨h2f, ?_⟩
              obtain ⟨a, ha, hfa⟩ := List.mem_map.mp hm
              have hargs : a ∈ p.args := (List.mem_filter.mp ha).1
              rw [← hfa]
              rw [solveSucc]
              simp only [if_neg h2, hp, if_neg h3]
              exact List.mem_map.mpr ⟨a, hargs, rfl⟩
            · left
              simpa using hs
          · simp only [if_neg h4]
            by_cases h5 : p.args.any (fun a => tmAt st.index a.type == some none) = true
            · simp only [if_pos h5]
              intro fr hfr
              simp at hfr
            · simp only [if_neg h5]
              intro fr hfr
              simp at hfr
      | none =>
        dsimp only
        cases hv : (set.For curr.t).v with
        | some v0 =>
          dsimp only
          by_cases h3 : v0.out ≠ curr.t
          · simp only [if_pos h3]
            cases hc : tmAt st.index v0.out with
            | none =>
              intro fr hfr
              rcases List.mem_cons.mp hfr with he | hfr2
              · right
                refine ⟨h2f, ?_⟩
                rw [he]
                rw [solveSucc]
                simp only [if_neg h2, hp, hv, if_pos h3]
                simp
              · left
                simpa using hfr2
            | some i =>
              intro fr hfr
              simp at hfr
          · simp only [if_neg h3]
            intro fr hfr
            simp at hfr
        | none =>
          intro fr hfr
          simp at hfr

theorem solveStep_index_new (set : ProviderSet) (given : List Ty) (curr : Frame)
    (st : SolveSt) (t : Ty) (h0 : tmAt st.index t = none)
    (h1 : tmAt (solveStep set given curr st).2.index t ≠ none) : t = curr.t := by
  by_cases he : t = curr.t
  · exact he
  · exfalso
    apply h1
    rw [solveStep]
    by_cases hi : (tmAt st.index curr.t).isSome = true
    · simp only [if_pos hi]
      exact h0
    · simp only [if_neg hi]
      by_cases h2 : (set.For curr.t).IsNil = true
      · simp only [if_pos h2]
        rw [tmAt_tmSet_ne _ _ _ _ he]
        exact h0
      · simp only [if_neg h2]
        cases hp : (set.For curr.t).p with
        | some p =>
          dsimp only
          by_cases h3 : (set.For curr.t).ConcreteType ≠ curr.t
          · simp only [if_pos h3]
            cases hc : tmAt st.index (set.For curr.t).ConcreteType with
            | none => exact h0
            | some i =>
              rw [tmAt_tmSet_ne _ _ _ _ he]
              exact h0
          · simp only [if_neg h3]
            by_cases h4 : p.args.filter (fun a => (tmAt st.index a.type).isNone) ≠ []
            · simp only [if_pos h4]
              exact h0
            · simp only [if_neg h4]
              by_cases h5 : p.args.any (fun a => tmAt st.index a.type == some none) = true
              · simp only [if_pos h5]
                rw [tmAt_tmSet_ne _ _ _ _ he]
                exact h0
              · simp only [if_neg h5]
                rw [tmAt_tmSet_ne _ _ _ _ he]
                exact h0
        | none =>
          dsimp only
          cases hv : (set.For curr.t).v with
          | some v0 =>
            dsimp only
            by_cases h3 : v0.out ≠ curr.t
            · simp only [if_pos h3]
              cases hc : tmAt st.index v0.out with
              | none => exact h0
              | some i =>
                rw [tmAt_tmSet_ne _ _ _ _ he]
                exact h0
            · simp only [if_neg h3]
              rw [tmAt_tmSet_ne _ _ _ _ he]
              exact h0
          | none => exact h0

theorem solveLoop_rank_new (set : ProviderSet) (given : List Ty) (rank : Ty → Nat)
    (hrank : RankedAcyclic set rank) (B : Nat) :
    ∀ (fuel : Nat) (σ : List Frame) (st : SolveSt) (l : Nat) (st2 : SolveSt),
    solveLoop set given fuel σ st = some (l, st2) →
    (∀ fr ∈ σ, rank fr.t < B) →
    ∀ t, tmAt st.index t = none → tmAt st2.index t ≠ none → rank t < B := by
  intro fuel
  induction fuel with
  | zero =>
    intro σ st l st2 h hσ t h0 h1
    cases σ with
    | nil =>
      rw [solveLoop] at h
      cases h
      exact absurd h0 h1
    | cons c σ2 => simp [solveLoop] at h
  | succ fuel ih =>
    intro σ st l st2 h hσ t h0 h1
    cases σ with
    | nil =>
      rw [solveLoop] at h
      cases h
      exact absurd h0 h1
    | cons c σ2 =>
      rw [solveLoop_cons_eq_step] at h
      have hσ2 : ∀ fr ∈ (solveStep set given c st).1 ++ σ2, rank fr.t < B := by
        intro fr hfr
        rcases List.mem_append.mp hfr with hm | hm
        · rcases solveStep_pushed set given c st fr hm with he | ⟨hnil, hsucc⟩
          · rw [he]
            exact hσ c (List.mem_cons_self _ _)
          · have hk := For_not_nil_mem_keys set c.t hnil
            have := hrank c.t hk fr.t hsucc
            have hcB := hσ c (List.mem_cons_self _ _)
            omega
        · exact hσ fr (List.mem_cons_of_mem c hm)
      cases hmid : tmAt (solveStep set given c st).2.index t with
      | none => exact ih _ _ _ _ h hσ2 t hmid h1
      | some v =>
        have he := solveStep_index_new set given c st t h0 (by rw [hmid]; simp)
        rw [he]
        exact hσ c (List.mem_cons_self _ _)

theorem solveStep_self (set : ProviderSet) (given : List Ty) (curr : Frame)
    (st : SolveSt) :
    (tmAt (solveStep set given curr st).2.index curr.t).isSome = true ∨
    ∃ pre, (solveStep set given curr st).1 = pre ++ [curr] := by
  rw [solveStep]
  by_cases h1 : (tmAt st.index curr.t).isSome = true
  · simp only [if_pos h1]
    exact Or.inl h1
  · simp only [if_neg h1]
    by_cases h2 : (set.For curr.t).IsNil = true
    · simp only [if_pos h2]
      left
      rw [tmAt_tmSet_eq]
      rfl
    · simp only [if_neg h2]
      cases hp : (set.For curr.t).p with
      | some p =>
        dsimp only
        by_cases h3 : (set.For curr.t).ConcreteType ≠ curr.t
        · simp only [if_pos h3]
          cases hc : tmAt st.index (set.For curr.t).ConcreteType with
          | none =>
            right
            exact ⟨[⟨(set.For curr.t).ConcreteType, some curr.t, curr.t :: curr.up⟩], rfl⟩
          | some i =>
            left
            rw [tmAt_tmSet_eq]
            rfl
        · simp only [if_neg h3]
          by_cases h4 : p.args.filter (fun a => (tmAt st.index a.type).isNone) ≠ []
          · simp only [if_pos h4]
            right
            exact ⟨_, rfl⟩
          · simp only [if_neg h4]
            by_cases h5 : p.args.any (fun a => tmAt st.index a.type == some none) = true
            · simp only [if_pos h5]
              left
              rw [tmAt_tmSet_eq]
              rfl
            · simp only [if_neg h5]
              left
              rw [tmAt_tmSet_eq]
              rfl
      | none =>
        dsimp only
        cases hv : (set.For curr.t).v with
        | some v0 =>
          dsimp only
          by_cases h3 : v0.out ≠ curr.t
          · simp only [if_pos h3]
            cases hc : tmAt st.index v0.out with
            | none =>
              right
              exact ⟨[⟨v0.out, some curr.t, curr.t :: curr.up⟩], rfl⟩
            | some i =>
              left
              rw [tmAt_tmSet_eq]
              rfl
          · simp only [if_neg h3]
            left
            rw [tmAt_tmSet_eq]
            rfl
        | none =>
          exfalso
          rw [ProvidedType.IsNil, hp, hv] at h2
          simp at h2

theorem solveLoop_indexed (set : ProviderSet) (given : List Ty) :
    ∀ (fuel : Nat) (f : Frame) (st : SolveSt) (l : Nat) (st2 : SolveSt),
    solveLoop set given fuel [f] st = some (l, st2) →
    (tmAt st2.index f.t).isSome = true := by
  intro fuel
  induction fuel using Nat.strong_induction_on with
  | _ fuel ih =>
    intro f st l st2 h
    cases fuel with
    | zero => simp [solveLoop] at h
    | succ n =>
      rw [solveLoop_cons_eq_step] at h
      cases solveStep_self set given f st with
      | inl hidx =>
        obtain ⟨-, -, hI⟩ := solveLoop_mono set given n _ _ _ _ h
        obtain ⟨v, hv⟩ := Option.isSome_iff_exists.mp hidx
        rw [Option.isSome_iff_exists]
        exact ⟨v, hI _ _ hv⟩
      | inr hpre =>
        obtain ⟨pre, hpre⟩ := hpre
        rw [hpre, List.append_nil] at h
        obtain ⟨mid, h1, h2⟩ := (solveLoop_append set given n pre [f] _ _).mp h
        obtain ⟨m1, m2⟩ := mid
        have hle : m1 ≤ n := solveLoop_fuel_le set given n _ _ _ _ h1
        exact ih m1 (by omega) f m2 l st2 h2

theorem solveLoop_all_indexed (set : ProviderSet) (given : List Ty) :
    ∀ (σ : List Frame) (fuel : Nat) (st : SolveSt) (l : Nat) (st2 : SolveSt),
    solveLoop set given fuel σ st = some (l, st2) →
    ∀ fr ∈ σ, (tmAt st2.index fr.t).isSome = true := by
  intro σ
  induction σ with
  | nil =>
    intro fuel st l st2 h fr hfr
    simp at hfr
  | cons c σ2 ih =>
    intro fuel st l st2 h fr hfr
    have hsplit : c :: σ2 = [c] ++ σ2 := rfl
    rw [hsplit] at h
    obtain ⟨mid, h1, h2⟩ := (solveLoop_append set given fuel [c] σ2 _ _).mp h
    obtain ⟨m1, m2⟩ := mid
    rcases List.mem_cons.mp hfr with he | hm
    · subst he
      obtain ⟨v, hv⟩ := Option.isSome_iff_exists.mp
        (solveLoop_indexed set given fuel fr st m1 m2 h1)
      obtain ⟨-, -, hI⟩ := solveLoop_mono set given m1 _ _ _ _ h2
      rw [Option.isSome_iff_exists]
      exact ⟨v, hI _ _ hv⟩
    · exact ih m1 m2 l st2 h2 fr hm

theorem callsInv_of_parts (st st2 : SolveSt) (hc : st2.calls = st.calls)
    (hi : ∀ t v, tmAt st.index t = some v → tmAt st2.index t = some v)
    (h : CallsInv st) : CallsInv st2 := by
  constructor
  · intro c hcc
    rw [hc] at hcc
    obtain ⟨v, hv⟩ := Option.isSome_iff_exists.mp (h.1 c hcc)
    rw [Option.isSome_iff_exists]
    exact ⟨v, hi _ _ hv⟩
  · rw [hc]
    exact h.2

theorem callsInv_append (st : SolveSt) (c : Call) (U : List ProviderSetSrc)
    (h : CallsInv st) (hnone : tmAt st.index c.out = none) (n : Nat) :
    CallsInv { st with
      index := tmSet st.index c.out (some n),
      calls := st.calls ++ [c], used := U } := by
  constructor
  · intro c2 hcc
    rcases List.mem_append.mp hcc with hold | hnew
    · obtain ⟨v, hv⟩ := Option.isSome_iff_exists.mp (h.1 c2 hold)
      rw [Option.isSome_iff_exists]
      exact ⟨v, tmAt_tmSet_of_none _ _ _ _ _ hnone hv⟩
    · have he : c2 = c := by simpa using hnew
      subst he
      show (tmAt (tmSet st.index c2.out (some n)) c2.out).isSome = true
      rw [tmAt_tmSet_eq]
      rfl
  · have hnotin : c.out ∉ st.calls.map Call.out := by
      intro hcon
      obtain ⟨c2, hc2, hco⟩ := List.mem_map.mp hcon
      have hs := h.1 c2 hc2
      rw [hco, hnone] at hs
      simp at hs
    show ((st.calls ++ [c]).map Call.out).Nodup
    rw [List.map_append]
    simp only [List.map_cons, List.map_nil]
    rw [List.nodup_append]
    refine ⟨h.2, List.nodup_singleton _, ?_⟩
    intro a ha hb
    simp at hb
    subst hb
    exact hnotin ha

theorem solveStep_callsInv (set : ProviderSet) (given : List Ty) (curr : Frame)
    (st : SolveSt) (h : CallsInv st) : CallsInv (solveStep set given curr st).2 := by
  rw [solveStep]
  by_cases h1 : (tmAt st.index curr.t).isSome = true
  · simp only [if_pos h1]
    exact h
  · have hnone : tmAt st.index curr.t = none := not_isSome_eq_none _ h1
    simp only [if_neg h1]
    by_cases h2 : (set.For curr.t).IsNil = true
    · simp only [if_pos h2]
      exact callsInv_of_parts st _ rfl
        (fun t v hv => tmAt_tmSet_of_none _ _ _ _ _ hnone hv) h
    · simp only [if_neg h2]
      cases hp : (set.For curr.t).p with
      | some p =>
        dsimp only
        by_cases h3 : (set.For curr.t).ConcreteType ≠ curr.t
        · simp only [if_pos h3]
          cases hc : tmAt st.index (set.For curr.t).ConcreteType with
          | none => exact h
          | some i =>
            exact callsInv_of_parts st _ rfl
              (fun t v hv => tmAt_tmSet_of_none _ _ _ _ _ hnone hv) h
        · simp only [if_neg h3]
          by_cases h4 : p.args.filter (fun a => (tmAt st.index a.type).isNone) ≠ []
          · simp only [if_pos h4]
            exact h
          · simp only [if_neg h4]
            by_cases h5 : p.args.any (fun a => tmAt st.index a.type == some none) = true
            · simp only [if_pos h5]
              exact callsInv_of_parts st _ rfl
                (fun t v hv => tmAt_tmSet_of_none _ _ _ _ _ hnone hv) h
            · simp only [if_neg h5]
              exact callsInv_append st (mkProviderCall p curr.t
                  (p.args.map (fun a => ((tmAt st.index a.type).getD none).getD 0)))
                _ h hnone _
      | none =>
        dsimp only
        cases hv : (set.For curr.t).v with
        | some v0 =>
          dsimp only
          by_cases h3 : v0.out ≠ curr.t
          · simp only [if_pos h3]
            cases hc : tmAt st.index v0.out with
            | none => exact h
            | some i =>
              exact callsInv_of_parts st _ rfl
                (fun t v hv2 => tmAt_tmSet_of_none _ _ _ _ _ hnone hv2) h
          · simp only [if_neg h3]
            have hcv : curr.t = v0.out := by
              by_cases hx : v0.out = curr.t
              · exact hx.symm
              · exact absurd hx h3
            rw [hcv] at hnone ⊢
            exact callsInv_append st (mkValueCall v0 v0.out) _ h hnone _
        | none => exact h

theorem solveLoop_callsInv (set : ProviderSet) (given : List Ty) :
    ∀ (fuel : Nat) (σ : List Frame) (st : SolveSt) (l : Nat) (st2 : SolveSt),
    solveLoop set given fuel σ st = some (l, st2) → CallsInv st → CallsInv st2 := by
  intro fuel
  induction fuel with
  | zero =>
    intro σ st l st2 h hc
    cases σ with
    | nil =>
      rw [solveLoop] at h
      cases h
      exact hc
    | cons c σ2 => simp [solveLoop] at h
  | succ fuel ih =>
    intro σ st l st2 h hc
    cases σ with
    | nil =>
      rw [solveLoop] at h
      cases h
      exact hc
    | cons c σ2 =>
      rw [solveLoop_cons_eq_step] at h
      exact ih _ _ _ _ h (solveStep_callsInv set given c st hc)

theorem sandwich_errors {e0 e1 e2 : List Err} (E1 E2 : List Err)
    (h1 : e1 = e0 ++ E1) (h2 : e2 = e1 ++ E2) (he : e2 = e0) :
    e1 = e0 ∧ e2 = e1 := by
  have hcomb : e0 = e0 ++ (E1 ++ E2) := by
    rw [← List.append_assoc, ← h1, ← h2, he]
  have hlen := congrArg List.length hcomb
  simp only [List.length_append] at hlen
  have hE1 : E1 = [] := List.eq_nil_of_length_eq_zero (by omega)
  have hE2 : E2 = [] := List.eq_nil_of_length_eq_zero (by omega)
  constructor
  · rw [h1, hE1, List.append_nil]
  · rw [h2, hE2, List.append_nil]

theorem solveLoop_produces (set : ProviderSet) (given : List Ty) (rank : Ty → Nat)
    (hrank : RankedAcyclic set rank) (hwr : WellResolved set) :
    ∀ (fuel : Nat) (f : Frame) (st : SolveSt) (l : Nat) (st2 : SolveSt),
    solveLoop set given fuel [f] st = some (l, st2) →
    st2.errors = st.errors →
    NoAbort st.index →
    tmAt st.index f.t = none →
    (set.For f.t).IsNil = false ∧
    ((∃ Δ c, st2.calls = st.calls ++ Δ ∧ Δ.getLast? = some c ∧
        c.out = (set.For f.t).ConcreteType) ∨
      ((tmAt st.index ((set.For f.t).ConcreteType)).isSome = true ∧
        st2.calls = st.calls)) := by
  intro fuel
  induction fuel using Nat.strong_induction_on with
  | _ fuel ih =>
    intro f st l st2 h he hna h0
    cases fuel with
    | zero => simp [solveLoop] at h
    | succ n =>
      rw [solveLoop] at h
      have h1 : ¬(tmAt st.index f.t).isSome = true := by
        rw [h0]
        simp
      rw [if_neg h1] at h
      by_cases h2 : (set.For f.t).IsNil = true
      · rw [if_pos h2] at h
        rw [solveLoop] at h
        cases h
        exfalso
        have := congrArg List.length he
        simp at this
      · have h2f : (set.For f.t).IsNil = false := by simpa using h2
        refine ⟨h2f, ?_⟩
        rw [if_neg h2] at h
        cases hp : (set.For f.t).p with
        | some p =>
          rw [hp] at h
          dsimp only at h
          by_cases h3 : (set.For f.t).ConcreteType ≠ f.t
          · rw [if_pos h3] at h
            cases hc : tmAt st.index (set.For f.t).ConcreteType with
            | none =>
              rw [hc] at h
              obtain ⟨⟨m1, mS⟩, hA, hB⟩ :=
                (solveLoop_append set given n
                  [⟨(set.For f.t).ConcreteType, some f.t, f.t :: f.up⟩] [f] _ _).mp h
              obtain ⟨E1, hE1⟩ := (solveLoop_mono set given n _ _ _ _ hA).1
              obtain ⟨E2, hE2⟩ := (solveLoop_mono set given m1 _ _ _ _ hB).1
              obtain ⟨hmidE, hfinE⟩ := sandwich_errors E1 E2 hE1 hE2 he
              obtain ⟨DM, hDM⟩ := (solveLoop_mono set given n _ _ _ _ hA).2.1
              have hnil2 : n < n + 1 := by omega
              have hsucc : (set.For f.t).ConcreteType ∈ solveSucc set f.t := by
                rw [solveSucc]
                simp only [if_neg h2, hp, if_pos h3]
                simp
              have hcfrank : rank ((set.For f.t).ConcreteType) < rank f.t :=
                hrank f.t (For_not_nil_mem_keys set f.t h2f) _ hsucc
              obtain ⟨hcfnil, hccase⟩ := ih n hnil2
                ⟨(set.For f.t).ConcreteType, some f.t, f.t :: f.up⟩ _ m1 mS hA hmidE
                hna hc
              have hfix := (hwr f.t).1
              have hmidnone : tmAt mS.index f.t = none := by
                by_contra hcon
                have := solveLoop_rank_new set given rank hrank (rank f.t) n _ _ _ _ hA
                  (by
                    intro fr hfr
                    have : fr = ⟨(set.For f.t).ConcreteType, some f.t, f.t :: f.up⟩ := by
                      simpa using hfr
                    rw [this]
                    exact hcfrank)
                  f.t h0 hcon
                omega
              have hmidna : NoAbort mS.index :=
                solveLoop_noAbort set given n _ _ _ _ hA hmidE hna
              cases hccase with
              | inl hcA =>
                obtain ⟨Dc, c, hDc, hlastc, houtc⟩ := hcA
                have houtc2 : c.out = (set.For f.t).ConcreteType := by
                  rw [houtc, hfix]
                have hm1le : m1 ≤ n := solveLoop_fuel_le set given n _ _ _ _ hA
                obtain ⟨-, hfcase⟩ := ih m1 (by omega) f mS l st2 hB hfinE hmidna hmidnone
                cases hfcase with
                | inl hfA =>
                  obtain ⟨D2, c2, hD2, hlast2, hout2⟩ := hfA
                  left
                  refine ⟨Dc ++ D2, c2, ?_, ?_, hout2⟩
                  · rw [hD2, hDc, List.append_assoc]
                  · simp [List.getLast?_append, hlast2]
                | inr hfB =>
                  left
                  refine ⟨Dc, c, ?_, hlastc, houtc2⟩
                  rw [hfB.2, hDc]
              | inr hcB =>
                exfalso
                rw [hfix] at hcB
                rw [hc] at hcB
                simp at hcB
            | some i =>
              rw [hc] at h
              dsimp only at h
              rw [solveLoop] at h
              cases h
              right
              exact ⟨rfl, rfl⟩
          · have hct : (set.For f.t).ConcreteType = f.t := not_ne_iff.mp h3
            rw [if_neg h3] at h
            by_cases h4 : p.args.filter (fun a => (tmAt st.index a.type).isNone) ≠ []
            · rw [if_pos h4] at h
              obtain ⟨⟨m1, mS⟩, hA, hB⟩ :=
                (solveLoop_append set given n
                  ((p.args.filter (fun a => (tmAt st.index a.type).isNone)).map
                    (fun a => Frame.mk a.type (some f.t) (f.t :: f.up))) [f] _ _).mp h
              obtain ⟨E1, hE1⟩ := (solveLoop_mono set given n _ _ _ _ hA).1
              obtain ⟨E2, hE2⟩ := (solveLoop_mono set given m1 _ _ _ _ hB).1
              obtain ⟨hmidE, hfinE⟩ := sandwich_errors E1 E2 hE1 hE2 he
              obtain ⟨DM, hDM⟩ := (solveLoop_mono set given n _ _ _ _ hA).2.1
              have hmidnone : tmAt mS.index f.t = none := by
                by_contra hcon
                have := solveLoop_rank_new set given rank hrank (rank f.t) n _ _ _ _ hA
                  (by
                    intro fr hfr
                    obtain ⟨a, ha, hfa⟩ := List.mem_map.mp hfr
                    have hargs : a ∈ p.args := (List.mem_filter.mp ha).1
                    have hsucc : a.type ∈ solveSucc set f.t := by
                      rw [solveSucc]
                      simp only [if_neg h2, hp, if_neg h3]
                      exact List.mem_map.mpr ⟨a, hargs, rfl⟩
                    rw [← hfa]
                    exact hrank f.t (For_not_nil_mem_keys set f.t h2f) _ hsucc)
                  f.t h0 hcon
                omega
              have hmidna : NoAbort mS.index :=
                solveLoop_noAbort set given n _ _ _ _ hA hmidE hna
              have hm1le : m1 ≤ n := solveLoop_fuel_le set given n _ _ _ _ hA
              obtain ⟨-, hfcase⟩ := ih m1 (by omega) f mS l st2 hB hfinE hmidna hmidnone
              cases hfcase with
              | inl hfA =>
                obtain ⟨D2, c2, hD2, hlast2, hout2⟩ := hfA
                left
                refine ⟨DM ++ D2, c2, ?_, ?_, hout2⟩
                · rw [hD2, hDM, List.append_assoc]
                · simp [List.getLast?_append, hlast2]
              | inr hfB =>
                exfalso
                rw [hct, hmidnone] at hfB
                simp at hfB
            · rw [if_neg h4] at h
              by_cases h5 : p.args.any (fun a => tmAt st.index a.type == some none) = true
              · exfalso
                obtain ⟨a, ha, hba⟩ := List.any_eq_true.mp h5
                have : tmAt st.index a.type = some none := by simpa using hba
                exact hna _ this
              · rw [if_neg h5] at h
                rw [solveLoop] at h
                cases h
                left
                refine ⟨_, _, rfl, List.getLast?_singleton _, ?_⟩
                exact hct.symm
        | none =>
          rw [hp] at h
          cases hv : (set.For f.t).v with
          | some v0 =>
            rw [hv] at h
            dsimp only at h
            have hctv : (set.For f.t).ConcreteType = v0.out := (hwr f.t).2.2 v0 hv
            by_cases h3 : v0.out ≠ f.t
            · rw [if_pos h3] at h
              cases hc : tmAt st.index v0.out with
              | none =>
                rw [hc] at h
                obtain ⟨⟨m1, mS⟩, hA, hB⟩ :=
                  (solveLoop_append set given n
                    [⟨v0.out, some f.t, f.t :: f.up⟩] [f] _ _).mp h
                obtain ⟨E1, hE1⟩ := (solveLoop_mono set given n _ _ _ _ hA).1
                obtain ⟨E2, hE2⟩ := (solveLoop_mono set given m1 _ _ _ _ hB).1
                obtain ⟨hmidE, hfinE⟩ := sandwich_errors E1 E2 hE1 hE2 he
                obtain ⟨DM, hDM⟩ := (solveLoop_mono set given n _ _ _ _ hA).2.1
                have hsucc : v0.out ∈ solveSucc set f.t := by
                  rw [solveSucc]
                  simp only [if_neg h2, hp, hv, if_pos h3]
                  simp
                have hvrank : rank v0.out < rank f.t :=
                  hrank f.t (For_not_nil_mem_keys set f.t h2f) _ hsucc
                obtain ⟨hvnil, hccase⟩ := ih n (by omega)
                  ⟨v0.out, some f.t, f.t :: f.up⟩ _ m1 mS hA hmidE hna hc
                have hfix : (set.For v0.out).ConcreteType = v0.out := by
                  have := (hwr f.t).1
                  rw [hctv] at this
                  exact this
                have hmidnone : tmAt mS.index f.t = none := by
                  by_contra hcon
                  have := solveLoop_rank_new set given rank hrank (rank f.t) n _ _ _ _ hA
                    (by
                      intro fr hfr
                      have : fr = ⟨v0.out, some f.t, f.t :: f.up⟩ := by simpa using hfr
                      rw [this]
                      exact hvrank)
                    f.t h0 hcon
                  omega
                have hmidna : NoAbort mS.index :=
                  solveLoop_noAbort set given n _ _ _ _ hA hmidE hna
                cases hccase with
                | inl hcA =>
                  obtain ⟨Dc, c, hDc, hlastc, houtc⟩ := hcA
                  have houtc2 : c.out = (set.For f.t).ConcreteType := by
                    rw [houtc, hfix, hctv]
                  have hm1le : m1 ≤ n := solveLoop_fuel_le set given n _ _ _ _ hA
                  obtain ⟨-, hfcase⟩ := ih m1 (by omega) f mS l st2 hB hfinE hmidna hmidnone
                  cases hfcase with
                  | inl hfA =>
                    obtain ⟨D2, c2, hD2, hlast2, hout2⟩ := hfA
                    left
                    refine ⟨Dc ++ D2, c2, ?_, ?_, hout2⟩
                    · rw [hD2, hDc, List.append_assoc]
                    · simp [List.getLast?_append, hlast2]
                  | inr hfB =>
                    left
                    refine ⟨Dc, c, ?_, hlastc, houtc2⟩
                    rw [hfB.2, hDc]
                | inr hcB =>
                  exfalso
                  rw [hfix] at hcB
                  rw [hc] at hcB
                  simp at hcB
              | some i =>
                rw [hc] at h
                dsimp only at h
                rw [solveLoop] at h
                cases h
                right
                refine ⟨?_, rfl⟩
                rw [hctv, hc]
                rfl
            · have hvf : v0.out = f.t := not_ne_iff.mp h3
              rw [if_neg h3] at h
              rw [solveLoop] at h
              cases h
              left
              refine ⟨[mkValueCall v0 f.t], mkValueCall v0 f.t, rfl, rfl, ?_⟩
              show f.t = (set.For f.t).ConcreteType
              rw [hctv, hvf]
          | none =>
            exfalso
            rw [ProvidedType.IsNil, hp, hv] at h2
            simp at h2

theorem mem_of_getLast? {α : Type} : ∀ (l : List α) (a : α), l.getLast? = some a → a ∈ l := by
  intro l
  induction l with
  | nil =>
    intro a h
    simp at h
  | cons x xs ih =>
    intro a h
    cases xs with
    | nil =>
      simp at h
      rw [h]
      exact List.mem_cons_self _ _
    | cons y ys =>
      rw [List.getLast?_cons_cons] at h
      exact List.mem_cons_of_mem x (ih a h)

theorem initIndexAux_isSome_mono (set : ProviderSet) :
    ∀ (gs : List Ty) (i : Nat) (idx : List (Ty × IdxVal)) (errs : List Err) (t : Ty),
    (tmAt idx t).isSome = true →
    (tmAt (initIndexAux set i gs (idx, errs)).1 t).isSome = true := by
  intro gs
  induction gs with
  | nil =>
    intro i idx errs t h
    rw [initIndexAux]
    exact h
  | cons g gs ih =>
    intro i idx errs t h
    rw [initIndexAux]
    by_cases hnil : (set.For g).IsNil = true
    · rw [if_pos hnil]
      apply ih
      by_cases he : t = g
      · subst he
        rw [tmAt_tmSet_eq]
        rfl
      · rw [tmAt_tmSet_ne _ _ _ _ he]
        exact h
    · rw [if_neg hnil]
      cases hp : (set.For g).p with
      | some p => exact ih _ _ _ t h
      | none =>
        cases hv : (set.For g).v with
        | some v => exact ih _ _ _ t h
        | none => exact ih _ _ _ t h

theorem initIndexAux_nilOnly (set : ProviderSet) :
    ∀ (gs : List Ty) (i : Nat) (idx : List (Ty × IdxVal)) (errs : List Err),
    (∀ t, (tmAt idx t).isSome = true → (set.For t).IsNil = true) →
    ∀ t, (tmAt (initIndexAux set i gs (idx, errs)).1 t).isSome = true →
    (set.For t).IsNil = true := by
  intro gs
  induction gs with
  | nil =>
    intro i idx errs hidx t h
    rw [initIndexAux] at h
    exact hidx t h
  | cons g gs ih =>
    intro i idx errs hidx t h
    rw [initIndexAux] at h
    by_cases hnil : (set.For g).IsNil = true
    · rw [if_pos hnil] at h
      refine ih _ _ _ ?_ t h
      intro t2 h2
      by_cases he : t2 = g
      · subst he
        exact hnil
      · rw [tmAt_tmSet_ne _ _ _ _ he] at h2
        exact hidx t2 h2
    · rw [if_neg hnil] at h
      cases hp : (set.For g).p with
      | some p =>
        rw [hp] at h
        exact ih _ _ _ hidx t h
      | none =>
        rw [hp] at h
        cases hv : (set.For g).v with
        | some v =>
          rw [hv] at h
          exact ih _ _ _ hidx t h
        | none =>
          rw [hv] at h
          exact ih _ _ _ hidx t h

theorem initIndexAux_noAbort (set : ProviderSet) :
    ∀ (gs : List Ty) (i : Nat) (idx : List (Ty × IdxVal)) (errs : List Err),
    NoAbort idx → NoAbort (initIndexAux set i gs (idx, errs)).1 := by
  intro gs
  induction gs with
  | nil =>
    intro i idx errs h
    rw [initIndexAux]
    exact h
  | cons g gs ih =>
    intro i idx errs h
    rw [initIndexAux]
    by_cases hnil : (set.For g).IsNil = true
    · rw [if_pos hnil]
      exact ih _ _ _ (noAbort_tmSet_some _ _ _ h)
    · rw [if_neg hnil]
      cases hp : (set.For g).p with
      | some p => exact ih _ _ _ h
      | none =>
        cases hv : (set.For g).v with
        | some v => exact ih _ _ _ h
        | none => exact ih _ _ _ h

theorem initIndexAux_keys (set : ProviderSet) :
    ∀ (gs : List Ty) (i : Nat) (idx : List (Ty × IdxVal)) (errs : List Err) (t : Ty),
    (tmAt (initIndexAux set i gs (idx, errs)).1 t).isSome = true →
    (tmAt idx t).isSome = true ∨ t ∈ gs := by
  intro gs
  induction gs with
  | nil =>
    intro i idx errs t h
    rw [initIndexAux] at h
    exact Or.inl h
  | cons g gs ih =>
    intro i idx errs t h
    rw [initIndexAux] at h
    by_cases hnil : (set.For g).IsNil = true
    · rw [if_pos hnil] at h
      rcases ih _ _ _ t h with hl | hr
      · by_cases he : t = g
        · subst he
          exact Or.inr (List.mem_cons_self _ _)
        · rw [tmAt_tmSet_ne _ _ _ _ he] at hl
          exact Or.inl hl
      · exact Or.inr (List.mem_cons_of_mem g hr)
    · rw [if_neg hnil] at h
      cases hp : (set.For g).p with
      | some p =>
        rw [hp] at h
        rcases ih _ _ _ t h with hl | hr
        · exact Or.inl hl
        · exact Or.inr (List.mem_cons_of_mem g hr)
      | none =>
        rw [hp] at h
        cases hv : (set.For g).v with
        | some v =>
          rw [hv] at h
          rcases ih _ _ _ t h with hl | hr
          · exact Or.inl hl
          · exact Or.inr (List.mem_cons_of_mem g hr)
        | none =>
          rw [hv] at h
          rcases ih _ _ _ t h with hl | hr
          · exact Or.inl hl
          · exact Or.inr (List.mem_cons_of_mem g hr)

theorem initIndexAux_errs_prefix (set : ProviderSet) :
    ∀ (gs : List Ty) (i : Nat) (idx : List (Ty × IdxVal)) (errs : List Err),
    ∃ E, (initIndexAux set i gs (idx, errs)).2 = errs ++ E := by
  intro gs
  induction gs with
  | nil =>
    intro i idx errs
    rw [initIndexAux]
    exact ⟨[], by simp⟩
  | cons g gs ih =>
    intro i idx errs
    rw [initIndexAux]
    by_cases hnil : (set.For g).IsNil = true
    · rw [if_pos hnil]
      exact ih _ _ _
    · rw [if_neg hnil]
      cases hp : (set.For g).p with
      | some p =>
        obtain ⟨E, hE⟩ := ih (i + 1) idx (errs ++ [Err.inputConflictsWithProvider g p.name p.pos])
        exact ⟨[Err.inputConflictsWithProvider g p.name p.pos] ++ E, by
          rw [hE, List.append_assoc]⟩
      | none =>
        cases hv : (set.For g).v with
        | some v =>
          obtain ⟨E, hE⟩ := ih (i + 1) idx (errs ++ [Err.inputConflictsWithValue g v.pos])
          exact ⟨[Err.inputConflictsWithValue g v.pos] ++ E, by
            rw [hE, List.append_assoc]⟩
        | none => exact ih _ _ _

theorem initIndexAux_mem (set : ProviderSet) :
    ∀ (gs : List Ty) (i : Nat) (idx : List (Ty × IdxVal)) (errs : List Err),
    (initIndexAux set i gs (idx, errs)).2 = errs →
    ∀ g ∈ gs, (tmAt (initIndexAux set i gs (idx, errs)).1 g).isSome = true := by
  intro gs
  induction gs with
  | nil =>
    intro i idx errs hE g hg
    simp at hg
  | cons g2 gs ih =>
    intro i idx errs hE g hg
    rw [initIndexAux] at hE ⊢
    by_cases hnil : (set.For g2).IsNil = true
    · rw [if_pos hnil] at hE ⊢
      rcases List.mem_cons.mp hg with he | hm
      · subst he
        apply initIndexAux_isSome_mono
        rw [tmAt_tmSet_eq]
        rfl
      · exact ih _ _ _ hE g hm
    · exfalso
      rw [if_neg hnil] at hE
      cases hp : (set.For g2).p with
      | some p =>
        rw [hp] at hE
        obtain ⟨E, hpre⟩ := initIndexAux_errs_prefix set gs (i + 1) idx
          (errs ++ [Err.inputConflictsWithProvider g2 p.name p.pos])
        rw [hpre] at hE
        have := congrArg List.length hE
        simp [List.length_append] at this
      | none =>
        rw [hp] at hE
        cases hv : (set.For g2).v with
        | some v =>
          rw [hv] at hE
          obtain ⟨E, hpre⟩ := initIndexAux_errs_prefix set gs (i + 1) idx
            (errs ++ [Err.inputConflictsWithValue g2 v.pos])
          rw [hpre] at hE
          have := congrArg List.length hE
          simp [List.length_append] at this
        | none =>
          rw [hv] at hE
          rw [ProvidedType.IsNil, hp, hv] at hnil
          simp at hnil

theorem wellResolved_of_keys (set : ProviderSet)
    (h0 : (set.For (ProvidedType.nilPT.ConcreteType)).ConcreteType =
      ProvidedType.nilPT.ConcreteType)
    (hk : ∀ t ∈ tmKeys set.providerMap,
      (set.For ((set.For t).ConcreteType)).ConcreteType = (set.For t).ConcreteType ∧
      ((set.For t).IsNil = false → (set.For ((set.For t).ConcreteType)).IsNil = false) ∧
      (∀ v, (set.For t).v = some v → (set.For t).ConcreteType = v.out)) :
    WellResolved set := by
  intro t
  by_cases hmem : (tmAt set.providerMap t).isSome = true
  · exact hk t ((tmAt_isSome_iff_mem _ _).mp hmem)
  · have hnone : tmAt set.providerMap t = none := not_isSome_eq_none _ hmem
    have hFor : set.For t = ProvidedType.nilPT := by
      rw [ProviderSet.For, hnone]
    rw [hFor]
    refine ⟨h0, ?_, ?_⟩
    · intro hcon
      simp [ProvidedType.nilPT, ProvidedType.IsNil] at hcon
    · intro v hv
      simp [ProvidedType.nilPT] at hv

/-- C1 counterexample: for the injector `func(...) Fooer` over the set
`{provBar, bind(Fooer, *Bar)}` (`Fooer` is type 2, `*Bar` is type 3), `solve`
succeeds with the call list `[provBar]`, yet the output type 2 appears zero
times among the call output types — not exactly once at the last position —
although 2 is not an injector argument (there are none). -/
theorem solve_output_type_counterexample :
    solveRun 2 [] exS4 30 = some (.ok [mkProviderCall exProvBar 3 []]) ∧
    ([mkProviderCall exProvBar 3 []].map Call.out).count 2 = 0 ∧
    [mkProviderCall exProvBar 3 []] ≠ [] := by decide

/-- C1 (amended): for every call list emitted by `solve` on a built provider
set (acyclic, witnessed by a rank function, with one-step-resolved binding
entries), if the output type `T` equals an injector argument the call list is
empty; otherwise the *concrete* type recorded for `T` in the provider map
(`T` itself unless `T` is reached through an interface binding, in which case
the bound concrete type) appears exactly once among the call output types, at
the last position. -/
theorem solve_output_type_resolved_last (out : Ty) (given : List Ty)
    (set : ProviderSet) (rank : Ty → Nat) (fuel : Nat) (calls : List Call)
    (hrank : RankedAcyclic set rank) (hwr : WellResolved set)
    (h : solveRun out given set fuel = some (.ok calls)) :
    (out ∈ given → calls = []) ∧
    (out ∉ given →
      ∃ c, calls.getLast? = some c ∧ c.out = (set.For out).ConcreteType ∧
        (calls.map Call.out).count ((set.For out).ConcreteType) = 1) := by
  rw [solveRun] at h
  by_cases hpre : inputDupErrors given ++ (initIndex set given).2 ≠ []
  · rw [if_pos hpre] at h
    simp at h
  · rw [if_neg hpre] at h
    have hic2 : (initIndex set given).2 = [] :=
      (List.append_eq_nil.mp (not_ne_iff.mp hpre)).2
    cases hloop : solveLoop set given fuel [⟨out, none, []⟩]
        ⟨(initIndex set given).1, [], [], []⟩ with
    | none =>
      rw [hloop] at h
      simp at h
    | some res =>
      obtain ⟨fl, stf⟩ := res
      rw [hloop] at h
      dsimp only at h
      by_cases herr : stf.errors ≠ []
      · rw [if_pos herr] at h
        simp at h
      · rw [if_neg herr] at h
        cases hva : verifyArgsUsed set stf.used with
        | cons e es =>
          rw [hva] at h
          simp at h
        | nil =>
          rw [hva] at h
          have hcalls : stf.calls = calls := by simpa using h
          constructor
          · intro hmem
            have hsome : (tmAt (initIndex set given).1 out).isSome = true :=
              initIndexAux_mem set given 0 [] [] hic2 out hmem
            cases fuel with
            | zero => simp [solveLoop] at hloop
            | succ n =>
              rw [solveLoop] at hloop
              dsimp only at hloop
              rw [if_pos hsome] at hloop
              rw [solveLoop] at hloop
              cases hloop
              rw [← hcalls]
          · intro hnmem
            have h0 : tmAt (initIndex set given).1 out = none := by
              cases hx : tmAt (initIndex set given).1 out with
              | none => rfl
              | some v =>
                exfalso
                rw [initIndex] at hx
                have hks := initIndexAux_keys set given 0 [] [] out (by rw [hx]; rfl)
                rcases hks with hl | hr
                · simp [tmAt] at hl
                · exact hnmem hr
            have hna : NoAbort (initIndex set given).1 :=
              initIndexAux_noAbort set given 0 [] [] (by intro t; simp [tmAt])
            have herr2 : stf.errors = [] := not_ne_iff.mp herr
            obtain ⟨hnilf, hcase⟩ := solveLoop_produces set given rank hrank hwr fuel
              ⟨out, none, []⟩ ⟨(initIndex set given).1, [], [], []⟩ fl stf hloop
              (by rw [herr2]) hna h0
            dsimp only at hnilf hcase
            cases hcase with
            | inr hb =>
              exfalso
              have hctnil : (set.For ((set.For out).ConcreteType)).IsNil = true := by
                apply initIndexAux_nilOnly set given 0 [] []
                · intro t2 ht2
                  simp [tmAt] at ht2
                · exact hb.1
              have hctnil2 := (hwr out).2.1 hnilf
              rw [hctnil] at hctnil2
              simp at hctnil2
            | inl ha =>
              obtain ⟨Δ, c, hΔ, hlast, hout⟩ := ha
              have hcallsE : stf.calls = Δ := by simpa using hΔ
              have hcinv : CallsInv stf :=
                solveLoop_callsInv set given fuel _ _ _ _ hloop
                  ⟨by intro c2 hc2; simp at hc2, by simp⟩
              have hcm : c ∈ calls := by
                rw [← hcalls, hcallsE]
                exact mem_of_getLast? _ _ hlast
              refine ⟨c, ?_, hout, ?_⟩
              · rw [← hcalls, hcallsE]
                exact hlast
              · have hnd : (calls.map Call.out).Nodup := by
                  rw [← hcalls]
                  exact hcinv.2
                have hmm : (set.For out).ConcreteType ∈ calls.map Call.out :=
                  List.mem_map.mpr ⟨c, hcm, hout⟩
                exact List.count_eq_one_of_mem hnd hmm

theorem solve_output_type_resolved_last_witness :
    (2 : Ty) ∉ ([] : List Ty) ∧
    ∃ c, [mkProviderCall exProvBar 3 []].getLast? = some c ∧
      c.out = (exS4.For 2).ConcreteType ∧
      ([mkProviderCall exProvBar 3 []].map Call.out).count ((exS4.For 2).ConcreteType) = 1 := by
  have hrank : RankedAcyclic exS4 (fun t => if t = 2 then 1 else 0) := by
    unfold RankedAcyclic
    decide
  have hwr : WellResolved exS4 := wellResolved_of_keys exS4 (by decide) (by decide)
  have h := solve_output_type_resolved_last 2 [] exS4 (fun t => if t = 2 then 1 else 0) 30
    [mkProviderCall exProvBar 3 []] hrank hwr (by decide)
  exact ⟨by simp, h.2 (by simp)⟩

/-! ## Termination of the DFS (C9) -/

theorem solveStep_shape (set : ProviderSet) (given : List Ty) (curr : Frame)
    (st : SolveSt) :
    (solveStep set given curr st).1 = [] ∨
    (∃ pre, (solveStep set given curr st).1 = pre ++ [curr] ∧
      (set.For curr.t).IsNil = false ∧
      (∀ fr ∈ pre, fr.t ∈ solveSucc set curr.t) ∧
      (∀ s ∈ solveSucc set curr.t,
        (tmAt st.index s).isSome = true ∨ ∃ fr ∈ pre, fr.t = s)) := by
  rw [solveStep]
  by_cases h1 : (tmAt st.index curr.t).isSome = true
  · simp only [if_pos h1]
    exact Or.inl (by trivial)
  · simp only [if_neg h1]
    by_cases h2 : (set.For curr.t).IsNil = true
    · simp only [if_pos h2]
      exact Or.inl (by trivial)
    · have h2f : (set.For curr.t).IsNil = false := by simpa using h2
      simp only [if_neg h2]
      cases hp : (set.For curr.t).p with
      | some p =>
        dsimp only
        by_cases h3 : (set.For curr.t).ConcreteType ≠ curr.t
        · have hsu : solveSucc set curr.t = [(set.For curr.t).ConcreteType] := by
            rw [solveSucc]
            simp only [if_neg h2, hp, if_pos h3]
          simp only [if_pos h3]
          cases hc : tmAt st.index (set.For curr.t).ConcreteType with
          | none =>
            right
            refine ⟨[⟨(set.For curr.t).ConcreteType, some curr.t, curr.t :: curr.up⟩],
              rfl, h2f, ?_, ?_⟩
            · intro fr hfr
              have : fr = (⟨(set.For curr.t).ConcreteType, some curr.t,
                  curr.t :: curr.up⟩ : Frame) := by simpa using hfr
              rw [this, hsu]
              exact List.mem_cons_self _ _
            · intro s hs
              rw [hsu] at hs
              have hse : s = (set.For curr.t).ConcreteType := by simpa using hs
              right
              exact ⟨⟨(set.For curr.t).ConcreteType, some curr.t, curr.t :: curr.up⟩,
                List.mem_cons_self _ _, hse.symm⟩
          | some i => exact Or.inl (by trivial)
        · have hsu : solveSucc set curr.t = p.args.map (·.type) := by
            rw [solveSucc]
            simp only [if_neg h2, hp, if_neg h3]
          simp only [if_neg h3]
          by_cases h4 : p.args.filter (fun a => (tmAt st.index a.type).isNone) ≠ []
          · simp only [if_pos h4]
            right
            refine ⟨(p.args.filter (fun a => (tmAt st.index a.type).isNone)).map
                (fun a => Frame.mk a.type (some curr.t) (curr.t :: curr.up)),
              rfl, h2f, ?_, ?_⟩
            · intro fr hfr
              obtain ⟨a, ha, hfa⟩ := List.mem_map.mp hfr
              rw [← hfa, hsu]
              exact List.mem_map.mpr ⟨a, (List.mem_filter.mp ha).1, rfl⟩
            · intro s hs
              rw [hsu] at hs
              obtain ⟨a, ha, hsa⟩ := List.mem_map.mp hs
              by_cases hi : (tmAt st.index a.type).isSome = true
              · left
                rw [← hsa]
                exact hi
              · right
                have hin : (tmAt st.index a.type).isNone = true := by
                  rw [not_isSome_eq_none _ hi]
                  rfl
                exact ⟨⟨a.type, some curr.t, curr.t :: curr.up⟩,
                  List.mem_map.mpr ⟨a, List.mem_filter.mpr ⟨ha, hin⟩, rfl⟩, hsa⟩
          · simp only [if_neg h4]
            by_cases h5 : p.args.any (fun a => tmAt st.index a.type == some none) = true
            · simp only [if_pos h5]
              exact Or.inl (by trivial)
            · simp only [if_neg h5]
              exact Or.inl (by trivial)
      | none =>
        dsimp only
        cases hv : (set.For curr.t).v with
        | some v0 =>
          dsimp only
          by_cases h3 : v0.out ≠ curr.t
          · have hsu : solveSucc set curr.t = [v0.out] := by
              rw [solveSucc]
              simp only [if_neg h2, hp, hv, if_pos h3]
            simp only [if_pos h3]
            cases hc : tmAt st.index v0.out with
            | none =>
              right
              refine ⟨[⟨v0.out, some curr.t, curr.t :: curr.up⟩], rfl, h2f, ?_, ?_⟩
              · intro fr hfr
                have : fr = (⟨v0.out, some curr.t, curr.t :: curr.up⟩ : Frame) := by
                  simpa using hfr
                rw [this, hsu]
                exact List.mem_cons_self _ _
              · intro s hs
                rw [hsu] at hs
                have hse : s = v0.out := by simpa using hs
                right
                exact ⟨⟨v0.out, some curr.t, curr.t :: curr.up⟩,
                  List.mem_cons_self _ _, hse.symm⟩
            | some i => exact Or.inl (by trivial)
          · simp only [if_neg h3]
            exact Or.inl (by trivial)
        | none => exact Or.inl (by trivial)

theorem solveStep_no_push_of_indexed (set : ProviderSet) (given : List Ty)
    (curr : Frame) (st : SolveSt)
    (hsucc : ∀ s ∈ solveSucc set curr.t, (tmAt st.index s).isSome = true) :
    (solveStep set given curr st).1 = [] := by
  rw [solveStep]
  by_cases h1 : (tmAt st.index curr.t).isSome = true
  · simp only [if_pos h1]
  · simp only [if_neg h1]
    by_cases h2 : (set.For curr.t).IsNil = true
    · simp only [if_pos h2]
    · simp only [if_neg h2]
      cases hp : (set.For curr.t).p with
      | some p =>
        dsimp only
        by_cases h3 : (set.For curr.t).ConcreteType ≠ curr.t
        · have hsu : solveSucc set curr.t = [(set.For curr.t).ConcreteType] := by
            rw [solveSucc]
            simp only [if_neg h2, hp, if_pos h3]
          simp only [if_pos h3]
          cases hc : tmAt st.index (set.For curr.t).ConcreteType with
          | none =>
            exfalso
            have := hsucc ((set.For curr.t).ConcreteType)
              (by rw [hsu]; exact List.mem_cons_self _ _)
            rw [hc] at this
            simp at this
          | some i => rfl
        · have hsu : solveSucc set curr.t = p.args.map (·.type) := by
            rw [solveSucc]
            simp only [if_neg h2, hp, if_neg h3]
          simp only [if_neg h3]
          by_cases h4 : p.args.filter (fun a => (tmAt st.index a.type).isNone) ≠ []
          · exfalso
            apply h4
            rw [List.filter_eq_nil]
            intro a ha
            have := hsucc a.type (by rw [hsu]; exact List.mem_map.mpr ⟨a, ha, rfl⟩)
            intro hcon
            rw [not_isSome_eq_none _ (by simp [Option.isNone_iff_eq_none.mp (by simpa using hcon)] : ¬(tmAt st.index a.type).isSome = true)] at this
            simp at this
          · simp only [if_neg h4]
            by_cases h5 : p.args.any (fun a => tmAt st.index a.type == some none) = true
            · simp only [if_pos h5]
            · simp only [if_neg h5]
      | none =>
        dsimp only
        cases hv : (set.For curr.t).v with
        | some v0 =>
          dsimp only
          by_cases h3 : v0.out ≠ curr.t
          · have hsu : solveSucc set curr.t = [v0.out] := by
              rw [solveSucc]
              simp only [if_neg h2, hp, hv, if_pos h3]
            simp only [if_pos h3]
            cases hc : tmAt st.index v0.out with
            | none =>
              exfalso
              have := hsucc v0.out (by rw [hsu]; exact List.mem_cons_self _ _)
              rw [hc] at this
              simp at this
            | some i => rfl
          · simp only [if_neg h3]
        | none => rfl

theorem solveLoop_term_list (set : ProviderSet) (given : List Ty) :
    ∀ (M : List Frame) (st : SolveSt),
    (∀ fr ∈ M, ∀ st3 : SolveSt, ∃ n l st2, solveLoop set given n [fr] st3 = some (l, st2)) →
    ∃ n l st2, solveLoop set given n M st = some (l, st2) := by
  intro M
  induction M with
  | nil =>
    intro st hM
    exact ⟨0, 0, st, by rw [solveLoop]⟩
  | cons fr M2 ih =>
    intro st hM
    obtain ⟨n1, l1, st1, h1⟩ := hM fr (List.mem_cons_self _ _) st
    obtain ⟨n2, l2, st2, h2⟩ := ih st1 (fun g hg st3 => hM g (List.mem_cons_of_mem fr hg) st3)
    refine ⟨n1 + n2, l2 + l1, st2, ?_⟩
    have hsplit : (fr :: M2) = [fr] ++ M2 := rfl
    rw [hsplit]
    apply (solveLoop_append set given (n1 + n2) [fr] M2 st (l2 + l1, st2)).mpr
    refine ⟨(l1 + n2, st1), solveLoop_add set given n1 [fr] st l1 st1 h1 n2, ?_⟩
    have := solveLoop_add set given n2 M2 st1 l2 st2 h2 l1
    rw [Nat.add_comm l1 n2]
    exact this

theorem solveLoop_term_frame (set : ProviderSet) (given : List Ty) (rank : Ty → Nat)
    (hrank : RankedAcyclic set rank) :
    ∀ (B : Nat) (f : Frame) (st : SolveSt), rank f.t < B →
    ∃ n l st2, solveLoop set given n [f] st = some (l, st2) := by
  intro B
  induction B using Nat.strong_induction_on with
  | _ B ih =>
    intro f st hB
    rcases solveStep_shape set given f st with hA | ⟨pre, hpre, hnil, hsucc, hcov⟩
    · refine ⟨1, 0, (solveStep set given f st).2, ?_⟩
      rw [solveLoop_cons_eq_step, hA, List.nil_append, solveLoop]
    · have hkey := For_not_nil_mem_keys set f.t hnil
      have hterm : ∀ fr ∈ pre, ∀ st3 : SolveSt,
          ∃ n l st2, solveLoop set given n [fr] st3 = some (l, st2) := by
        intro fr hfr st3
        exact ih (rank f.t) hB fr st3 (hrank f.t hkey fr.t (hsucc fr hfr))
      obtain ⟨nM, lM, stM, hM⟩ := solveLoop_term_list set given pre
        (solveStep set given f st).2 hterm
      have hidx : ∀ fr ∈ pre, (tmAt stM.index fr.t).isSome = true :=
        solveLoop_all_indexed set given pre nM _ lM stM hM
      have hsuccidx : ∀ s ∈ solveSucc set f.t, (tmAt stM.index s).isSome = true := by
        intro s hs
        rcases hcov s hs with hst | ⟨fr, hfr, hft⟩
        · obtain ⟨v, hv⟩ := Option.isSome_iff_exists.mp hst
          have hv2 := (solveStep_mono set given f st).2.2 s v hv
          have hv3 := (solveLoop_mono set given nM _ _ _ _ hM).2.2 s v hv2
          rw [Option.isSome_iff_exists]
          exact ⟨v, hv3⟩
        · rw [← hft]
          exact hidx fr hfr
      have hterm2 : (solveStep set given f stM).1 = [] :=
        solveStep_no_push_of_indexed set given f stM hsuccidx
      refine ⟨nM + 2, lM, (solveStep set given f stM).2, ?_⟩
      have hc1 : solveLoop set given (nM + 2) [f] st =
          solveLoop set given (nM + 1) (pre ++ [f]) (solveStep set given f st).2 := by
        rw [solveLoop_cons_eq_step, hpre, List.append_nil]
      rw [hc1]
      apply (solveLoop_append set given (nM + 1) pre [f] _ _).mpr
      refine ⟨(lM + 1, stM), solveLoop_add set given nM pre _ lM stM hM 1, ?_⟩
      rw [solveLoop_cons_eq_step, hterm2, List.nil_append, solveLoop]

/-- C9: for every provider set whose dependency graph is acyclic (as
established by the acyclicity check, witnessed here by a rank function that
decreases along dependency edges) and every injector signature, the solver's
explicit-stack DFS loop terminates: some finite fuel makes `solveRun` return a
result (the loop reaches the empty stack). -/
theorem solve_terminates (out : Ty) (given : List Ty) (set : ProviderSet)
    (rank : Ty → Nat) (hrank : RankedAcyclic set rank) :
    ∃ fuel, (solveRun out given set fuel).isSome = true := by
  by_cases hpre : inputDupErrors given ++ (initIndex set given).2 ≠ []
  · refine ⟨0, ?_⟩
    rw [solveRun]
    rw [if_pos hpre]
    rfl
  · obtain ⟨n, l, st2, hn⟩ := solveLoop_term_frame set given rank hrank
      (rank out + 1) ⟨out, none, []⟩ ⟨(initIndex set given).1, [], [], []⟩
      (by show rank out < rank out + 1; omega)
    refine ⟨n, ?_⟩
    rw [solveRun]
    rw [if_neg hpre, hn]
    dsimp only
    by_cases herr : st2.errors ≠ []
    · rw [if_pos herr]
      rfl
    · rw [if_neg herr]
      cases hva : verifyArgsUsed set st2.used with
      | nil => rfl
      | cons e es => rfl

theorem solve_terminates_witness :
    RankedAcyclic exS1 (fun t => if t = 6 then 1 else 0) ∧
    ∃ fuel, (solveRun 6 [] exS1 fuel).isSome = true := by
  have hrank : RankedAcyclic exS1 (fun t => if t = 6 then 1 else 0) := by
    unfold RankedAcyclic
    decide
  exact ⟨hrank, solve_terminates 6 [] exS1 _ hrank⟩

/-! ## The acyclicity DFS: decomposition and invariants (C3) -/

theorem vaLoop_cons_eq_step (pm : List (Ty × ProvidedType)) (fuel : Nat)
    (curr : List Ty) (rest : List (List Ty)) (st : VaSt) :
    vaLoop pm (fuel + 1) (curr :: rest) st =
      vaLoop pm fuel ((vaStep pm curr st).1 ++ rest) (vaStep pm curr st).2 := by
  rw [vaLoop, vaStep]
  cases hl : curr.getLast? with
  | none => rw [List.nil_append]
  | some head =>
    dsimp only
    by_cases hv : head ∈ st.visited
    · simp only [if_pos hv, List.nil_append]
    · simp only [if_neg hv]

theorem vaLoop_append (pm : List (Ty × ProvidedType)) :
    ∀ (fuel : Nat) (σ S : List (List Ty)) (st : VaSt) (res : Nat × VaSt),
    vaLoop pm fuel (σ ++ S) st = some res ↔
      ∃ mid : Nat × VaSt, vaLoop pm fuel σ st = some mid ∧
        vaLoop pm mid.1 S mid.2 = some res := by
  intro fuel
  induction fuel with
  | zero =>
    intro σ S st res
    cases σ with
    | nil =>
      constructor
      · intro h
        exact ⟨(0, st), by rw [vaLoop], h⟩
      · rintro ⟨mid, h1, h2⟩
        rw [vaLoop] at h1
        cases h1
        exact h2
    | cons c σ2 =>
      constructor
      · intro h
        rw [List.cons_append] at h
        simp [vaLoop] at h
      · rintro ⟨mid, h1, h2⟩
        simp [vaLoop] at h1
  | succ fuel ih =>
    intro σ S st res
    cases σ with
    | nil =>
      constructor
      · intro h
        exact ⟨(fuel + 1, st), by rw [vaLoop], h⟩
      · rintro ⟨mid, h1, h2⟩
        rw [vaLoop] at h1
        cases h1
        exact h2
    | cons c σ2 =>
      constructor
      · intro h
        rw [List.cons_append, vaLoop_cons_eq_step, ← List.append_assoc] at h
        obtain ⟨mid, h1, h2⟩ := (ih _ _ _ _).mp h
        refine ⟨mid, ?_, h2⟩
        rw [vaLoop_cons_eq_step]
        exact h1
      · rintro ⟨mid, h1, h2⟩
        rw [vaLoop_cons_eq_step] at h1
        rw [List.cons_append, vaLoop_cons_eq_step, ← List.append_assoc]
        exact (ih _ _ _ _).mpr ⟨mid, h1, h2⟩

theorem vaLoop_fuel_le (pm : List (Ty × ProvidedType)) :
    ∀ (fuel : Nat) (σ : List (List Ty)) (st : VaSt) (l : Nat) (st2 : VaSt),
    vaLoop pm fuel σ st = some (l, st2) → l ≤ fuel := by
  intro fuel
  induction fuel with
  | zero =>
    intro σ st l st2 h
    cases σ with
    | nil =>
      rw [vaLoop] at h
      cases h
      exact Nat.le_refl 0
    | cons c σ2 => simp [vaLoop] at h
  | succ fuel ih =>
    intro σ st l st2 h
    cases σ with
    | nil =>
      rw [vaLoop] at h
      cases h
      exact Nat.le_refl _
    | cons c σ2 =>
      rw [vaLoop_cons_eq_step] at h
      exact Nat.le_succ_of_le (ih _ _ _ _ h)

theorem vaFold_eq (curr : List Ty) :
    ∀ (args : List ProviderInput) (L : List (List Ty)) (S : VaSt),
    args.foldl
      (fun acc arg =>
        let a := arg.type
        if a ∈ curr then
          (acc.1, { acc.2 with
            errors := acc.2.errors ++ [.cycleFor a (curr.dropWhile (fun b => ¬b = a))] })
        else (acc.1 ++ [curr ++ [a]], acc.2))
      (L, S)
    = (L ++ vaPushes curr (args.map (·.type)),
       { S with errors := S.errors ++ vaErrs curr (args.map (·.type)) }) := by
  intro args
  induction args with
  | nil =>
    intro L S
    simp [vaPushes, vaErrs]
  | cons arg args ih =>
    intro L S
    rw [List.foldl_cons]
    dsimp only
    by_cases hmem : arg.type ∈ curr
    · rw [if_pos hmem]
      rw [ih]
      simp only [List.map_cons, vaPushes, vaErrs, if_pos hmem]
      rw [List.append_assoc S.errors, List.singleton_append]
    · rw [if_neg hmem]
      rw [ih]
      simp only [List.map_cons, vaPushes, vaErrs, if_neg hmem]
      rw [List.append_assoc L, List.singleton_append]

theorem vaProcessHead_eq (pm : List (Ty × ProvidedType)) (curr : List Ty)
    (head : Ty) (st : VaSt) :
    vaProcessHead pm curr head st =
      (vaPushes curr (vaSucc pm head),
       { st with errors := st.errors ++ vaErrs curr (vaSucc pm head) }) := by
  rw [vaProcessHead, vaSucc]
  cases hm : tmAt pm head with
  | none => simp [vaPushes, vaErrs]
  | some pt =>
    dsimp only
    by_cases hv : pt.v.isSome = true
    · simp only [if_pos hv]
      simp [vaPushes, vaErrs]
    · simp only [if_neg hv]
      cases hp : pt.p with
      | none => simp [vaPushes, vaErrs]
      | some p =>
        dsimp only
        have := vaFold_eq curr p.args [] st
        rw [this]
        simp

theorem vaPushes_mem (curr : List Ty) :
    ∀ (args : List Ty) (P : List Ty), P ∈ vaPushes curr args →
    ∃ a, a ∈ args ∧ P = curr ++ [a] := by
  intro args
  induction args with
  | nil =>
    intro P hP
    simp [vaPushes] at hP
  | cons a as ih =>
    intro P hP
    rw [vaPushes] at hP
    by_cases hmem : a ∈ curr
    · rw [if_pos hmem] at hP
      obtain ⟨b, hb, hPb⟩ := ih P hP
      exact ⟨b, List.mem_cons_of_mem a hb, hPb⟩
    · rw [if_neg hmem] at hP
      rcases List.mem_cons.mp hP with he | hP2
      · exact ⟨a, List.mem_cons_self _ _, he⟩
      · obtain ⟨b, hb, hPb⟩ := ih P hP2
        exact ⟨b, List.mem_cons_of_mem a hb, hPb⟩

theorem vaPushes_of_mem (curr : List Ty) :
    ∀ (args : List Ty) (a : Ty), a ∈ args → a ∉ curr →
    (curr ++ [a]) ∈ vaPushes curr args := by
  intro args
  induction args with
  | nil =>
    intro a ha hnc
    simp at ha
  | cons b bs ih =>
    intro a ha hnc
    rw [vaPushes]
    rcases List.mem_cons.mp ha with he | hm
    · subst he
      rw [if_neg hnc]
      exact List.mem_cons_self _ _
    · by_cases hb : b ∈ curr
      · rw [if_pos hb]
        exact ih a hm hnc
      · rw [if_neg hb]
        exact List.mem_cons_of_mem _ (ih a hm hnc)

theorem vaErrs_ne_nil (curr : List Ty) :
    ∀ (args : List Ty) (a : Ty), a ∈ args → a ∈ curr → vaErrs curr args ≠ [] := by
  intro args
  induction args with
  | nil =>
    intro a ha hc
    simp at ha
  | cons b bs ih =>
    intro a ha hc
    rw [vaErrs]
    rcases List.mem_cons.mp ha with he | hm
    · subst he
      rw [if_pos hc]
      simp
    · by_cases hb : b ∈ curr
      · rw [if_pos hb]
        simp
      · rw [if_neg hb]
        exact ih a hm hc

theorem vaStep_mono (pm : List (Ty × ProvidedType)) (curr : List Ty) (st : VaSt) :
    (∃ E, (vaStep pm curr st).2.errors = st.errors ++ E) ∧
    (∀ x ∈ st.visited, x ∈ (vaStep pm curr st).2.visited) := by
  rw [vaStep]
  cases hl : curr.getLast? with
  | none => exact ⟨⟨[], by simp⟩, fun x hx => hx⟩
  | some head =>
    dsimp only
    by_cases hv : head ∈ st.visited
    · simp only [if_pos hv]
      exact ⟨⟨[], by simp⟩, fun x hx => hx⟩
    · simp only [if_neg hv]
      rw [vaProcessHead_eq]
      exact ⟨⟨_, rfl⟩, fun x hx => List.mem_cons_of_mem head hx⟩

theorem vaLoop_mono (pm : List (Ty × ProvidedType)) :
    ∀ (fuel : Nat) (σ : List (List Ty)) (st : VaSt) (l : Nat) (st2 : VaSt),
    vaLoop pm fuel σ st = some (l, st2) →
    (∃ E, st2.errors = st.errors ++ E) ∧ (∀ x ∈ st.visited, x ∈ st2.visited) := by
  intro fuel
  induction fuel with
  | zero =>
    intro σ st l st2 h
    cases σ with
    | nil =>
      rw [vaLoop] at h
      cases h
      exact ⟨⟨[], by simp⟩, fun x hx => hx⟩
    | cons c σ2 => simp [vaLoop] at h
  | succ fuel ih =>
    intro σ st l st2 h
    cases σ with
    | nil =>
      rw [vaLoop] at h
      cases h
      exact ⟨⟨[], by simp⟩, fun x hx => hx⟩
    | cons c σ2 =>
      rw [vaLoop_cons_eq_step] at h
      obtain ⟨⟨E1, hE1⟩, hV1⟩ := vaStep_mono pm c st
      obtain ⟨⟨E2, hE2⟩, hV2⟩ := ih _ _ _ _ h
      exact ⟨⟨E1 ++ E2, by rw [hE2, hE1, List.append_assoc]⟩,
        fun x hx => hV2 x (hV1 x hx)⟩

theorem vaLoop_heads_visited (pm : List (Ty × ProvidedType)) :
    ∀ (fuel : Nat) (σ : List (List Ty)) (st : VaSt) (l : Nat) (st2 : VaSt),
    vaLoop pm fuel σ st = some (l, st2) →
    ∀ T ∈ σ, ∀ h2, T.getLast? = some h2 → h2 ∈ st2.visited := by
  intro fuel
  induction fuel with
  | zero =>
    intro σ st l st2 h T hT h2 hh2
    cases σ with
    | nil => simp at hT
    | cons c σ2 => simp [vaLoop] at h
  | succ fuel ih =>
    intro σ st l st2 h T hT h2 hh2
    cases σ with
    | nil => simp at hT
    | cons T0 rest =>
      rw [vaLoop] at h
      cases hl : T0.getLast? with
      | none =>
        rw [hl] at h
        dsimp only at h
        rcases List.mem_cons.mp hT with he | hm
        · subst he
          rw [hl] at hh2
          cases hh2
        · exact ih _ _ _ _ h T hm h2 hh2
      | some head =>
        rw [hl] at h
        dsimp only at h
        by_cases hv : head ∈ st.visited
        · rw [if_pos hv] at h
          rcases List.mem_cons.mp hT with he | hm
          · subst he
            rw [hl] at hh2
            cases hh2
            exact (vaLoop_mono pm fuel _ _ _ _ h).2 h2 hv
          · exact ih _ _ _ _ h T hm h2 hh2
        · rw [if_neg hv] at h
          rw [vaProcessHead_eq] at h
          rcases List.mem_cons.mp hT with he | hm
          · subst he
            rw [hl] at hh2
            cases hh2
            exact (vaLoop_mono pm fuel _ _ _ _ h).2 h2 (List.mem_cons_self _ _)
          · exact ih _ _ _ _ h T (List.mem_append_right _ hm) h2 hh2

theorem getLast?_append_singleton {α : Type} : ∀ (l : List α) (a : α),
    (l ++ [a]).getLast? = some a := by
  intro l
  induction l with
  | nil => intro a; rfl
  | cons x xs ih =>
    intro a
    rw [List.cons_append]
    cases hxs : xs ++ [a] with
    | nil =>
      exfalso
      have := congrArg List.length hxs
      simp at this
    | cons y ys =>
      rw [List.getLast?_cons_cons, ← hxs]
      exact ih a

theorem vaLoop_edge_closure (pm : List (Ty × ProvidedType)) :
    ∀ (fuel : Nat) (σ : List (List Ty)) (st : VaSt) (l : Nat) (st2 : VaSt),
    vaLoop pm fuel σ st = some (l, st2) → st2.errors = st.errors →
    ∀ z, z ∉ st.visited → z ∈ st2.visited →
    ∀ w ∈ vaSucc pm z, w ∈ st2.visited := by
  intro fuel
  induction fuel with
  | zero =>
    intro σ st l st2 h he z hzn hzv w hw
    cases σ with
    | nil =>
      rw [vaLoop] at h
      cases h
      exact absurd hzv hzn
    | cons c σ2 => simp [vaLoop] at h
  | succ fuel ih =>
    intro σ st l st2 h he z hzn hzv w hw
    cases σ with
    | nil =>
      rw [vaLoop] at h
      cases h
      exact absurd hzv hzn
    | cons T0 rest =>
      rw [vaLoop] at h
      cases hl : T0.getLast? with
      | none =>
        rw [hl] at h
        dsimp only at h
        exact ih _ _ _ _ h he z hzn hzv w hw
      | some head =>
        rw [hl] at h
        dsimp only at h
        by_cases hv : head ∈ st.visited
        · rw [if_pos hv] at h
          exact ih _ _ _ _ h he z hzn hzv w hw
        · rw [if_neg hv] at h
          rw [vaProcessHead_eq] at h
          obtain ⟨E2, hE2⟩ := (vaLoop_mono pm fuel _ _ _ _ h).1
          have hE2b : st2.errors = (st.errors ++ vaErrs T0 (vaSucc pm head)) ++ E2 := hE2
          have hlen : (vaErrs T0 (vaSucc pm head)).length + E2.length = 0 := by
            have := congrArg List.length (he ▸ hE2b)
            simp only [List.length_append] at this
            omega
          have hvnil : vaErrs T0 (vaSucc pm head) = [] :=
            List.eq_nil_of_length_eq_zero (by omega)
          have hE2nil : E2 = [] := List.eq_nil_of_length_eq_zero (by omega)
          by_cases hz : z = head
          · subst hz
            by_cases hwT : w ∈ T0
            · exact absurd hvnil (vaErrs_ne_nil T0 _ w hw hwT)
            · have hp : (T0 ++ [w]) ∈ (vaPushes T0 (vaSucc pm z)).reverse :=
                List.mem_reverse.mpr (vaPushes_of_mem T0 _ w hw hwT)
              exact vaLoop_heads_visited pm fuel _ _ _ _ h (T0 ++ [w])
                (List.mem_append_left _ hp) w (getLast?_append_singleton _ _)
          · have hz1 : z ∉ (head :: st.visited) := by
              intro hcon
              rcases List.mem_cons.mp hcon with he2 | hm
              · exact hz he2
              · exact hzn hm
            have hnn : st2.errors = st.errors ++ vaErrs T0 (vaSucc pm head) := by
              rw [hE2b, hE2nil, List.append_nil]
            exact ih _ _ _ _ h hnn z hz1 hzv w hw

theorem vaLoop_path_closure (pm : List (Ty × ProvidedType)) (fuel : Nat)
    (σ : List (List Ty)) (st : VaSt) (l : Nat) (st2 : VaSt)
    (h : vaLoop pm fuel σ st = some (l, st2))
    (hne : st2.errors = st.errors) :
    ∀ (q : List Ty) (z : Ty), List.Chain (vaEdge pm) z q →
    z ∉ st.visited → z ∈ st2.visited → (∀ x ∈ q, x ∉ st.visited) →
    ∀ y ∈ z :: q, y ∈ st2.visited := by
  intro q
  induction q with
  | nil =>
    intro z hch hz0 hz1 hq y hy
    have : y = z := by simpa using hy
    rw [this]
    exact hz1
  | cons w q2 ih =>
    intro z hch hz0 hz1 hq y hy
    rw [List.chain_cons] at hch
    have hw : w ∈ st2.visited :=
      vaLoop_edge_closure pm fuel σ st l st2 h hne z hz0 hz1 w hch.1
    rcases List.mem_cons.mp hy with he | hm
    · rw [he]
      exact hz1
    · exact ih w hch.2 (hq w (List.mem_cons_self _ _)) hw
        (fun x hx => hq x (List.mem_cons_of_mem w hx)) y hm

theorem vaLoop_mark_in_trail (pm : List (Ty × ProvidedType)) (u : Ty) :
    ∀ (fuel : Nat) (σ : List (List Ty)) (st : VaSt) (l : Nat) (st2 : VaSt),
    vaLoop pm fuel σ st = some (l, st2) →
    (∀ T ∈ σ, u ∈ T) →
    ∀ z, z ∉ st.visited → z ∈ st2.visited → u ∈ vaSucc pm z →
    ∃ E, st2.errors = st.errors ++ E ∧ E ≠ [] := by
  intro fuel
  induction fuel with
  | zero =>
    intro σ st l st2 h hσ z hzn hzv hsucc
    cases σ with
    | nil =>
      rw [vaLoop] at h
      cases h
      exact absurd hzv hzn
    | cons c σ2 => simp [vaLoop] at h
  | succ fuel ih =>
    intro σ st l st2 h hσ z hzn hzv hsucc
    cases σ with
    | nil =>
      rw [vaLoop] at h
      cases h
      exact absurd hzv hzn
    | cons T0 rest =>
      rw [vaLoop] at h
      cases hl : T0.getLast? with
      | none =>
        rw [hl] at h
        dsimp only at h
        exact ih _ _ _ _ h (fun T hT => hσ T (List.mem_cons_of_mem _ hT)) z hzn hzv hsucc
      | some head =>
        rw [hl] at h
        dsimp only at h
        by_cases hv : head ∈ st.visited
        · rw [if_pos hv] at h
          exact ih _ _ _ _ h (fun T hT => hσ T (List.mem_cons_of_mem _ hT)) z hzn hzv hsucc
        · rw [if_neg hv] at h
          rw [vaProcessHead_eq] at h
          by_cases hz : z = head
          · subst hz
            have huT : u ∈ T0 := hσ T0 (List.mem_cons_self _ _)
            have hvne : vaErrs T0 (vaSucc pm z) ≠ [] := vaErrs_ne_nil T0 _ u hsucc huT
            obtain ⟨E2, hE2⟩ := (vaLoop_mono pm fuel _ _ _ _ h).1
            have hE2b : st2.errors = (st.errors ++ vaErrs T0 (vaSucc pm z)) ++ E2 := hE2
            refine ⟨vaErrs T0 (vaSucc pm z) ++ E2, ?_, ?_⟩
            · rw [hE2b, List.append_assoc]
            · intro hcon
              exact hvne (List.append_eq_nil.mp hcon).1
          · have hz1 : z ∉ (head :: st.visited) := by
              intro hcon
              rcases List.mem_cons.mp hcon with he2 | hm
              · exact hz he2
              · exact hzn hm
            have hσ2 : ∀ T ∈ (vaPushes T0 (vaSucc pm head)).reverse ++ rest, u ∈ T := by
              intro T hT
              rcases List.mem_append.mp hT with hp | hr
              · obtain ⟨a, ha, hTa⟩ := vaPushes_mem T0 _ T (List.mem_reverse.mp hp)
                rw [hTa]
                exact List.mem_append_left _ (hσ T0 (List.mem_cons_self _ _))
              · exact hσ T (List.mem_cons_of_mem _ hr)
            obtain ⟨E, hE, hEne⟩ := ih _ _ _ _ h hσ2 z hz1 hzv hsucc
            have hEb : st2.errors = (st.errors ++ vaErrs T0 (vaSucc pm head)) ++ E := hE
            refine ⟨vaErrs T0 (vaSucc pm head) ++ E, ?_, ?_⟩
            · rw [hEb, List.append_assoc]
            · intro hcon
              exact hEne (List.append_eq_nil.mp hcon).2

theorem chain_take_left {R : Ty → Ty → Prop} :
    ∀ (q l : List Ty) (z : Ty), List.Chain R z (q ++ l) → List.Chain R z q := by
  intro q
  induction q with
  | nil =>
    intro l z h
    exact List.Chain.nil
  | cons a q2 ih =>
    intro l z h
    rw [List.cons_append, List.chain_cons] at h
    exact List.chain_cons.mpr ⟨h.1, ih l a h.2⟩

theorem chain_last_edge {R : Ty → Ty → Prop} :
    ∀ (q : List Ty) (z u : Ty), List.Chain R z (q ++ [u]) →
    ∃ zl, (z :: q).getLast? = some zl ∧ R zl u := by
  intro q
  induction q with
  | nil =>
    intro z u h
    rw [List.nil_append, List.chain_cons] at h
    exact ⟨z, rfl, h.1⟩
  | cons a q2 ih =>
    intro z u h
    rw [List.cons_append, List.chain_cons] at h
    obtain ⟨zl, h1, h2⟩ := ih a u h.2
    refine ⟨zl, ?_, h2⟩
    rw [List.getLast?_cons_cons]
    exact h1

theorem chain_first_return {R : Ty → Ty → Prop} :
    ∀ (n : Nat) (q : List Ty) (u : Ty), q.length ≤ n → List.Chain R u (q ++ [u]) →
    ∃ q2, List.Chain R u (q2 ++ [u]) ∧ u ∉ q2 ∧ ∀ x ∈ q2, x ∈ q := by
  intro n
  induction n with
  | zero =>
    intro q u hlen h
    have hq : q = [] := List.eq_nil_of_length_eq_zero (by omega)
    subst hq
    exact ⟨[], h, by simp, by simp⟩
  | succ n ih =>
    intro q u hlen h
    by_cases hu : u ∈ q
    · obtain ⟨s, t, hst⟩ := List.append_of_mem hu
      subst hst
      rw [List.append_assoc] at h
      have hsplit := List.chain_split.mp h
      have hslen : s.length ≤ n := by
        have := hlen
        simp [List.length_append] at this
        omega
      obtain ⟨q2, hc, hnu, hsub⟩ := ih s u hslen hsplit.1
      exact ⟨q2, hc, hnu, fun x hx => List.mem_append_left _ (hsub x hx)⟩
    · exact ⟨q, h, hu, fun x hx => hx⟩

theorem cycle_rotate (pm : List (Ty × ProvidedType)) (t : Ty) (p : List Ty)
    (hcyc : CycleAt pm t p) :
    ∀ u ∈ t :: p, ∃ q, List.Chain (vaEdge pm) u (q ++ [u]) ∧ u ∉ q ∧
      ∀ x ∈ q, x ∈ t :: p := by
  intro u hu
  rcases List.mem_cons.mp hu with he | hp
  · subst he
    obtain ⟨q2, hc, hnu, hsub⟩ := chain_first_return p.length p u (Nat.le_refl _) hcyc
    exact ⟨q2, hc, hnu, fun x hx => List.mem_cons_of_mem _ (hsub x hx)⟩
  · obtain ⟨s, t2, hst⟩ := List.append_of_mem hp
    have hcyc2 : List.Chain (vaEdge pm) t ((s ++ u :: t2) ++ [t]) := by
      rw [← hst]
      exact hcyc
    rw [List.append_assoc] at hcyc2
    have hsplit := List.chain_split.mp hcyc2
    have hglue : List.Chain (vaEdge pm) u (t2 ++ t :: (s ++ [u])) :=
      List.chain_split.mpr ⟨hsplit.2, hsplit.1⟩
    have hassoc : t2 ++ t :: (s ++ [u]) = (t2 ++ t :: s) ++ [u] := by
      rw [List.append_assoc, List.cons_append]
    rw [hassoc] at hglue
    obtain ⟨q2, hc, hnu, hsub⟩ := chain_first_return (t2 ++ t :: s).length _ u
      (Nat.le_refl _) hglue
    refine ⟨q2, hc, hnu, fun x hx => ?_⟩
    have hx2 := hsub x hx
    rcases List.mem_append.mp hx2 with h1 | h2
    · rw [hst]
      exact List.mem_cons_of_mem _ (List.mem_append_right _ (List.mem_cons_of_mem _ h1))
    · rcases List.mem_cons.mp h2 with he | hs2
      · rw [he]
        exact List.mem_cons_self _ _
      · rw [hst]
        exact List.mem_cons_of_mem _ (List.mem_append_left _ hs2)

theorem vaLoop_no_cycle_marked (pm : List (Ty × ProvidedType)) (W : List Ty)
    (hW : ∀ u ∈ W, ∃ q, List.Chain (vaEdge pm) u (q ++ [u]) ∧ u ∉ q ∧
      ∀ x ∈ q, x ∈ W) :
    ∀ (fuel : Nat) (σ : List (List Ty)) (st : VaSt) (l : Nat) (st2 : VaSt),
    vaLoop pm fuel σ st = some (l, st2) → st2.errors = st.errors →
    (∀ x ∈ W, x ∉ st.visited) →
    (∃ u, u ∈ W ∧ u ∈ st2.visited) → False := by
  intro fuel
  induction fuel with
  | zero =>
    intro σ st l st2 h he hx0 hmark
    cases σ with
    | nil =>
      rw [vaLoop] at h
      cases h
      obtain ⟨u, huW, huv⟩ := hmark
      exact hx0 u huW huv
    | cons c σ2 => simp [vaLoop] at h
  | succ fuel ih =>
    intro σ st l st2 h he hx0 hmark
    cases σ with
    | nil =>
      rw [vaLoop] at h
      cases h
      obtain ⟨u, huW, huv⟩ := hmark
      exact hx0 u huW huv
    | cons T0 rest =>
      rw [vaLoop] at h
      cases hl : T0.getLast? with
      | none =>
        rw [hl] at h
        dsimp only at h
        exact ih _ _ _ _ h he hx0 hmark
      | some head =>
        rw [hl] at h
        dsimp only at h
        by_cases hv : head ∈ st.visited
        · rw [if_pos hv] at h
          exact ih _ _ _ _ h he hx0 hmark
        · rw [if_neg hv] at h
          rw [vaProcessHead_eq] at h
          obtain ⟨E2, hE2⟩ := (vaLoop_mono pm fuel _ _ _ _ h).1
          have hE2b : st2.errors = (st.errors ++ vaErrs T0 (vaSucc pm head)) ++ E2 := hE2
          have hlen : (vaErrs T0 (vaSucc pm head)).length + E2.length = 0 := by
            have := congrArg List.length (he ▸ hE2b)
            simp only [List.length_append] at this
            omega
          have hvnil : vaErrs T0 (vaSucc pm head) = [] :=
            List.eq_nil_of_length_eq_zero (by omega)
          have hE2nil : E2 = [] := List.eq_nil_of_length_eq_zero (by omega)
          by_cases hh : head ∈ W
          · obtain ⟨q, hchain, hnq, hqW⟩ := hW head hh
            cases q with
            | nil =>
              have hedge : vaEdge pm head head := by
                have hc2 := hchain
                rw [List.nil_append, List.chain_cons] at hc2
                exact hc2.1
              have hheadT : head ∈ T0 := mem_of_getLast? T0 head hl
              exact absurd hvnil (vaErrs_ne_nil T0 _ head hedge hheadT)
            | cons w q2 =>
              obtain ⟨⟨m1, mS⟩, hA, hB⟩ := (vaLoop_append pm fuel _ rest _ _).mp h
              obtain ⟨EA, hEA⟩ := (vaLoop_mono pm fuel _ _ _ _ hA).1
              obtain ⟨EB, hEB⟩ := (vaLoop_mono pm m1 _ _ _ _ hB).1
              have hEAb : mS.errors = (st.errors ++ vaErrs T0 (vaSucc pm head)) ++ EA := hEA
              have hstM : mS.errors = st.errors ++ EA := by
                rw [hEAb, hvnil, List.append_nil]
              have hlen2 : EA.length + EB.length = 0 := by
                have hx : st.errors = (st.errors ++ EA) ++ EB := by
                  rw [← hstM, ← hEB, he]
                have := congrArg List.length hx
                simp only [List.length_append] at this
                omega
              have hEAnil : EA = [] := List.eq_nil_of_length_eq_zero (by omega)
              have hAnn : mS.errors = st.errors ++ vaErrs T0 (vaSucc pm head) := by
                rw [hstM, hEAnil, List.append_nil, hvnil, List.append_nil]
              have hchain2 : List.Chain (vaEdge pm) head (w :: (q2 ++ [head])) := hchain
              rw [List.chain_cons] at hchain2
              by_cases hwT : w ∈ T0
              · exact absurd hvnil (vaErrs_ne_nil T0 _ w hchain2.1 hwT)
              · have hpush : (T0 ++ [w]) ∈ (vaPushes T0 (vaSucc pm head)).reverse :=
                  List.mem_reverse.mpr (vaPushes_of_mem T0 _ w hchain2.1 hwT)
                have hwA : w ∈ mS.visited :=
                  vaLoop_heads_visited pm fuel _ _ _ _ hA (T0 ++ [w]) hpush w
                    (getLast?_append_singleton _ _)
                have hwW : w ∈ W := hqW w (List.mem_cons_self _ _)
                have hwne : w ≠ head := by
                  intro hcon
                  apply hnq
                  rw [hcon]
                  exact List.mem_cons_self _ _
                have hwst1 : w ∉ (head :: st.visited) := by
                  intro hcon
                  rcases List.mem_cons.mp hcon with he2 | hm
                  · exact hwne he2
                  · exact hx0 w hwW hm
                have hchw : List.Chain (vaEdge pm) w q2 :=
                  chain_take_left q2 [head] w hchain2.2
                have hqnotv : ∀ x ∈ q2, x ∉ (head :: st.visited) := by
                  intro x hx hcon
                  rcases List.mem_cons.mp hcon with he2 | hm
                  · apply hnq
                    rw [← he2]
                    exact List.mem_cons_of_mem _ hx
                  · exact hx0 x (hqW x (List.mem_cons_of_mem _ hx)) hm
                have hall := vaLoop_path_closure pm fuel _ _ _ _ hA hAnn q2 w hchw
                  hwst1 hwA hqnotv
                obtain ⟨zl, hzl, hedge⟩ := chain_last_edge q2 w head hchain2.2
                have hzlmem : zl ∈ w :: q2 := mem_of_getLast? _ _ hzl
                have hzlv : zl ∈ mS.visited := hall zl hzlmem
                have hzlW : zl ∈ W := by
                  rcases List.mem_cons.mp hzlmem with he2 | hm
                  · rw [he2]
                    exact hwW
                  · exact hqW zl (List.mem_cons_of_mem _ hm)
                have hzlne : zl ≠ head := by
                  intro hcon
                  apply hnq
                  rw [← hcon]
                  exact hzlmem
                have hzlst1 : zl ∉ (head :: st.visited) := by
                  intro hcon
                  rcases List.mem_cons.mp hcon with he2 | hm
                  · exact hzlne he2
                  · exact hx0 zl hzlW hm
                have hσA : ∀ T ∈ (vaPushes T0 (vaSucc pm head)).reverse, head ∈ T := by
                  intro T hT
                  obtain ⟨a, ha, hTa⟩ := vaPushes_mem T0 _ T (List.mem_reverse.mp hT)
                  rw [hTa]
                  exact List.mem_append_left _ (mem_of_getLast? T0 head hl)
                obtain ⟨EM, hEM, hEMne⟩ := vaLoop_mark_in_trail pm head fuel _ _ _ _ hA
                  hσA zl hzlst1 hzlv hedge
                have hEMb : mS.errors = (st.errors ++ vaErrs T0 (vaSucc pm head)) ++ EM := hEM
                rw [hAnn] at hEMb
                have := congrArg List.length hEMb
                simp only [List.length_append] at this
                exact hEMne (List.eq_nil_of_length_eq_zero (by omega))
          · have hnn : st2.errors = st.errors ++ vaErrs T0 (vaSucc pm head) := by
              rw [hE2b, hE2nil, List.append_nil]
            have hx1 : ∀ x ∈ W, x ∉ (head :: st.visited) := by
              intro x hxW hcon
              rcases List.mem_cons.mp hcon with he2 | hm
              · rw [he2] at hxW
                exact hh hxW
              · exact hx0 x hxW hm
            exact ih _ _ _ _ h hnn hx1 hmark

theorem tmAt_exists_mem {α : Type} (m : List (Ty × α)) (t : Ty) (v : α)
    (h : tmAt m t = some v) : ∃ e ∈ m, e.2 = v := by
  rw [tmAt] at h
  cases hf : m.find? (fun e => e.1 == t) with
  | none =>
    rw [hf] at h
    cases h
  | some e =>
    rw [hf] at h
    refine ⟨e, List.mem_of_find?_eq_some hf, ?_⟩
    simpa using h

theorem foldl_max_init_le {α : Type} (f : α → Nat) :
    ∀ (l : List α) (init : Nat), init ≤ l.foldl (fun m e => max m (f e)) init := by
  intro l
  induction l with
  | nil =>
    intro init
    exact Nat.le_refl _
  | cons a l2 ih =>
    intro init
    rw [List.foldl_cons]
    exact Nat.le_trans (Nat.le_max_left _ _) (ih _)

theorem foldl_max_mem_le {α : Type} (f : α → Nat) :
    ∀ (l : List α) (init : Nat) (x : α), x ∈ l →
    f x ≤ l.foldl (fun m e => max m (f e)) init := by
  intro l
  induction l with
  | nil =>
    intro init x hx
    simp at hx
  | cons a l2 ih =>
    intro init x hx
    rw [List.foldl_cons]
    rcases List.mem_cons.mp hx with he | hm
    · subst he
      exact Nat.le_trans (Nat.le_max_right _ _) (foldl_max_init_le f l2 _)
    · exact ih _ x hm

theorem vaSucc_len_le (pm : List (Ty × ProvidedType)) (head : Ty) :
    (vaSucc pm head).length ≤ maxArgs pm := by
  rw [vaSucc]
  cases htm : tmAt pm head with
  | none => simp
  | some pt =>
    dsimp only
    by_cases hv : pt.v.isSome = true
    · simp [if_pos hv]
    · simp only [if_neg hv]
      cases hp : pt.p with
      | none => simp
      | some p =>
        obtain ⟨e, he, hev⟩ := tmAt_exists_mem pm head pt htm
        have := foldl_max_mem_le
          (fun e => match e.2.p with | some p => p.args.length | none => 0) pm 0 e he
        rw [maxArgs]
        dsimp only at this
        rw [hev, hp] at this
        simpa using this

theorem vaPushes_len_le (curr : List Ty) :
    ∀ (args : List Ty), (vaPushes curr args).length ≤ args.length := by
  intro args
  induction args with
  | nil => simp [vaPushes]
  | cons a as ih =>
    rw [vaPushes]
    by_cases hmem : a ∈ curr
    · rw [if_pos hmem]
      simp only [List.length_cons]
      omega
    · rw [if_neg hmem]
      simp only [List.length_cons]
      omega

theorem filter_length_mono {α : Type} (P1 P2 : α → Bool)
    (himp : ∀ k, P2 k = true → P1 k = true) :
    ∀ (l : List α), (l.filter P2).length ≤ (l.filter P1).length := by
  intro l
  induction l with
  | nil => simp
  | cons a l2 ih =>
    cases hP2 : P2 a with
    | true =>
      have hP1 := himp a hP2
      simp only [List.filter_cons, hP2, hP1, if_true, List.length_cons]
      omega
    | false =>
      cases hP1 : P1 a with
      | true =>
        simp [List.filter_cons, hP2, hP1]
        omega
      | false =>
        simp [List.filter_cons, hP2, hP1]
        omega

theorem filter_length_strict {α : Type} [DecidableEq α] (P1 P2 : α → Bool)
    (himp : ∀ k, P2 k = true → P1 k = true) (h2 : α)
    (hP1h : P1 h2 = true) (hP2h : P2 h2 = false) :
    ∀ (l : List α), h2 ∈ l →
    (l.filter P2).length < (l.filter P1).length := by
  intro l
  induction l with
  | nil =>
    intro hm
    simp at hm
  | cons a l2 ih =>
    intro hm
    by_cases hea : a = h2
    · subst hea
      have hmono := filter_length_mono P1 P2 himp l2
      simp only [List.filter_cons, hP1h, hP2h, if_true, List.length_cons]
      simp only [Bool.false_eq_true, if_false]
      omega
    · have hm2 : h2 ∈ l2 := by
        rcases List.mem_cons.mp hm with he | hmm2
        · exact absurd he.symm hea
        · exact hmm2
      have hlt := ih hm2
      cases hP2 : P2 a with
      | true =>
        have hP1 := himp a hP2
        simp only [List.filter_cons, hP2, hP1, if_true, List.length_cons]
        omega
      | false =>
        cases hP1 : P1 a with
        | true =>
          simp [List.filter_cons, hP2, hP1]
          omega
        | false =>
          simp [List.filter_cons, hP2, hP1]
          omega

theorem vaLoop_term (pm : List (Ty × ProvidedType)) :
    ∀ (fuel : Nat) (σ : List (List Ty)) (st : VaSt),
    σ.length + (1 + maxArgs pm) *
      ((tmKeys pm).filter (fun k => decide (k ∉ st.visited))).length ≤ fuel →
    ∃ l st2, vaLoop pm fuel σ st = some (l, st2) := by
  intro fuel
  induction fuel with
  | zero =>
    intro σ st hΦ
    cases σ with
    | nil => exact ⟨0, st, by rw [vaLoop]⟩
    | cons T0 rest =>
      exfalso
      simp only [List.length_cons] at hΦ
      omega
  | succ n ih =>
    intro σ st hΦ
    cases σ with
    | nil => exact ⟨n + 1, st, by rw [vaLoop]⟩
    | cons T0 rest =>
      simp only [List.length_cons] at hΦ
      rw [vaLoop]
      cases hl : T0.getLast? with
      | none =>
        dsimp only
        apply ih rest st
        omega
      | some head =>
        dsimp only
        by_cases hv : head ∈ st.visited
        · rw [if_pos hv]
          apply ih rest st
          omega
        · rw [if_neg hv]
          rw [vaProcessHead_eq]
          have hKmono : ∀ k, decide (k ∉ head :: st.visited) = true →
              decide (k ∉ st.visited) = true := by
            intro k hk
            simp at hk ⊢
            exact fun hc => hk.2 hc
          cases htm : tmAt pm head with
          | none =>
            have hS : vaSucc pm head = [] := by
              rw [vaSucc, htm]
            rw [hS]
            have hmono := filter_length_mono _ _ hKmono (tmKeys pm)
            apply ih
            simp only [vaPushes, List.reverse_nil, List.nil_append]
            dsimp only
            have hmul := Nat.mul_le_mul_left (1 + maxArgs pm) hmono
            omega
          | some pt =>
            have hmem : head ∈ tmKeys pm := by
              rw [← tmAt_isSome_iff_mem, htm]
              rfl
            have hstrict := filter_length_strict
              (fun k => decide (k ∉ st.visited))
              (fun k => decide (k ∉ head :: st.visited)) hKmono head
              (by simpa using hv)
              (by simp)
              (tmKeys pm) hmem
            have hplen : ((vaPushes T0 (vaSucc pm head)).reverse).length ≤ maxArgs pm := by
              rw [List.length_reverse]
              exact Nat.le_trans (vaPushes_len_le _ _) (vaSucc_len_le pm head)
            apply ih
            rw [List.length_append]
            dsimp only
            have hmul := Nat.mul_le_mul_left (1 + maxArgs pm) hstrict
            rw [Nat.mul_succ] at hmul
            omega

theorem vaFold_isSome (pm : List (Ty × ProvidedType)) :
    ∀ (roots : List Ty) (st : VaSt),
    ∃ stF, List.foldlM
      (fun (st : VaSt) root => (vaLoop pm (vaFuel pm) [[root]] st).map (·.2))
      st roots = some stF := by
  intro roots
  induction roots with
  | nil =>
    intro st
    exact ⟨st, by simp⟩
  | cons r rs ih =>
    intro st
    have hmeas : ([[r]] : List (List Ty)).length + (1 + maxArgs pm) *
        ((tmKeys pm).filter (fun k => decide (k ∉ st.visited))).length ≤ vaFuel pm := by
      have hK : ((tmKeys pm).filter (fun k => decide (k ∉ st.visited))).length ≤
          (tmKeys pm).length := List.length_filter_le _ _
      have hmul := Nat.mul_le_mul_left (1 + maxArgs pm) hK
      rw [vaFuel]
      simp only [List.length_cons, List.length_nil]
      omega
    obtain ⟨l1, st1, hr⟩ := vaLoop_term pm (vaFuel pm) [[r]] st hmeas
    obtain ⟨stF, hF⟩ := ih st1
    refine ⟨stF, ?_⟩
    rw [List.foldlM_cons, hr]
    simpa using hF

theorem vaFold_mono (pm : List (Ty × ProvidedType)) :
    ∀ (roots : List Ty) (st : VaSt) (stF : VaSt),
    List.foldlM
      (fun (st : VaSt) root => (vaLoop pm (vaFuel pm) [[root]] st).map (·.2))
      st roots = some stF →
    (∃ E, stF.errors = st.errors ++ E) ∧ (∀ x ∈ st.visited, x ∈ stF.visited) := by
  intro roots
  induction roots with
  | nil =>
    intro st stF h
    simp at h
    rw [← h]
    exact ⟨⟨[], by simp⟩, fun x hx => hx⟩
  | cons r rs ih =>
    intro st stF h
    rw [List.foldlM_cons] at h
    cases hr : vaLoop pm (vaFuel pm) [[r]] st with
    | none =>
      rw [hr] at h
      simp at h
    | some pr =>
      obtain ⟨l1, st1⟩ := pr
      rw [hr] at h
      have h2 : List.foldlM
          (fun (st : VaSt) root => (vaLoop pm (vaFuel pm) [[root]] st).map (·.2))
          st1 rs = some stF := by simpa using h
      obtain ⟨⟨E1, hE1⟩, hV1⟩ := vaLoop_mono pm (vaFuel pm) _ _ _ _ hr
      obtain ⟨⟨E2, hE2⟩, hV2⟩ := ih st1 stF h2
      exact ⟨⟨E1 ++ E2, by rw [hE2, hE1, List.append_assoc]⟩,
        fun x hx => hV2 x (hV1 x hx)⟩

theorem vaFold_roots_visited (pm : List (Ty × ProvidedType)) :
    ∀ (roots : List Ty) (st : VaSt) (stF : VaSt),
    List.foldlM
      (fun (st : VaSt) root => (vaLoop pm (vaFuel pm) [[root]] st).map (·.2))
      st roots = some stF →
    ∀ r ∈ roots, r ∈ stF.visited := by
  intro roots
  induction roots with
  | nil =>
    intro st stF h r hr
    simp at hr
  | cons r0 rs ih =>
    intro st stF h r hr
    rw [List.foldlM_cons] at h
    cases hr0 : vaLoop pm (vaFuel pm) [[r0]] st with
    | none =>
      rw [hr0] at h
      simp at h
    | some pr =>
      obtain ⟨l1, st1⟩ := pr
      rw [hr0] at h
      have h2 : List.foldlM
          (fun (st : VaSt) root => (vaLoop pm (vaFuel pm) [[root]] st).map (·.2))
          st1 rs = some stF := by simpa using h
      rcases List.mem_cons.mp hr with he | hm
      · subst he
        have hv1 : r ∈ st1.visited :=
          vaLoop_heads_visited pm (vaFuel pm) _ _ _ _ hr0 [r]
            (List.mem_cons_self _ _) r rfl
        exact (vaFold_mono pm rs st1 stF h2).2 r hv1
      · exact ih st1 stF h2 r hm

theorem vaFold_no_cycle (pm : List (Ty × ProvidedType)) (W : List Ty)
    (hW : ∀ u ∈ W, ∃ q, List.Chain (vaEdge pm) u (q ++ [u]) ∧ u ∉ q ∧
      ∀ x ∈ q, x ∈ W) :
    ∀ (roots : List Ty) (st : VaSt) (stF : VaSt),
    List.foldlM
      (fun (st : VaSt) root => (vaLoop pm (vaFuel pm) [[root]] st).map (·.2))
      st roots = some stF →
    stF.errors = st.errors →
    (∀ x ∈ W, x ∉ st.visited) →
    (∃ u, u ∈ W ∧ u ∈ stF.visited) → False := by
  intro roots
  induction roots with
  | nil =>
    intro st stF h he hx0 hmark
    simp at h
    obtain ⟨u, huW, huv⟩ := hmark
    rw [← h] at huv
    exact hx0 u huW huv
  | cons r rs ih =>
    intro st stF h he hx0 hmark
    rw [List.foldlM_cons] at h
    cases hr : vaLoop pm (vaFuel pm) [[r]] st with
    | none =>
      rw [hr] at h
      simp at h
    | some pr =>
      obtain ⟨l1, st1⟩ := pr
      rw [hr] at h
      have h2 : List.foldlM
          (fun (st : VaSt) root => (vaLoop pm (vaFuel pm) [[root]] st).map (·.2))
          st1 rs = some stF := by simpa using h
      obtain ⟨E1, hE1⟩ := (vaLoop_mono pm (vaFuel pm) _ _ _ _ hr).1
      obtain ⟨E2, hE2⟩ := (vaFold_mono pm rs st1 stF h2).1
      have hlen : E1.length + E2.length = 0 := by
        have hx : st.errors = (st.errors ++ E1) ++ E2 := by
          rw [← hE1, ← hE2, he]
        have := congrArg List.length hx
        simp only [List.length_append] at this
        omega
      have hE1nil : E1 = [] := List.eq_nil_of_length_eq_zero (by omega)
      have hE2nil : E2 = [] := List.eq_nil_of_length_eq_zero (by omega)
      by_cases hmid : ∃ u, u ∈ W ∧ u ∈ st1.visited
      · exact vaLoop_no_cycle_marked pm W hW (vaFuel pm) _ _ _ _ hr
          (by rw [hE1, hE1nil, List.append_nil]) hx0 hmid
      · apply ih st1 stF h2 (by rw [hE2, hE2nil, List.append_nil]) ?_ hmark
        intro x hxW hxv
        exact hmid ⟨x, hxW, hxv⟩

theorem vaSucc_key (pm : List (Ty × ProvidedType)) (a b : Ty)
    (h : b ∈ vaSucc pm a) : a ∈ tmKeys pm := by
  rw [vaSucc] at h
  cases htm : tmAt pm a with
  | none =>
    rw [htm] at h
    simp at h
  | some pt =>
    rw [← tmAt_isSome_iff_mem, htm]
    rfl

theorem charListLe_total : ∀ (a b : List Char),
    charListLe a b = true ∨ charListLe b a = true := by
  intro a
  induction a with
  | nil =>
    intro b
    left
    rw [charListLe]
  | cons x xs ih =>
    intro b
    cases b with
    | nil =>
      right
      rw [charListLe]
    | cons y ys =>
      by_cases hlt : x.toNat < y.toNat
      · left
        rw [charListLe, if_pos hlt]
      · by_cases hgt : y.toNat < x.toNat
        · right
          rw [charListLe, if_pos hgt]
        · rcases ih ys with h | h
          · left
            rw [charListLe, if_neg hlt, if_neg hgt]
            exact h
          · right
            rw [charListLe, if_neg hgt, if_neg hlt]
            exact h

theorem charListLe_trans : ∀ (a b c : List Char),
    charListLe a b = true → charListLe b c = true → charListLe a c = true := by
  intro a
  induction a with
  | nil =>
    intro b c h1 h2
    rw [charListLe]
  | cons x xs ih =>
    intro b c h1 h2
    cases b with
    | nil =>
      rw [charListLe] at h1
      cases h1
    | cons y ys =>
      cases c with
      | nil =>
        rw [charListLe] at h2
        cases h2
      | cons z zs =>
        rw [charListLe] at h1 h2 ⊢
        by_cases hxy : x.toNat < y.toNat
        · by_cases hyz : y.toNat < z.toNat
          · rw [if_pos (Nat.lt_trans hxy hyz)]
          · by_cases hzy : z.toNat < y.toNat
            · rw [if_neg hyz, if_pos hzy] at h2
              cases h2
            · have hxz : x.toNat < z.toNat := by omega
              rw [if_pos hxz]
        · by_cases hyx : y.toNat < x.toNat
          · rw [if_neg hxy, if_pos hyx] at h1
            cases h1
          · rw [if_neg hxy, if_neg hyx] at h1
            by_cases hyz : y.toNat < z.toNat
            · have hxz : x.toNat < z.toNat := by omega
              rw [if_pos hxz]
            · by_cases hzy : z.toNat < y.toNat
              · rw [if_neg hyz, if_pos hzy] at h2
                cases h2
              · rw [if_neg hyz, if_neg hzy] at h2
                have hxz : ¬x.toNat < z.toNat := by omega
                have hzx : ¬z.toNat < x.toNat := by omega
                rw [if_neg hxz, if_neg hzx]
                exact ih ys zs h1 h2

theorem typeStrLe_total (a b : Ty) : typeStrLe a b = true ∨ typeStrLe b a = true :=
  charListLe_total _ _

theorem typeStrLe_trans (a b c : Ty) (h1 : typeStrLe a b = true)
    (h2 : typeStrLe b c = true) : typeStrLe a c = true :=
  charListLe_trans _ _ _ h1 h2

theorem insertSorted_mem (le : Ty → Ty → Bool) :
    ∀ (l : List Ty) (x z : Ty), z ∈ insertSorted le x l → z = x ∨ z ∈ l := by
  intro l
  induction l with
  | nil =>
    intro x z hz
    rw [insertSorted] at hz
    exact Or.inl (by simpa using hz)
  | cons y ys ih =>
    intro x z hz
    rw [insertSorted] at hz
    by_cases hxy : le x y = true
    · rw [if_pos hxy] at hz
      rcases List.mem_cons.mp hz with he | hm
      · exact Or.inl he
      · exact Or.inr hm
    · rw [if_neg hxy] at hz
      rcases List.mem_cons.mp hz with he | hm
      · exact Or.inr (he ▸ List.mem_cons_self _ _)
      · rcases ih x z hm with h | h
        · exact Or.inl h
        · exact Or.inr (List.mem_cons_of_mem _ h)

theorem insertSorted_pairwise (le : Ty → Ty → Bool)
    (htot : ∀ a b, le a b = true ∨ le b a = true)
    (htrans : ∀ a b c, le a b = true → le b c = true → le a c = true) :
    ∀ (l : List Ty) (x : Ty), List.Pairwise (fun a b => le a b = true) l →
    List.Pairwise (fun a b => le a b = true) (insertSorted le x l) := by
  intro l
  induction l with
  | nil =>
    intro x hp
    rw [insertSorted]
    simp
  | cons y ys ih =>
    intro x hp
    rw [List.pairwise_cons] at hp
    rw [insertSorted]
    by_cases hxy : le x y = true
    · rw [if_pos hxy]
      rw [List.pairwise_cons]
      refine ⟨?_, List.pairwise_cons.mpr hp⟩
      intro z hz
      rcases List.mem_cons.mp hz with he | hm
      · rw [he]
        exact hxy
      · exact htrans x y z hxy (hp.1 z hm)
    · rw [if_neg hxy]
      have hyx : le y x = true := by
        rcases htot x y with h | h
        · exact absurd h hxy
        · exact h
      rw [List.pairwise_cons]
      refine ⟨?_, ih x hp.2⟩
      intro z hz
      rcases insertSorted_mem le ys x z hz with he | hm
      · rw [he]
        exact hyx
      · exact hp.1 z hm

theorem insertSorted_perm (le : Ty → Ty → Bool) :
    ∀ (l : List Ty) (x : Ty), List.Perm (insertSorted le x l) (x :: l) := by
  intro l
  induction l with
  | nil =>
    intro x
    rw [insertSorted]
  | cons y ys ih =>
    intro x
    rw [insertSorted]
    by_cases hxy : le x y = true
    · rw [if_pos hxy]
    · rw [if_neg hxy]
      exact List.Perm.trans (List.Perm.cons y (ih x)) (List.Perm.swap x y ys)

theorem sortByLe_pairwise (le : Ty → Ty → Bool)
    (htot : ∀ a b, le a b = true ∨ le b a = true)
    (htrans : ∀ a b c, le a b = true → le b c = true → le a c = true) :
    ∀ (l : List Ty), List.Pairwise (fun a b => le a b = true) (sortByLe le l) := by
  intro l
  induction l with
  | nil =>
    rw [sortByLe]
    exact List.Pairwise.nil
  | cons x xs ih =>
    rw [sortByLe]
    exact insertSorted_pairwise le htot htrans _ x ih

theorem sortByLe_perm (le : Ty → Ty → Bool) :
    ∀ (l : List Ty), List.Perm (sortByLe le l) l := by
  intro l
  induction l with
  | nil =>
    rw [sortByLe]
  | cons x xs ih =>
    rw [sortByLe]
    exact List.Perm.trans (insertSorted_perm le _ x) (List.Perm.cons x ih)

/-- C3 counterexample: for the provider map of `{pA : 21 × 22 → 20,
pB : 20 → 21, pC : 20 → 22}`, whose dependency graph is one
strongly-connected component `{20, 21, 22}` (every node reaches every other),
the acyclicity check reports TWO Cycle errors, not exactly one per
strongly-connected component: one per back edge found by the trail DFS. -/
theorem cycle_two_errors_one_scc :
    verifyAcyclic exCycPM = [.cycleFor 20 [20, 22], .cycleFor 20 [20, 21]] ∧
    (∀ a ∈ [(20 : Ty), 21, 22], ∀ b ∈ [(20 : Ty), 21, 22],
      b ∈ reachWithin exCycPM 3 a) := by
  decide

/-- C3 (amended): every provider map whose derived dependency graph contains a
cycle is rejected: the acyclicity check returns at least one error (one per
back edge found, which can exceed one per strongly-connected component), so
`processNewSet` returns those errors instead of a built set — the solver is
never reached for such a set — and the DFS roots are the keys sorted
deterministically by textual type representation. -/
theorem cycle_rejected_no_set_sorted_roots
    (id pos : Nat) (pkgPath varName : String) (providers : List Provider)
    (bindings : List IfaceBinding) (values : List Value) (imports : List ProviderSet)
    (pm : List (Ty × ProvidedType)) (sm : List (Ty × ProviderSetSrc))
    (t : Ty) (p : List Ty)
    (hbuild : buildProviderMap
      (.mk id pos pkgPath varName providers bindings values imports [] []) =
      .ok (pm, sm))
    (hcyc : CycleAt pm t p) :
    verifyAcyclic pm ≠ [] ∧
    processNewSet id pos pkgPath varName providers bindings values imports =
      .error (verifyAcyclic pm) ∧
    List.Pairwise (fun a b => typeStrLe a b = true) (sortRoots (tmKeys pm)) ∧
    List.Perm (sortRoots (tmKeys pm)) (tmKeys pm) := by
  obtain ⟨stF, hF⟩ := vaFold_isSome pm (sortRoots (tmKeys pm)) ⟨[], []⟩
  have hva : verifyAcyclic pm = stF.errors := by
    rw [verifyAcyclic, verifyAcyclicRun, hF]
    rfl
  have hne : verifyAcyclic pm ≠ [] := by
    rw [hva]
    intro hcon
    have hW := cycle_rotate pm t p hcyc
    have htk : t ∈ tmKeys pm := by
      cases hp2 : p with
      | nil =>
        subst hp2
        have hc2 : List.Chain (vaEdge pm) t ([] ++ [t]) := hcyc
        rw [List.nil_append, List.chain_cons] at hc2
        exact vaSucc_key pm t t hc2.1
      | cons w p2 =>
        subst hp2
        have hc2 : List.Chain (vaEdge pm) t ((w :: p2) ++ [t]) := hcyc
        rw [List.cons_append, List.chain_cons] at hc2
        exact vaSucc_key pm t w hc2.1
    have htsr : t ∈ sortRoots (tmKeys pm) := by
      rw [sortRoots]
      exact ((sortByLe_perm typeStrLe (tmKeys pm)).mem_iff).mpr htk
    have htv : t ∈ stF.visited := vaFold_roots_visited pm _ _ _ hF t htsr
    exact vaFold_no_cycle pm (t :: p) hW _ _ _ hF (by rw [hcon])
      (by intro x hx hcon2; simp at hcon2)
      ⟨t, List.mem_cons_self _ _, htv⟩
  refine ⟨hne, ?_, ?_, ?_⟩
  · rw [processNewSet, hbuild]
    dsimp only
    cases hE : verifyAcyclic pm with
    | nil => exact absurd hE hne
    | cons e es => rfl
  · rw [sortRoots]
    exact sortByLe_pairwise typeStrLe typeStrLe_total typeStrLe_trans _
  · rw [sortRoots]
    exact sortByLe_perm typeStrLe _

theorem cycle_rejected_no_set_sorted_roots_witness :
    CycleAt exCycPM 20 [21] ∧
    (verifyAcyclic exCycPM ≠ [] ∧
     processNewSet 200 0 "p" "Cyc" [exPA, exPB, exPC] [] [] [] =
       .error (verifyAcyclic exCycPM) ∧
     List.Pairwise (fun a b => typeStrLe a b = true) (sortRoots (tmKeys exCycPM)) ∧
     List.Perm (sortRoots (tmKeys exCycPM)) (tmKeys exCycPM)) := by
  have hcyc : CycleAt exCycPM 20 [21] :=
    List.Chain.cons (by rw [vaEdge]; decide)
      (List.Chain.cons (by rw [vaEdge]; decide) List.Chain.nil)
  have hbuild : buildProviderMap
      (.mk 200 0 "p" "Cyc" [exPA, exPB, exPC] [] [] [] [] []) =
      .ok (exCycPM,
        [(20, ⟨some exPA, none, none, none⟩),
         (21, ⟨some exPB, none, none, none⟩),
         (22, ⟨some exPC, none, none, none⟩)]) := by decide
  exact ⟨hcyc, cycle_rejected_no_set_sorted_roots 200 0 "p" "Cyc" [exPA, exPB, exPC]
    [] [] [] exCycPM _ 20 [21] hbuild hcyc⟩
